import Mathlib

/-!
Verification of the facade PNG/steganography library (libfacade).

This file gives a shallow embedding, in Lean 4, of the parts of libfacade
that the specification's claims are about:

* the chunk framer (`ChunkPtr::parse` in `src/png.cpp`),
* the sub-byte pixel-span packing (`PixelSpan::get` / `PixelSpan::set`
  in `include/facade/png.hpp`),
* the per-scanline filter / reconstruct algorithms
  (`ScanlineBase::filter`, `ScanlineBase::reconstruct` in `src/png.cpp`),
* the image container with its chunk map, serialisation (`Image::to_file`),
  parsing (`Image::parse`), IDAT pack/unpack (`Image::decompress`,
  `Image::compress`, `Image::filter`, `Image::reconstruct`),
* the stego carrier (`PNGPayload::read_stego_data`, `write_stego_data`,
  `has_stego_payload`, `create_stego_payload`, `extract_stego_payload`
  in `src/payload.cpp`) and the text-chunk accessors.

Machine integers are modelled as `Nat` with explicit reductions modulo
`2 ^ 32` where the C++ code can wrap; byte buffers are
`List Nat` whose entries are meant to be `< 256` (stated as hypotheses
where a proof needs it); C++ exceptions are modelled with `Except`.
The zlib deflate/inflate pair is an external collaborator and is kept
abstract: definitions that need it take the compressor and the
decompressor as function arguments.
-/

namespace Facade

/-- Errors of `facade::exception` (plus `StdOutOfRange` for the
`std::out_of_range` thrown by `std::map::at`).  Payload fields follow the
constructor arguments in `include/facade/exception.hpp` where a claim
needs them, and are dropped otherwise. -/
inductive Err where
  | NullPointer
  | NoData
  | OutOfBounds (given limit : Nat)
  | InsufficientSize (given need : Nat)
  | BadPNGSignature
  | BadCRC (given expected : Nat)
  | InvalidChunkTag
  | NoPixels
  | ScanlineMismatch
  | InvalidFilterType (t : Nat)
  | AlreadyFiltered
  | NoImageData
  | NoImageDataChunks
  | PixelMismatch
  | NoHeaderChunk
  | InvalidBitDepth (d : Nat)
  | InvalidColorType (c : Nat)
  | InvalidPixelType
  | UnsupportedPixelType
  | ImageTooSmall (got need : Nat)
  | InvalidBitOffset (b : Nat)
  | NoStegoData
  | NoKeyword
  | InvalidBase64Character (c : Nat)
  | InvalidBase64String
  | ZLibError (code : Int)
  | TextNotFound
  | IntegerOverflow (given max : Nat)
  | StdOutOfRange
  deriving Repr, DecidableEq

/-- Big-endian decoding of four bytes, as performed by
`endian_swap_32(*reinterpret_cast<const uint32_t *>(p))` on a
little-endian host (`facade::endian_swap_32`, `src/utility.cpp`). -/
def be32dec (l : List Nat) : Nat :=
  (l.getD 0 0) * 2 ^ 24 + (l.getD 1 0) * 2 ^ 16 + (l.getD 2 0) * 2 ^ 8 + l.getD 3 0

/-- Big-endian encoding of a `uint32_t` into four bytes. -/
def be32enc (n : Nat) : List Nat :=
  [n / 2 ^ 24 % 256, n / 2 ^ 16 % 256, n / 2 ^ 8 % 256, n % 256]

/-- Little-endian decoding of four bytes, as performed by
`*reinterpret_cast<std::uint32_t *>(p)` on a little-endian host
(used on the stego length field in `src/payload.cpp`). -/
def le32dec (l : List Nat) : Nat :=
  l.getD 0 0 + (l.getD 1 0) * 2 ^ 8 + (l.getD 2 0) * 2 ^ 16 + (l.getD 3 0) * 2 ^ 24

/-- Little-endian encoding of a `uint32_t` into four bytes (the in-memory
layout of `std::uint32_t u32_size` read through a `uint8_t*` in
`PNGPayload::create_stego_payload`). -/
def le32enc (n : Nat) : List Nat :=
  [n % 256, n / 2 ^ 8 % 256, n / 2 ^ 16 % 256, n / 2 ^ 24 % 256]

theorem be32dec_be32enc (n : Nat) (h : n < 2 ^ 32) : be32dec (be32enc n) = n := by
  unfold be32dec be32enc
  dsimp [List.getD]
  omega

theorem le32dec_le32enc (n : Nat) (h : n < 2 ^ 32) : le32dec (le32enc n) = n := by
  unfold le32dec le32enc
  dsimp [List.getD]
  omega

/-- One entry of the CRC-32 lookup table of `include/facade/utility.hpp`:
the table is the standard one for the reflected polynomial `0xEDB88320`,
so entry `n` equals eight rounds of the shift-and-conditionally-xor step
applied to `n`.  (The source stores the 256 resulting constants as a
literal array; this generator reproduces them.) -/
def crc32TableEntry (n : Nat) : Nat :=
  (List.range 8).foldl
    (fun c _ => if c % 2 = 1 then (c / 2) ^^^ 0xEDB88320 else c / 2) n

/-- `facade::crc32` (`src/utility.cpp`): table-driven CRC-32 with
initial/final XOR `0xFFFFFFFF`, streaming from `init_crc`. -/
def crc32 (data : List Nat) (initCrc : Nat) : Nat :=
  (data.foldl
    (fun crc b => crc32TableEntry ((crc ^^^ b) % 256) ^^^ (crc / 2 ^ 8))
    (initCrc ^^^ 0xFFFFFFFF)) ^^^ 0xFFFFFFFF

/-- Sanity check: CRC-32 of the ASCII bytes of `"IHDR"` (spec §8, P7). -/
theorem crc32_IHDR : crc32 [73, 72, 68, 82] 0 = 0xA8A1AE0A := by decide

instance exceptDecEq {ε α : Type} [DecidableEq ε] [DecidableEq α] : DecidableEq (Except ε α)
  | .error a, .error b =>
    if h : a = b then isTrue (by rw [h]) else isFalse (by intro hh; cases hh; exact h rfl)
  | .error _, .ok _ => isFalse (by intro h; cases h)
  | .ok _, .error _ => isFalse (by intro h; cases h)
  | .ok a, .ok b =>
    if h : a = b then isTrue (by rw [h]) else isFalse (by intro hh; cases hh; exact h rfl)

/-! ## Chunk framing (`ChunkPtr`, `src/png.cpp` lines 91–168) -/

/-- The view produced by `ChunkPtr::parse`: the declared length, the
four tag bytes, the payload slice and the stored (big-endian) CRC. -/
structure ChunkView where
  length : Nat
  tag : List Nat
  data : List Nat
  crc : Nat
  deriving Repr, DecidableEq

/-- `ChunkPtr::parse(ptr, size, offset)` (`src/png.cpp` 91–116).
The null-pointer case of the C++ code has no counterpart for a `List`;
the `size == 0` check is kept.  All comparisons mirror the source
(`>=` on the first three bounds checks, `>` on the last). -/
def chunkPtrParse (buf : List Nat) (offset : Nat) : Except Err ChunkView :=
  if buf.length = 0 then .error .NoData
  else if offset + 4 ≥ buf.length then .error (.OutOfBounds (offset + 4) buf.length)
  else
    let lengthBytes := (buf.drop offset).take 4
    if offset + 4 + 4 ≥ buf.length then .error (.OutOfBounds (offset + 4 + 4) buf.length)
    else
      let tag := (buf.drop (offset + 4)).take 4
      let length := be32dec lengthBytes
      let dataOff := offset + 8
      if dataOff + length ≥ buf.length then .error (.OutOfBounds (dataOff + length) buf.length)
      else if dataOff + length + 4 > buf.length then
        .error (.OutOfBounds (dataOff + length + 4) buf.length)
      else
        .ok ⟨length, tag, (buf.drop dataOff).take length,
             be32dec ((buf.drop (dataOff + length)).take 4)⟩

/-- The full frame size consumed by a parsed chunk
(`ChunkPtr::chunk_size`): 4 length bytes + 4 tag bytes + data + 4 CRC bytes. -/
def chunkSize (v : ChunkView) : Nat := 12 + v.length

theorem chunkPtrParse_ok_bound {buf : List Nat} {offset : Nat} {v : ChunkView}
    (h : chunkPtrParse buf offset = .ok v) :
    offset + 12 + v.length ≤ buf.length ∧
      v.length = be32dec ((buf.drop offset).take 4) := by
  unfold chunkPtrParse at h
  dsimp only at h
  split at h
  · exact Except.noConfusion h
  · split at h
    · exact Except.noConfusion h
    · split at h
      · exact Except.noConfusion h
      · split at h
        · exact Except.noConfusion h
        · split at h
          · exact Except.noConfusion h
          · simp only [Except.ok.injEq] at h
            subst h
            refine ⟨?_, rfl⟩
            dsimp only
            omega

/-- Claim C6 (counterexample).  The claim predicts that with `8 + length`
bytes remaining (and a small declared length) parsing succeeds; on a buffer
of exactly 8 zero bytes at offset 0 (declared length 0, so `8 + length = 8`
bytes remain and `length ≤ 2^31 - 1`), `ChunkPtr::parse` nevertheless
fails with an out-of-bounds (truncation) error, because the 4 CRC bytes
must also fit. -/
theorem chunkPtrParse_c6_counterexample :
    8 + be32dec ((List.replicate 8 (0 : Nat)).take 4) ≤ (List.replicate 8 (0 : Nat)).length ∧
    be32dec ((List.replicate 8 (0 : Nat)).take 4) ≤ 2 ^ 31 - 1 ∧
    chunkPtrParse (List.replicate 8 (0 : Nat)) 0 = .error (.OutOfBounds 8 8) := by
  decide

/-- Claim C6 (amended).  For a non-empty buffer, chunk parsing at `offset`
fails with an out-of-bounds (truncation) error exactly when fewer than
`12 + length` bytes remain at that offset — the 4-byte CRC must fit as
well — and there is no special-casing of lengths above `2^31 - 1`;
otherwise it yields the chunk view with length, tag, payload slice and
stored CRC. -/
theorem chunkPtrParse_characterization (buf : List Nat) (offset : Nat)
    (hne : buf.length ≠ 0) :
    (buf.length < offset + 12 + be32dec ((buf.drop offset).take 4) →
      ∃ g l, chunkPtrParse buf offset = .error (.OutOfBounds g l)) ∧
    (offset + 12 + be32dec ((buf.drop offset).take 4) ≤ buf.length →
      chunkPtrParse buf offset =
        .ok ⟨be32dec ((buf.drop offset).take 4),
             (buf.drop (offset + 4)).take 4,
             (buf.drop (offset + 8)).take (be32dec ((buf.drop offset).take 4)),
             be32dec ((buf.drop (offset + 8 + be32dec ((buf.drop offset).take 4))).take 4)⟩) := by
  constructor
  · intro hlt
    unfold chunkPtrParse
    dsimp only
    split
    · omega
    · split
      · exact ⟨_, _, rfl⟩
      · split
        · exact ⟨_, _, rfl⟩
        · split
          · exact ⟨_, _, rfl⟩
          · split
            · exact ⟨_, _, rfl⟩
            · omega
  · intro hle
    unfold chunkPtrParse
    dsimp only
    split
    · omega
    · split
      · omega
      · split
        · omega
        · split
          · omega
          · split
            · omega
            · rfl

theorem chunkPtrParse_characterization_witness :
    chunkPtrParse (List.replicate 12 (0 : Nat)) 0 = .ok ⟨0, [0, 0, 0, 0], [], 0⟩ := by
  have h := (chunkPtrParse_characterization (List.replicate 12 (0 : Nat)) 0
    (by decide)).2 (by decide)
  exact h.trans (by decide)

/-! ## Sub-byte pixel spans (`PixelSpan`, `include/facade/png.hpp` 694–785)

A sub-byte pixel kind has `M ∈ {1, 2, 4}` bits per sample, its span is a
single packed byte, and `Samples = 8 / M` (`PixelSpan::Samples`; for
`Bits ≤ 8` the `Bits > 8` summand is 0).  The `PixelMismatch` check of
`PixelSpan::set` is enforced by the C++ type of the pixel variant and has
no counterpart here, where a sample value is a plain `Nat`; the
`value()` accessor masks the stored sample with `Max`, which is the
`&&& (2 ^ M - 1)` below. -/

/-- The in-range computation of `PixelSpan::get` for a sub-byte kind:
`(byte >> ((Samples - 1 - index) * Bits)) & Max`. -/
def spanGetCore (M b i : Nat) : Nat :=
  (b >>> ((8 / M - 1 - i) * M)) &&& (2 ^ M - 1)

/-- The in-range computation of `PixelSpan::set` for a sub-byte kind:
`(bits & ((Max << shift) ^ 0xFF)) | (value << shift)`. -/
def spanSetCore (M b v i : Nat) : Nat :=
  (b &&& (((2 ^ M - 1) <<< ((8 / M - 1 - i) * M)) ^^^ 0xFF)) |||
    ((v &&& (2 ^ M - 1)) <<< ((8 / M - 1 - i) * M))

/-- `PixelSpan::get` (`include/facade/png.hpp` 747–758), sub-byte branch.
The bounds check is the source's `index > Samples`.  (At
`index = Samples` the C++ shift count underflows `std::size_t` — the
behaviour is undefined; no theorem below relies on the value the model
returns there.) -/
def pixelSpanGet (M b i : Nat) : Except Err Nat :=
  if i > 8 / M then .error (.OutOfBounds i (8 / M))
  else .ok (spanGetCore M b i)

/-- `PixelSpan::set` (`include/facade/png.hpp` 768–784), sub-byte branch. -/
def pixelSpanSet (M b v i : Nat) : Except Err Nat :=
  if i > 8 / M then .error (.OutOfBounds i (8 / M))
  else .ok (spanSetCore M b v i)

/-- A sequence of `PixelSpan::set` calls folded over one span byte. -/
def spanWrites (M : Nat) (b : Nat) : List (Nat × Nat) → Except Err Nat
  | [] => .ok b
  | (i, v) :: rest =>
    match pixelSpanSet M b v i with
    | .error e => .error e
    | .ok b' => spanWrites M b' rest

/-- The value most recently written to sample index `j`, if any. -/
def lastWrite (ws : List (Nat × Nat)) (j : Nat) : Option Nat :=
  (ws.reverse.find? (fun p => p.1 == j)).map (·.2)

theorem testBit_255 (i : Nat) : (255 : Nat).testBit i = decide (i < 8) := by
  rw [show (255 : Nat) = 2 ^ 8 - 1 from rfl, Nat.testBit_two_pow_sub_one]

theorem bit_set_get_same (b v M s : Nat) (hv : v < 2 ^ M) (hs : s + M ≤ 8) :
    (((b &&& (((2 ^ M - 1) <<< s) ^^^ 255)) ||| ((v &&& (2 ^ M - 1)) <<< s)) >>> s) &&&
      (2 ^ M - 1) = v := by
  apply Nat.eq_of_testBit_eq
  intro k
  simp only [Nat.testBit_land, Nat.testBit_shiftRight, Nat.testBit_lor, Nat.testBit_shiftLeft,
    Nat.testBit_xor, Nat.testBit_two_pow_sub_one, testBit_255]
  rcases Nat.lt_or_ge k M with hk | hk
  · have h1 : s + k ≥ s := Nat.le_add_right _ _
    have h2 : s + k - s = k := by omega
    have h3 : s + k < 8 := by omega
    simp [h1, h2, h3, hk]
  · have h4 : v.testBit k = false :=
      Nat.testBit_lt_two_pow (lt_of_lt_of_le hv (Nat.pow_le_pow_right (by norm_num) hk))
    simp [h4, show ¬ (k < M) by omega]

theorem bit_set_get_ne (b v M s t : Nat) (ht : t + M ≤ 8)
    (hdisj : s + M ≤ t ∨ t + M ≤ s) :
    (((b &&& (((2 ^ M - 1) <<< s) ^^^ 255)) ||| ((v &&& (2 ^ M - 1)) <<< s)) >>> t) &&&
      (2 ^ M - 1) = (b >>> t) &&& (2 ^ M - 1) := by
  apply Nat.eq_of_testBit_eq
  intro k
  simp only [Nat.testBit_land, Nat.testBit_shiftRight, Nat.testBit_lor, Nat.testBit_shiftLeft,
    Nat.testBit_xor, Nat.testBit_two_pow_sub_one, testBit_255]
  rcases Nat.lt_or_ge k M with hk | hk
  · have h3 : t + k < 8 := by omega
    rcases Nat.lt_or_ge (t + k) s with hlt | hge
    · simp [show ¬ (t + k ≥ s) by omega, h3, hk]
    · have : ¬ (t + k - s < M) := by omega
      simp [hge, this, h3, hk, Nat.testBit_land, Nat.testBit_two_pow_sub_one]
  · simp [show ¬ (k < M) by omega]

theorem bit_set_lt_256 (b v M s : Nat) (hb : b < 256) (hs : s + M ≤ 8) :
    ((b &&& (((2 ^ M - 1) <<< s) ^^^ 255)) ||| ((v &&& (2 ^ M - 1)) <<< s)) < 256 := by
  have h8 : (256 : Nat) = 2 ^ 8 := rfl
  rw [h8]
  apply Nat.lt_pow_two_of_testBit
  intro i hi
  simp only [Nat.testBit_lor, Nat.testBit_land, Nat.testBit_shiftLeft, Nat.testBit_xor,
    Nat.testBit_two_pow_sub_one, testBit_255]
  have hb' : b < 2 ^ i := by
    refine lt_of_lt_of_le hb ?_
    rw [show (256 : Nat) = 2 ^ 8 from rfl]
    exact Nat.pow_le_pow_right (by norm_num) hi
  have hbbit : b.testBit i = false := Nat.testBit_lt_two_pow hb'
  have : ¬ (i - s < M) := by omega
  simp [hbbit, this]

theorem spanShift_add_le (M i : Nat) (hM : M = 1 ∨ M = 2 ∨ M = 4) :
    (8 / M - 1 - i) * M + M ≤ 8 := by
  rcases hM with rfl | rfl | rfl <;> omega

theorem spanSetCore_lt_256 (M b v i : Nat) (hM : M = 1 ∨ M = 2 ∨ M = 4) (hb : b < 256) :
    spanSetCore M b v i < 256 :=
  bit_set_lt_256 b v M _ hb (spanShift_add_le M i hM)

theorem spanGetCore_setCore_same (M b v i : Nat) (hM : M = 1 ∨ M = 2 ∨ M = 4)
    (hv : v < 2 ^ M) :
    spanGetCore M (spanSetCore M b v i) i = v :=
  bit_set_get_same b v M _ hv (spanShift_add_le M i hM)

theorem spanGetCore_setCore_ne (M b v i j : Nat) (hM : M = 1 ∨ M = 2 ∨ M = 4)
    (hi : i < 8 / M) (hj : j < 8 / M) (hne : i ≠ j) :
    spanGetCore M (spanSetCore M b v i) j = spanGetCore M b j := by
  refine bit_set_get_ne b v M _ _ (spanShift_add_le M j hM) ?_
  rcases hM with rfl | rfl | rfl <;>
    rcases Nat.lt_or_ge i j with h | h
  · right; omega
  · left; omega
  · right; omega
  · left; omega
  · right; omega
  · left; omega

theorem lastWrite_nil (j : Nat) : lastWrite [] j = none := rfl

theorem lastWrite_cons (i v : Nat) (rest : List (Nat × Nat)) (j : Nat) :
    lastWrite ((i, v) :: rest) j =
      match lastWrite rest j with
      | some w => some w
      | none => if i = j then some v else none := by
  unfold lastWrite
  rw [List.reverse_cons, List.find?_append]
  cases h : List.find? (fun p => p.1 == j) rest.reverse with
  | some w => simp [h, Option.or]
  | none =>
    by_cases hij : i = j
    · simp [h, Option.or, List.find?_cons, hij]
    · simp [h, Option.or, List.find?_cons, hij]

theorem spanWrites_characterization (M : Nat) (hM : M = 1 ∨ M = 2 ∨ M = 4) :
    ∀ (ws : List (Nat × Nat)) (b : Nat), b < 256 →
      (∀ p ∈ ws, p.1 < 8 / M ∧ p.2 < 2 ^ M) →
      ∃ b', spanWrites M b ws = .ok b' ∧ b' < 256 ∧
        ∀ j, j < 8 / M →
          spanGetCore M b' j = (lastWrite ws j).getD (spanGetCore M b j)
  | [], b, hb, _ => ⟨b, rfl, hb, fun j _ => by simp [lastWrite]⟩
  | (i, v) :: rest, b, hb, hws => by
    have hiv := hws (i, v) (by simp)
    have hguard : ¬ (i > 8 / M) := by omega
    have hset : pixelSpanSet M b v i = .ok (spanSetCore M b v i) := by
      unfold pixelSpanSet
      simp [hguard]
    obtain ⟨b', hw, hb', hget⟩ := spanWrites_characterization M hM rest (spanSetCore M b v i)
      (spanSetCore_lt_256 M b v i hM hb)
      (fun p hp => hws p (by simp [hp]))
    refine ⟨b', ?_, hb', ?_⟩
    · unfold spanWrites
      rw [hset]
      exact hw
    · intro j hj
      rw [hget j hj, lastWrite_cons]
      cases hlw : lastWrite rest j with
      | some w => simp
      | none =>
        by_cases hij : i = j
        · subst hij
          simp [spanGetCore_setCore_same M b v i hM hiv.2]
        · simp [hij, spanGetCore_setCore_ne M b v i j hM hiv.1 hj hij]

/-- Claim C7: for a sub-byte pixel kind with `M ∈ {1, 2, 4}` bits per
sample and `N = 8 / M` samples per span, reading sample `i < N` of a span
byte `b` returns `(b >> ((N - 1 - i) * M)) & ((1 << M) - 1)`, writing
performs the complementary mask-and-or, and after any sequence of legal
writes, reading back each sample index returns the value most recently
written to that index (or the original field when the index was never
written). -/
theorem pixelSpan_packing (M b i v : Nat) (ws : List (Nat × Nat))
    (hM : M = 1 ∨ M = 2 ∨ M = 4) (hb : b < 256) (hi : i < 8 / M) (hv : v < 2 ^ M)
    (hws : ∀ p ∈ ws, p.1 < 8 / M ∧ p.2 < 2 ^ M) :
    pixelSpanGet M b i = .ok ((b >>> ((8 / M - 1 - i) * M)) &&& (2 ^ M - 1)) ∧
    pixelSpanSet M b v i =
      .ok ((b &&& (((2 ^ M - 1) <<< ((8 / M - 1 - i) * M)) ^^^ 0xFF)) |||
        (v <<< ((8 / M - 1 - i) * M))) ∧
    ∃ b', spanWrites M b ws = .ok b' ∧
      ∀ j, j < 8 / M →
        pixelSpanGet M b' j = .ok ((lastWrite ws j).getD (spanGetCore M b j)) := by
  have hguard : ¬ (i > 8 / M) := by omega
  refine ⟨by unfold pixelSpanGet; simp [hguard, spanGetCore], ?_, ?_⟩
  · unfold pixelSpanSet
    have hv' : v &&& (2 ^ M - 1) = v := by
      rw [Nat.and_pow_two_sub_one_eq_mod, Nat.mod_eq_of_lt hv]
    simp [hguard, spanSetCore, hv']
  · obtain ⟨b', hw, _, hget⟩ := spanWrites_characterization M hM ws b hb hws
    refine ⟨b', hw, fun j hj => ?_⟩
    have hguardj : ¬ (j > 8 / M) := by omega
    unfold pixelSpanGet
    simp [hguardj, hget j hj]

theorem pixelSpan_packing_witness :
    pixelSpanGet 2 0x5A 1 = .ok ((0x5A >>> ((8 / 2 - 1 - 1) * 2)) &&& (2 ^ 2 - 1)) ∧
    pixelSpanSet 2 0x5A 3 1 =
      .ok ((0x5A &&& (((2 ^ 2 - 1) <<< ((8 / 2 - 1 - 1) * 2)) ^^^ 0xFF)) |||
        (3 <<< ((8 / 2 - 1 - 1) * 2))) ∧
    ∃ b', spanWrites 2 0x5A [(0, 3), (2, 1), (0, 2)] = .ok b' ∧
      ∀ j, j < 8 / 2 →
        pixelSpanGet 2 b' j =
          .ok ((lastWrite [(0, 3), (2, 1), (0, 2)] j).getD (spanGetCore 2 0x5A j)) :=
  pixelSpan_packing 2 0x5A 1 3 [(0, 3), (2, 1), (0, 2)]
    (by norm_num) (by norm_num) (by norm_num) (by norm_num) (by decide)

/-- An 8-bit truecolour pixel (`facade::png::TrueColorPixel8Bit`,
`include/facade/png.hpp`): three 8-bit samples, 24 bits per pixel, so its
span holds `Samples = 8 / 24 + (24 > 8) = 1` sample. -/
structure TrueColorPixel8Bit where
  red : Nat
  green : Nat
  blue : Nat
  deriving Repr, DecidableEq

/-- `PixelSpan::get` for the multi-byte (`Bits ≥ 8`) branch at
`PixelType = TrueColorPixel8Bit`: the guard is the source's
`index > Samples` with `Samples = 1`; in range, the packed pixel at
offset 0 of the span is returned regardless of `index`. -/
def pixelSpanGetTC8 (s : TrueColorPixel8Bit) (i : Nat) : Except Err TrueColorPixel8Bit :=
  if i > 1 then .error (.OutOfBounds i 1) else .ok s

/-- `PixelSpan::set` for the multi-byte branch at
`PixelType = TrueColorPixel8Bit`: the guard is `index > Samples`; in
range, the pixel is copied over offset 0 of the span regardless of
`index`. -/
def pixelSpanSetTC8 (s p : TrueColorPixel8Bit) (i : Nat) : Except Err TrueColorPixel8Bit :=
  if i > 1 then .error (.OutOfBounds i 1) else .ok p

/-- Claim C8 (code evaluated at the failing input): for a
`PixelSpan<TrueColorPixel8Bit>` (sample count `N = 1`), `get` and `set`
at index `1 = N` — the first invalid index — succeed instead of failing
with `OutOfBounds`, because the source guards read `index > Samples`
rather than `index >= Samples`; a sub-byte span likewise accepts index
`N` (shown for the 4-bit kind, `N = 2`). -/
theorem pixelSpan_index_at_samples_accepted :
    pixelSpanGetTC8 ⟨1, 2, 3⟩ 1 = .ok ⟨1, 2, 3⟩ ∧
    pixelSpanSetTC8 ⟨1, 2, 3⟩ ⟨9, 8, 7⟩ 1 = .ok ⟨9, 8, 7⟩ ∧
    pixelSpanGet 4 0xAB 2 ≠ .error (.OutOfBounds 2 2) ∧
    pixelSpanSet 4 0xAB 5 2 ≠ .error (.OutOfBounds 2 2) := by
  decide

/-! ## Scanlines: reconstruct and filter
(`ScanlineBase`, `src/png.cpp` lines 569–844)

A scanline is a filter tag plus a vector of pixel spans; both
`reconstruct` and `filter` walk the spans in order and, inside each span,
the bytes of its packed representation, pairing byte `j` of span `i`
with byte `j` of span `i - 1` (left), span `i` of the previous scanline
(up) and span `i - 1` of the previous scanline (up-left); pointers that
fall outside the image contribute the byte 0.  A span is modelled as a
`List Nat` of its bytes — the pixel kind only fixes how many bytes a
span has (`sizeof(Span)`), so quantifying over arbitrary byte lists
subsumes all 15 kinds. -/

/-- The byte a possibly-absent span contributes at offset `j`:
0 for a null pointer, 0 past the end (unreachable in the C++ code, where
all spans of a scanline have the same `sizeof`). -/
def byteOf (o : Option (List Nat)) (j : Nat) : Nat := (o.getD []).getD j 0

/-- The Paeth selection exactly as coded in `ScanlineBase::reconstruct` /
`filter` (`src/png.cpp` 717–732 and 818–833): `paeth = left + prev -
prev_left` in signed arithmetic, then the `if`/`else if`/`else` chain on
the three absolute differences. -/
def paethCode (l u ul : Nat) : Nat :=
  let p : Int := (l : Int) + (u : Int) - (ul : Int)
  let pl := (p - l).natAbs
  let pu := (p - u).natAbs
  let pul := (p - ul).natAbs
  if pl ≤ pu ∧ pl ≤ pul then l else if pu ≤ pul then u else ul

/-- The predictor each filter tag subtracts (filter) or adds back
(reconstruct): Sub = left, Up = up, Average = `(left + up) / 2` with the
C++ flooring division of non-negative ints, Paeth as above.  Only tags
1–4 reach this function. -/
def predictor (ft : Nat) (l u ul : Nat) : Nat :=
  match ft with
  | 1 => l
  | 2 => u
  | 3 => (l + u) / 2
  | _ => paethCode l u ul

/-- One byte of reconstruction: `(curr + predictor) & 0xFF`. -/
def reconByte (ft curr l u ul : Nat) : Nat :=
  (curr + predictor ft l u ul) % 256

/-- One byte of filtering: `(curr - predictor) & 0xFF` computed on
`int32` values, whose two's-complement `& 0xFF` is the Euclidean
remainder mod 256. -/
def filtByte (ft curr l u ul : Nat) : Nat :=
  (((curr : Int) - (predictor ft l u ul : Int)).emod 256).toNat

/-- Map over a span's bytes together with the byte offset `j`. -/
def spanMapIdx (f : Nat → Nat → Nat) : List Nat → Nat → List Nat
  | [], _ => []
  | c :: cs, j => f j c :: spanMapIdx f cs (j + 1)

/-- Reconstruct one span against its three neighbour spans. -/
def reconSpan (ft : Nat) (s : List Nat) (left up upLeft : Option (List Nat)) : List Nat :=
  spanMapIdx (fun j c => reconByte ft c (byteOf left j) (byteOf up j) (byteOf upLeft j)) s 0

/-- Filter one span against its three neighbour spans. -/
def filtSpan (ft : Nat) (s : List Nat) (left up upLeft : Option (List Nat)) : List Nat :=
  spanMapIdx (fun j c => filtByte ft c (byteOf left j) (byteOf up j) (byteOf upLeft j)) s 0

/-- The span loop of `ScanlineBase::reconstruct`: the left / up-left
neighbours are taken from the row being built (the C++ code updates the
spans in place, so `left` is the already reconstructed span `i - 1`),
the up neighbour from the previous scanline. -/
def reconGo (ft : Nat) :
    List (List Nat) → List (List Nat) → Option (List Nat) → Option (List Nat) →
      List (List Nat)
  | [], _, _, _ => []
  | s :: rest, prow, left, upLeft =>
    let s' := reconSpan ft s left prow.head? upLeft
    s' :: reconGo ft rest prow.tail (some s') prow.head?

/-- The span loop of `ScanlineBase::filter(filter_type, previous)`: all
neighbours come from the unmodified input row (`this`) and the previous
scanline. -/
def filtGo (ft : Nat) :
    List (List Nat) → List (List Nat) → Option (List Nat) → Option (List Nat) →
      List (List Nat)
  | [], _, _, _ => []
  | s :: rest, prow, left, upLeft =>
    filtSpan ft s left prow.head? upLeft :: filtGo ft rest prow.tail (some s) prow.head?

/-- `facade::png::ScanlineBase`: a filter tag and the span vector. -/
structure Scanline where
  filter_type : Nat
  pixel_data : List (List Nat)
  deriving Repr, DecidableEq

/-- The previous-scanline compatibility test of `reconstruct` / `filter`:
`previous.has_value() && previous->pixel_span() != this->pixel_span()`.
(A previous scanline of a different pixel kind cannot even be passed in
the C++ code — both arguments share the `ScanlineBase<PixelType>`
template instance.) -/
def prevMismatch (previous : Option Scanline) (n : Nat) : Bool :=
  match previous with
  | some p => p.pixel_data.length != n
  | none => false

/-- The span vector of an optional previous scanline (empty when absent,
making every `byteOf` lookup 0, like the C++ null pointers). -/
def prevData (previous : Option Scanline) : List (List Nat) :=
  match previous with
  | some p => p.pixel_data
  | none => []

/-- `ScanlineBase::reconstruct(previous)` (`src/png.cpp` 672–743).
Guards in source order: a filter tag of 0 returns the line unchanged
*before* any validation; then the span-count mismatch check, then
`NoPixels`.  `InvalidFilterType` is raised by the `switch` default on the
first byte processed; it is hoisted before the loop here, which is
equivalent because every C++ span holds at least one byte and the span
list is non-empty past the `NoPixels` check. -/
def Scanline.reconstruct (sl : Scanline) (previous : Option Scanline) : Except Err Scanline :=
  if sl.filter_type = 0 then .ok sl
  else if prevMismatch previous sl.pixel_data.length then .error .ScanlineMismatch
  else if sl.pixel_data.length = 0 then .error .NoPixels
  else if 5 ≤ sl.filter_type then .error (.InvalidFilterType sl.filter_type)
  else .ok ⟨0, reconGo sl.filter_type sl.pixel_data (prevData previous) none none⟩

/-- `ScanlineBase::filter(filter_type, previous)` (`src/png.cpp`
770–844).  Guards in source order: `AlreadyFiltered` when the line's own
tag is non-zero, the mismatch check, `NoPixels`, then tag `None` returns
the line unchanged; `InvalidFilterType` hoisted as in `reconstruct`. -/
def Scanline.filter (sl : Scanline) (ft : Nat) (previous : Option Scanline) :
    Except Err Scanline :=
  if sl.filter_type ≠ 0 then .error .AlreadyFiltered
  else if prevMismatch previous sl.pixel_data.length then .error .ScanlineMismatch
  else if sl.pixel_data.length = 0 then .error .NoPixels
  else if ft = 0 then .ok sl
  else if 5 ≤ ft then .error (.InvalidFilterType ft)
  else .ok ⟨ft, filtGo ft sl.pixel_data (prevData previous) none none⟩

theorem reconByte_filtByte (ft curr l u ul : Nat) (hc : curr < 256) :
    reconByte ft (filtByte ft curr l u ul) l u ul = curr := by
  unfold reconByte filtByte
  generalize predictor ft l u ul = pr
  have h0 : 0 ≤ ((curr : Int) - pr).emod 256 := Int.emod_nonneg _ (by norm_num)
  have h1 : ((curr : Int) - pr).emod 256 < 256 := Int.emod_lt_of_pos _ (by norm_num)
  have h2 : ((curr : Int) - pr).emod 256 =
      (curr : Int) - pr - 256 * (((curr : Int) - pr) / 256) :=
    Int.emod_def _ _
  omega

theorem spanMapIdx_length (f : Nat → Nat → Nat) :
    ∀ (s : List Nat) (j : Nat), (spanMapIdx f s j).length = s.length
  | [], _ => rfl
  | _ :: cs, j => by simp [spanMapIdx, spanMapIdx_length f cs (j + 1)]

theorem spanMapIdx_getD (f : Nat → Nat → Nat) :
    ∀ (s : List Nat) (j0 j : Nat), j < s.length →
      (spanMapIdx f s j0).getD j 0 = f (j0 + j) (s.getD j 0)
  | c :: cs, j0, 0, _ => by simp [spanMapIdx]
  | c :: cs, j0, j + 1, h => by
    have := spanMapIdx_getD f cs (j0 + 1) j (by simpa using h)
    simpa [spanMapIdx, Nat.add_assoc, Nat.add_comm 1 j] using this

theorem reconSpan_filtSpan_aux (ft : Nat) (L U UL : Option (List Nat)) :
    ∀ (s : List Nat) (j : Nat), (∀ b ∈ s, b < 256) →
      spanMapIdx (fun j c => reconByte ft c (byteOf L j) (byteOf U j) (byteOf UL j))
        (spanMapIdx (fun j c => filtByte ft c (byteOf L j) (byteOf U j) (byteOf UL j)) s j)
        j = s
  | [], _, _ => rfl
  | c :: cs, j, hb => by
    simp only [spanMapIdx]
    rw [reconByte_filtByte ft c _ _ _ (hb c (by simp)),
      reconSpan_filtSpan_aux ft L U UL cs (j + 1) (fun b hbb => hb b (by simp [hbb]))]

theorem reconSpan_filtSpan (ft : Nat) (s : List Nat) (L U UL : Option (List Nat))
    (hb : ∀ b ∈ s, b < 256) :
    reconSpan ft (filtSpan ft s L U UL) L U UL = s :=
  reconSpan_filtSpan_aux ft L U UL s 0 hb

theorem filtGo_length (ft : Nat) :
    ∀ (spans prow : List (List Nat)) (left upLeft : Option (List Nat)),
      (filtGo ft spans prow left upLeft).length = spans.length
  | [], _, _, _ => rfl
  | s :: rest, prow, left, upLeft => by
    simp [filtGo, filtGo_length ft rest prow.tail (some s) prow.head?]

theorem reconGo_length (ft : Nat) :
    ∀ (spans prow : List (List Nat)) (left upLeft : Option (List Nat)),
      (reconGo ft spans prow left upLeft).length = spans.length
  | [], _, _, _ => rfl
  | s :: rest, prow, left, upLeft => by
    simp only [reconGo, List.length_cons]
    rw [reconGo_length ft rest prow.tail _ prow.head?]

theorem reconGo_filtGo (ft : Nat) :
    ∀ (spans prow : List (List Nat)) (left upLeft : Option (List Nat)),
      (∀ s ∈ spans, ∀ b ∈ s, b < 256) →
      reconGo ft (filtGo ft spans prow left upLeft) prow left upLeft = spans
  | [], _, _, _, _ => rfl
  | s :: rest, prow, left, upLeft, hb => by
    simp only [filtGo, reconGo]
    rw [reconSpan_filtSpan ft s left prow.head? upLeft (hb s (by simp))]
    rw [reconGo_filtGo ft rest prow.tail (some s) prow.head?
      (fun s' hs' => hb s' (by simp [hs']))]

/-- Claim C3: for every pixel kind (spans of arbitrary equal byte
width), every unfiltered scanline `s` (tag 0, non-empty span vector),
every compatible previous scanline (same span count, or none) and every
tag `t ∈ 0..4`, `reconstruct (filter s t p) p = s`. -/
theorem filter_reconstruct_inverse (sl : Scanline) (previous : Option Scanline) (t : Nat)
    (hft : sl.filter_type = 0) (hne : sl.pixel_data.length ≠ 0) (ht : t ≤ 4)
    (hprev : prevMismatch previous sl.pixel_data.length = false)
    (hbytes : ∀ s ∈ sl.pixel_data, ∀ b ∈ s, b < 256) :
    ∃ f, sl.filter t previous = .ok f ∧ f.reconstruct previous = .ok sl := by
  obtain ⟨ft0, spans⟩ := sl
  simp only [Scanline.filter] at *
  subst hft
  by_cases ht0 : t = 0
  · subst ht0
    refine ⟨⟨0, spans⟩, ?_, ?_⟩
    · simp [hprev, hne]
    · simp [Scanline.reconstruct]
  · refine ⟨⟨t, filtGo t spans (prevData previous) none none⟩, ?_, ?_⟩
    · simp [hprev, hne, ht0, show ¬ (5 ≤ t) by omega]
    · simp only [Scanline.reconstruct]
      rw [if_neg ht0]
      have hlen : (filtGo t spans (prevData previous) none none).length = spans.length :=
        filtGo_length t spans (prevData previous) none none
      simp only [hlen]
      rw [if_neg (by simp [hprev]), if_neg hne, if_neg (show ¬ (5 ≤ t) by omega)]
      rw [reconGo_filtGo t spans (prevData previous) none none hbytes]

theorem filter_reconstruct_inverse_witness :
    ∃ f, Scanline.filter ⟨0, [[1, 200], [3, 4], [255, 0]]⟩ 4
        (some ⟨0, [[5, 6], [7, 8], [9, 10]]⟩) = .ok f ∧
      f.reconstruct (some ⟨0, [[5, 6], [7, 8], [9, 10]]⟩) =
        .ok ⟨0, [[1, 200], [3, 4], [255, 0]]⟩ :=
  filter_reconstruct_inverse ⟨0, [[1, 200], [3, 4], [255, 0]]⟩
    (some ⟨0, [[5, 6], [7, 8], [9, 10]]⟩) 4 rfl (by decide) (by decide) (by decide)
    (by decide)

/-- Claim C5 (counterexample): with filter tag 0 the source returns the
scanline unchanged *before* the previous-scanline validation, so a
previous scanline with a different span count (2 versus 1 here) does not
raise `ScanlineMismatch`. -/
theorem reconstruct_tag0_skips_mismatch :
    (Scanline.mk 0 [[2], [3]]).pixel_data.length ≠
        (Scanline.mk 0 [[1]]).pixel_data.length ∧
    Scanline.reconstruct ⟨0, [[1]]⟩ (some ⟨0, [[2], [3]]⟩) = .ok ⟨0, [[1]]⟩ := by
  decide

/-- Claim C5 (amended): for every scanline whose filter tag is non-zero
and every supplied previous scanline whose span count differs from the
current one's, `reconstruct` raises `ScanlineMismatch`; with tag 0 the
scanline is returned unchanged without any validation.  (A previous
scanline of a different pixel kind cannot be supplied at all: both
arguments share the C++ template instance `ScanlineBase<PixelType>`.) -/
theorem reconstruct_mismatch (sl p : Scanline)
    (hft : sl.filter_type ≠ 0)
    (hmm : p.pixel_data.length ≠ sl.pixel_data.length) :
    sl.reconstruct (some p) = .error .ScanlineMismatch := by
  unfold Scanline.reconstruct
  rw [if_neg hft, if_pos (by simp [prevMismatch, hmm])]

theorem reconstruct_mismatch_witness :
    Scanline.reconstruct ⟨2, [[1]]⟩ (some ⟨0, [[2], [3]]⟩) = .error .ScanlineMismatch :=
  reconstruct_mismatch ⟨2, [[1]]⟩ ⟨0, [[2], [3]]⟩ (by decide) (by decide)

/-- The Paeth predictor as the specification words it: with
`p = left + up - up_left`, pick among `left`, `up`, `up_left` the
candidate minimising `|p - candidate|`, breaking ties in the order
`left`, `up`, `up_left`. -/
def paethSpec (l u ul : Nat) : Nat :=
  let p : Int := (l : Int) + (u : Int) - (ul : Int)
  let dl := (p - l).natAbs
  let du := (p - u).natAbs
  let dul := (p - ul).natAbs
  let m := min dl (min du dul)
  if dl = m then l else if du = m then u else ul

theorem paethCode_eq_paethSpec (l u ul : Nat) : paethCode l u ul = paethSpec l u ul := by
  unfold paethCode paethSpec
  dsimp only
  split_ifs <;> omega

/-- Byte `j` of span `i` of a span vector (0 beyond either end). -/
def spanByteAt (spans : List (List Nat)) (i j : Nat) : Nat :=
  (spans.getD i []).getD j 0

theorem get?_tail {α : Type} (l : List α) (i : Nat) : l.tail.get? i = l.get? (i + 1) := by
  cases l <;> simp

theorem head?_eq_get? {α : Type} (l : List α) : l.head? = l.get? 0 := by
  cases l <;> simp

theorem reconGo_getD (ft : Nat) :
    ∀ (spans prow : List (List Nat)) (left upLeft : Option (List Nat)) (i : Nat),
      i < spans.length →
      (reconGo ft spans prow left upLeft).getD i [] =
        reconSpan ft (spans.getD i [])
          (if i = 0 then left
           else some ((reconGo ft spans prow left upLeft).getD (i - 1) []))
          (prow.get? i)
          (if i = 0 then upLeft else prow.get? (i - 1))
  | s :: rest, prow, left, upLeft, 0, _ => by
    simp [reconGo, head?_eq_get?]
  | s :: rest, prow, left, upLeft, i + 1, h => by
    have ih := reconGo_getD ft rest prow.tail
      (some (reconSpan ft s left prow.head? upLeft)) prow.head? i (by simpa using h)
    simp only [reconGo, List.getD_cons_succ]
    rw [ih]
    cases i with
    | zero =>
      simp [get?_tail, head?_eq_get?]
    | succ i' =>
      simp only [if_neg (Nat.succ_ne_zero i'), if_neg (Nat.succ_ne_zero (i' + 1))]
      rw [get?_tail, get?_tail]
      simp [reconGo]

/-- Claim C4: reconstructing a scanline with filter tag 4 (Paeth)
succeeds (given a compatible previous scanline and a non-empty span
vector), sets the resulting filter tag to 0, and produces for each span
byte `(curr + Paeth(left, up, up_left)) mod 256`, where `Paeth` picks
among left, up, up-left the candidate minimising `|left + up - up_left -
candidate|` with ties broken in the order left, up, up-left
(`paethSpec`, written from the specification's words), where `left` and
`up_left` are read from the already-reconstructed data (the C++ loop
updates in place) and bytes outside the image (left at span 0, up with
no previous row) are 0. -/
theorem reconstruct_paeth (sl : Scanline) (previous : Option Scanline)
    (hft : sl.filter_type = 4) (hne : sl.pixel_data.length ≠ 0)
    (hprev : prevMismatch previous sl.pixel_data.length = false) :
    ∃ r, sl.reconstruct previous = .ok r ∧ r.filter_type = 0 ∧
      r.pixel_data.length = sl.pixel_data.length ∧
      ∀ i j, i < sl.pixel_data.length → j < (sl.pixel_data.getD i []).length →
        spanByteAt r.pixel_data i j =
          (spanByteAt sl.pixel_data i j +
            paethSpec (if i = 0 then 0 else spanByteAt r.pixel_data (i - 1) j)
              (byteOf ((prevData previous).get? i) j)
              (if i = 0 then 0 else byteOf ((prevData previous).get? (i - 1)) j)) %
            256 := by
  obtain ⟨ft, spans⟩ := sl
  simp only at hft hne hprev
  subst hft
  refine ⟨⟨0, reconGo 4 spans (prevData previous) none none⟩, ?_, rfl, ?_, ?_⟩
  · unfold Scanline.reconstruct
    simp only
    rw [if_neg (by omega), if_neg (by simp [hprev]), if_neg hne, if_neg (by omega)]
  · exact reconGo_length 4 spans (prevData previous) none none
  · intro i j hi hj
    simp only at hi hj ⊢
    show ((reconGo 4 spans (prevData previous) none none).getD i []).getD j 0 = _
    rw [reconGo_getD 4 spans (prevData previous) none none i hi]
    unfold reconSpan
    rw [spanMapIdx_getD _ _ 0 j hj]
    simp only [Nat.zero_add]
    unfold reconByte
    by_cases hi0 : i = 0
    · subst hi0
      simp [predictor, byteOf, paethCode_eq_paethSpec, spanByteAt]
    · simp [if_neg hi0, predictor, byteOf, paethCode_eq_paethSpec, spanByteAt]

theorem reconstruct_paeth_witness :
    ∃ r, Scanline.reconstruct ⟨4, [[1, 9], [2, 8], [3, 7]]⟩
        (some ⟨0, [[10, 60], [20, 50], [30, 40]]⟩) = .ok r ∧ r.filter_type = 0 ∧
      r.pixel_data.length = (Scanline.mk 4 [[1, 9], [2, 8], [3, 7]]).pixel_data.length ∧
      ∀ i j, i < (Scanline.mk 4 [[1, 9], [2, 8], [3, 7]]).pixel_data.length →
        j < ((Scanline.mk 4 [[1, 9], [2, 8], [3, 7]]).pixel_data.getD i []).length →
        spanByteAt r.pixel_data i j =
          (spanByteAt (Scanline.mk 4 [[1, 9], [2, 8], [3, 7]]).pixel_data i j +
            paethSpec (if i = 0 then 0 else spanByteAt r.pixel_data (i - 1) j)
              (byteOf ((prevData (some ⟨0, [[10, 60], [20, 50], [30, 40]]⟩)).get? i) j)
              (if i = 0 then 0
               else byteOf ((prevData (some ⟨0, [[10, 60], [20, 50], [30, 40]]⟩)).get?
                 (i - 1)) j)) % 256 :=
  reconstruct_paeth ⟨4, [[1, 9], [2, 8], [3, 7]]⟩
    (some ⟨0, [[10, 60], [20, 50], [30, 40]]⟩) rfl (by decide) (by decide)

/-! ## The image container (`Image`, `src/png.cpp` lines 876–1534)

The chunk table `std::map<std::string, std::vector<ChunkVec>>` keyed by
the 4-byte tag string is modelled as an association list from the tag
bytes to the chunk list.  `std::map` keeps its keys sorted; the model
keeps them in first-insertion order instead.  The key order is
observable only in the order `Image::to_file` emits chunks of tags
*outside* its priority list, which no claim depends on. -/

/-- A chunk owning its tag and data (`facade::png::ChunkVec`). -/
structure ChunkVecM where
  tag : List Nat
  data : List Nat
  deriving Repr, DecidableEq

/-- `ChunkVec::crc()`: CRC-32 over the 4 tag bytes, continued over the
data.  (The source skips the second call for empty data; `crc32 [] c = c`,
so the model needs no branch.) -/
def chunkCrc (c : ChunkVecM) : Nat := crc32 c.data (crc32 c.tag 0)

/-- Emission of one chunk (`ChunkVec::to_chunk_ptr`, `src/png.cpp`
63–81): big-endian `uint32_t` length (the `static_cast<std::uint32_t>`
is the `% 2 ^ 32`), tag, data, big-endian recomputed CRC. -/
def emitChunk (c : ChunkVecM) : List Nat :=
  be32enc (c.data.length % 2 ^ 32) ++ c.tag ++ c.data ++ be32enc (chunkCrc c)

abbrev ChunkMap := List (List Nat × List ChunkVecM)

/-- `chunk_map.find(tag)`: the chunk list stored under a tag, if any. -/
def mapFind (m : ChunkMap) (k : List Nat) : Option (List ChunkVecM) :=
  (m.find? (fun e => e.1 == k)).map (·.2)

/-- `chunk_map[tag].push_back(chunk)`: append to the existing list, or
bind the tag to a singleton list. -/
def mapPush (m : ChunkMap) (k : List Nat) (c : ChunkVecM) : ChunkMap :=
  match m with
  | [] => [(k, [c])]
  | (k', cs) :: rest =>
    if k' = k then (k', cs ++ [c]) :: rest else (k', cs) :: mapPush rest k c

/-- `chunk_map[tag] = chunks`: replace the list bound to a tag (or bind
it anew). -/
def mapSet (m : ChunkMap) (k : List Nat) (cs : List ChunkVecM) : ChunkMap :=
  match m with
  | [] => [(k, cs)]
  | (k', cs') :: rest =>
    if k' = k then (k', cs) :: rest else (k', cs') :: mapSet rest k cs

def tagIHDR : List Nat := [73, 72, 68, 82]
def tagIDAT : List Nat := [73, 68, 65, 84]
def tagIEND : List Nat := [73, 69, 78, 68]
def tagTEXT : List Nat := [116, 69, 88, 116]
def tagZTXT : List Nat := [122, 84, 88, 116]

/-- The fixed emission-priority tag order of `Image::to_file`
(`src/png.cpp` 1399–1407): critical chunks, then the listed ancillary
chunks. -/
def chunkPriority : List (List Nat) :=
  [tagIHDR, [103, 65, 77, 65], [80, 76, 84, 69], tagIDAT,
   [116, 82, 78, 83], [99, 72, 82, 77], [105, 67, 67, 80], [115, 66, 73, 84],
   [115, 82, 71, 66], [99, 73, 67, 80], tagTEXT, tagZTXT, [105, 84, 88, 116],
   [98, 75, 71, 68], [104, 73, 83, 84], [112, 72, 89, 115], [115, 80, 76, 84],
   [101, 88, 73, 102], [116, 73, 77, 69], [97, 99, 84, 76], [102, 99, 84, 76],
   [102, 100, 65, 84]]

/-- The 15 pixel kinds (`facade::png::PixelEnum`). -/
inductive PixelEnum where
  | GRAYSCALE_PIXEL_1BIT
  | GRAYSCALE_PIXEL_2BIT
  | GRAYSCALE_PIXEL_4BIT
  | GRAYSCALE_PIXEL_8BIT
  | GRAYSCALE_PIXEL_16BIT
  | TRUE_COLOR_PIXEL_8BIT
  | TRUE_COLOR_PIXEL_16BIT
  | PALETTE_PIXEL_1BIT
  | PALETTE_PIXEL_2BIT
  | PALETTE_PIXEL_4BIT
  | PALETTE_PIXEL_8BIT
  | ALPHA_GRAYSCALE_PIXEL_8BIT
  | ALPHA_GRAYSCALE_PIXEL_16BIT
  | ALPHA_TRUE_COLOR_PIXEL_8BIT
  | ALPHA_TRUE_COLOR_PIXEL_16BIT
  deriving Repr, DecidableEq

/-- Bits per pixel of each kind (`PixelType::Bits`). -/
def pixelEnumBits : PixelEnum → Nat
  | .GRAYSCALE_PIXEL_1BIT => 1
  | .GRAYSCALE_PIXEL_2BIT => 2
  | .GRAYSCALE_PIXEL_4BIT => 4
  | .GRAYSCALE_PIXEL_8BIT => 8
  | .GRAYSCALE_PIXEL_16BIT => 16
  | .TRUE_COLOR_PIXEL_8BIT => 24
  | .TRUE_COLOR_PIXEL_16BIT => 48
  | .PALETTE_PIXEL_1BIT => 1
  | .PALETTE_PIXEL_2BIT => 2
  | .PALETTE_PIXEL_4BIT => 4
  | .PALETTE_PIXEL_8BIT => 8
  | .ALPHA_GRAYSCALE_PIXEL_8BIT => 16
  | .ALPHA_GRAYSCALE_PIXEL_16BIT => 32
  | .ALPHA_TRUE_COLOR_PIXEL_8BIT => 32
  | .ALPHA_TRUE_COLOR_PIXEL_16BIT => 64

/-- `PixelSpan::Samples = 8 / Bits + (Bits > 8)`. -/
def pixelEnumSamples (k : PixelEnum) : Nat :=
  8 / pixelEnumBits k + (if pixelEnumBits k > 8 then 1 else 0)

/-- `sizeof(PixelSpan<PixelType>)`: `Bits / 8` bytes, at least one. -/
def spanBytesOf (k : PixelEnum) : Nat := max (pixelEnumBits k / 8) 1

/-- `Header::width()` (`src/png.cpp` 187–190): requires the 13-byte
IHDR payload, then big-endian `uint32_t` at offset 0. -/
def headerWidth (c : ChunkVecM) : Except Err Nat :=
  if c.data.length ≠ 13 then .error (.InsufficientSize c.data.length 13)
  else .ok (be32dec (c.data.take 4))

/-- `Header::height()`: big-endian `uint32_t` at offset 4. -/
def headerHeight (c : ChunkVecM) : Except Err Nat :=
  if c.data.length ≠ 13 then .error (.InsufficientSize c.data.length 13)
  else .ok (be32dec ((c.data.drop 4).take 4))

/-- `Header::bit_depth()`: byte 8. -/
def headerBitDepth (c : ChunkVecM) : Except Err Nat :=
  if c.data.length ≠ 13 then .error (.InsufficientSize c.data.length 13)
  else .ok (c.data.getD 8 0)

/-- `Header::color_type()`: byte 9. -/
def headerColorType (c : ChunkVecM) : Except Err Nat :=
  if c.data.length ≠ 13 then .error (.InsufficientSize c.data.length 13)
  else .ok (c.data.getD 9 0)

/-- `Header::pixel_type()` (`src/png.cpp` 257–353): the
`(color_type, bit_depth)` dispatch. -/
def headerPixelType (c : ChunkVecM) : Except Err PixelEnum := do
  let ct ← headerColorType c
  let bd ← headerBitDepth c
  match ct with
  | 0 =>
    match bd with
    | 1 => .ok .GRAYSCALE_PIXEL_1BIT
    | 2 => .ok .GRAYSCALE_PIXEL_2BIT
    | 4 => .ok .GRAYSCALE_PIXEL_4BIT
    | 8 => .ok .GRAYSCALE_PIXEL_8BIT
    | 16 => .ok .GRAYSCALE_PIXEL_16BIT
    | _ => .error (.InvalidBitDepth bd)
  | 2 =>
    match bd with
    | 8 => .ok .TRUE_COLOR_PIXEL_8BIT
    | 16 => .ok .TRUE_COLOR_PIXEL_16BIT
    | _ => .error (.InvalidBitDepth bd)
  | 3 =>
    match bd with
    | 1 => .ok .PALETTE_PIXEL_1BIT
    | 2 => .ok .PALETTE_PIXEL_2BIT
    | 4 => .ok .PALETTE_PIXEL_4BIT
    | 8 => .ok .PALETTE_PIXEL_8BIT
    | _ => .error (.InvalidBitDepth bd)
  | 4 =>
    match bd with
    | 8 => .ok .ALPHA_GRAYSCALE_PIXEL_8BIT
    | 16 => .ok .ALPHA_GRAYSCALE_PIXEL_16BIT
    | _ => .error (.InvalidBitDepth bd)
  | 6 =>
    match bd with
    | 8 => .ok .ALPHA_TRUE_COLOR_PIXEL_8BIT
    | 16 => .ok .ALPHA_TRUE_COLOR_PIXEL_16BIT
    | _ => .error (.InvalidBitDepth bd)
  | _ => .error (.InvalidColorType ct)

/-- `Header::buffer_size()` (`src/png.cpp` 407–412): the scanline bit
width padded up to a byte boundary, times the height, plus one filter
byte per row. -/
def bufferSize (k : PixelEnum) (W H : Nat) : Nat :=
  let scanline := W * pixelEnumBits k
  let padded := scanline + (if scanline % 8 ≠ 0 then 8 - scanline % 8 else 0)
  (padded * H + H * 8) / 8

/-- The loaded scanline vector together with the pixel kind of its
variant (`std::vector<Scanline>`; every loaded scanline holds the same
variant alternative, fixed by the header at `decompress` time). -/
structure ImageData where
  kind : PixelEnum
  rows : List Scanline
  deriving Repr, DecidableEq

/-- `facade::png::Image` (and its subclass `facade::PNGPayload`, which
adds no state): the chunk table, optional trailing bytes, optional
loaded scanlines. -/
structure Image where
  chunk_map : ChunkMap
  trailing_data : Option (List Nat)
  image_data : Option ImageData
  deriving Repr, DecidableEq

/-- `Image::header()`: `chunk_map["IHDR"][0]` behind a `has_header`
check.  (Indexing `[0]` of an empty vector is undefined behaviour in
C++; an empty list — which `parse` never produces — is mapped to
`NoHeaderChunk` as well.) -/
def Image.headerChunk (img : Image) : Except Err ChunkVecM :=
  match mapFind img.chunk_map tagIHDR with
  | none => .error .NoHeaderChunk
  | some [] => .error .NoHeaderChunk
  | some (c :: _) => .ok c

def Image.width (img : Image) : Except Err Nat := do headerWidth (← img.headerChunk)

def Image.height (img : Image) : Except Err Nat := do headerHeight (← img.headerChunk)

/-- `Image::is_loaded()`. -/
def Image.is_loaded (img : Image) : Bool := img.image_data.isSome

/-- `Image::has_trailing_data()`. -/
def Image.has_trailing_data (img : Image) : Bool := img.trailing_data.isSome

/-- `Image::set_trailing_data(data)` (`src/png.cpp` 890). -/
def Image.set_trailing_data (img : Image) (t : List Nat) : Image :=
  { img with trailing_data := some t }

/-- `Scanline::to_raw` (`src/png.cpp` 659–669): the filter byte followed
by the bytes of every span. -/
def Scanline.to_raw (sl : Scanline) : List Nat :=
  sl.filter_type :: sl.pixel_data.flatten

/-- Split a byte list into `cnt` groups of `n` bytes (the span copy of
`ScanlineBase::read_line`). -/
def chunksOf (cnt n : Nat) (l : List Nat) : List (List Nat) :=
  match cnt with
  | 0 => []
  | c + 1 => l.take n :: chunksOf c n (l.drop n)

/-- `ScanlineBase::read_line(raw_data, offset, width)` (`src/png.cpp`
569–583). -/
def readLine (k : PixelEnum) (raw : List Nat) (offset width : Nat) :
    Except Err Scanline :=
  if offset ≥ raw.length then .error (.OutOfBounds offset raw.length)
  else
    let ft := raw.getD offset 0
    let bitWidth := pixelEnumBits k * width
    let byteWidth := bitWidth / 8 + (if bitWidth % 8 ≠ 0 then 1 else 0)
    if offset + 1 + byteWidth > raw.length then
      .error (.OutOfBounds (offset + 1 + byteWidth) raw.length)
    else
      let sampleWidth :=
        width / pixelEnumSamples k + (if width % pixelEnumSamples k ≠ 0 then 1 else 0)
      .ok ⟨ft, chunksOf sampleWidth (spanBytesOf k)
        ((raw.drop (offset + 1)).take (sampleWidth * spanBytesOf k))⟩

/-- The row loop of `ScanlineBase::from_raw`: read a line every
`byte_width + 1` bytes while the offset is inside the buffer. -/
def fromRawGo (k : PixelEnum) (raw : List Nat) (width : Nat) (i : Nat) :
    Except Err (List Scanline) :=
  let bitWidth := pixelEnumBits k * width
  let byteWidth := bitWidth / 8 + (if bitWidth % 8 ≠ 0 then 1 else 0)
  if h : i < raw.length then
    match readLine k raw i width with
    | .error e => .error e
    | .ok line =>
      match fromRawGo k raw width (i + byteWidth + 1) with
      | .error e => .error e
      | .ok rest => .ok (line :: rest)
  else .ok []
termination_by raw.length - i
decreasing_by
  omega

/-- `ScanlineBase::from_raw(header, raw_data)` (`src/png.cpp` 585–601):
`PixelMismatch` unless the buffer has exactly `buffer_size` bytes, then
the row loop. -/
def fromRaw (k : PixelEnum) (W H : Nat) (raw : List Nat) : Except Err (List Scanline) :=
  if raw.length ≠ bufferSize k W H then .error .PixelMismatch
  else fromRawGo k raw W 0

/-- `Image::decompress()` (`src/png.cpp` 993–1096) with the inflate
primitive passed in as `infl`: concatenate the `IDAT` payloads in
order, inflate, split into typed scanlines. -/
def Image.decompress (infl : List Nat → Except Err (List Nat)) (img : Image) :
    Except Err Image :=
  match mapFind img.chunk_map tagIDAT with
  | none => .error .NoImageDataChunks
  | some idats => do
    let raw ← infl ((idats.map (·.data)).flatten)
    let hc ← img.headerChunk
    let pt ← headerPixelType hc
    let W ← headerWidth hc
    let H ← headerHeight hc
    let rows ← fromRaw pt W H raw
    .ok { img with image_data := some ⟨pt, rows⟩ }

/-- The row loop of `Image::reconstruct()` (`src/png.cpp` 1127–1258):
row `i` is reconstructed against the *already reconstructed* row
`i - 1` (the vector is updated in place). -/
def imageReconstructGo : List Scanline → Option Scanline → Except Err (List Scanline)
  | [], _ => .ok []
  | r :: rest, prev =>
    match r.reconstruct prev with
    | .error e => .error e
    | .ok r' =>
      match imageReconstructGo rest (some r') with
      | .error e => .error e
      | .ok rest' => .ok (r' :: rest')

/-- `Image::reconstruct()`: requires loaded data; the per-row `switch`
re-reads `header().pixel_type()` and `std::get`s that alternative, so a
header whose kind differs from the loaded variant raises
(`std::bad_variant_access`, modelled as `PixelMismatch`; unreachable
through `decompress`, which sets the variant from the same header). -/
def Image.reconstruct (img : Image) : Except Err Image :=
  match img.image_data with
  | none => .error .NoImageData
  | some d => do
    let hc ← img.headerChunk
    let pt ← headerPixelType hc
    if pt ≠ d.kind then .error .PixelMismatch
    else
      match imageReconstructGo d.rows none with
      | .error e => .error e
      | .ok rows' => .ok { img with image_data := some ⟨d.kind, rows'⟩ }

/-- `Image::load()` (`src/png.cpp` 943–946). -/
def Image.load (infl : List Nat → Except Err (List Nat)) (img : Image) :
    Except Err Image := do
  Image.reconstruct (← img.decompress infl)

/-- The filter-selection metric of `ScanlineBase::filter(previous)`
(`src/png.cpp` 745–767): the absolute value of the sum of the span
bytes read as two's-complement `int8_t`. -/
def signedAbsSum (spans : List (List Nat)) : Nat :=
  (spans.flatten.foldl
    (fun (sum : Int) b => sum + (if b < 128 then (b : Int) else (b : Int) - 256))
    0).natAbs

/-- `ScanlineBase::filter(previous)`: compute all five candidate
encodings and keep the first one whose metric is strictly smaller than
every earlier candidate's (ties keep the lower tag). -/
def Scanline.filterAuto (sl : Scanline) (previous : Option Scanline) :
    Except Err Scanline := do
  let f0 ← sl.filter 0 previous
  let f1 ← sl.filter 1 previous
  let f2 ← sl.filter 2 previous
  let f3 ← sl.filter 3 previous
  let f4 ← sl.filter 4 previous
  .ok ([f1, f2, f3, f4].foldl
    (fun best cand =>
      let a := signedAbsSum cand.pixel_data
      if a < best.1 then (a, cand) else best)
    (signedAbsSum f0.pixel_data, f0)).2

/-- The row loop of `Image::filter()` (`src/png.cpp` 1260–1395): row `i`
is filtered against the *original* row `i - 1` (`current_data`), the
results are collected into a fresh vector. -/
def imageFilterGo : List Scanline → Option Scanline → Except Err (List Scanline)
  | [], _ => .ok []
  | r :: rest, prev =>
    match r.filterAuto prev with
    | .error e => .error e
    | .ok f =>
      match imageFilterGo rest (some r) with
      | .error e => .error e
      | .ok rest' => .ok (f :: rest')

/-- `Image::filter()`: requires loaded data; kind dispatch as in
`Image.reconstruct`. -/
def Image.filter (img : Image) : Except Err Image :=
  match img.image_data with
  | none => .error .NoImageData
  | some d => do
    let hc ← img.headerChunk
    let pt ← headerPixelType hc
    if pt ≠ d.kind then .error .PixelMismatch
    else
      match imageFilterGo d.rows none with
      | .error e => .error e
      | .ok rows' => .ok { img with image_data := some ⟨d.kind, rows'⟩ }

/-- The `IDAT` splitting loop of `Image::compress`: consecutive pieces
of at most `n` bytes.  (The C++ loop would not terminate for `n = 0`; it
is only ever called with the default 8192.) -/
def splitChunks (n : Nat) (l : List Nat) : List (List Nat) :=
  if l = [] ∨ n = 0 then []
  else l.take n :: splitChunks n (l.drop n)
termination_by l.length
decreasing_by
  rename_i h
  push_neg at h
  have h1 : 0 < l.length := List.length_pos.mpr h.1
  have h2 : 0 < n := Nat.pos_of_ne_zero h.2
  simp only [List.length_drop]
  omega

/-- `Image::compress(chunk_size, level)` (`src/png.cpp` 1098–1125) with
the deflate primitive passed in as `defl`: serialise every scanline,
deflate the concatenation, replace the `IDAT` chunk list with the
split-up stream (defaults: `chunk_size = 8192`, `level = -1`). -/
def Image.compress (defl : Int → List Nat → List Nat) (img : Image)
    (chunkSz : Option Nat) (level : Int) : Except Err Image :=
  match img.image_data with
  | none => .error .NoImageData
  | some d =>
    let compressed := defl level ((d.rows.map Scanline.to_raw).flatten)
    let idatChunks :=
      match chunkSz with
      | none => [ChunkVecM.mk tagIDAT compressed]
      | some n => (splitChunks n compressed).map (ChunkVecM.mk tagIDAT)
    .ok { img with chunk_map := mapSet img.chunk_map tagIDAT idatChunks }

/-- The 8-byte PNG signature. -/
def pngSignature : List Nat := [0x89, 0x50, 0x4E, 0x47, 0x0D, 0x0A, 0x1A, 0x0A]

/-- The nonstandard-tag pass of `Image::to_file` (`src/png.cpp`
1409–1412): every chunk-map key that is neither `IEND` nor in the
priority list.  (`std::map` iterates its keys in sorted order; the model
iterates them in map order — the emission order of these tags is the
only place the difference shows, and nothing downstream depends on
it.) -/
def extraLabels (img : Image) : List (List Nat) :=
  (img.chunk_map.map (·.1)).filter
    (fun k => k ≠ tagIEND ∧ ¬ chunkPriority.contains k)

/-- `Image::to_file()` (`src/png.cpp` 1397–1441): signature, the chunk
lists in priority order, every other tag except `IEND`, then `IEND`
(synthesised empty if absent), then the trailing bytes. -/
def Image.to_file (img : Image) : List Nat :=
  let labels := chunkPriority ++ extraLabels img ++ [tagIEND]
  let body := (labels.map (fun k =>
    match mapFind img.chunk_map k with
    | none => []
    | some cs => (cs.map emitChunk).flatten)).flatten
  let iend :=
    if (mapFind img.chunk_map tagIEND).isNone then emitChunk ⟨tagIEND, []⟩ else []
  pngSignature ++ body ++ iend ++ img.trailing_data.getD []

/-- The chunk loop of `Image::parse` (`src/png.cpp` 905–918): parse a
chunk, optionally validate its CRC, push it under its tag, stop after
the first `IEND`.  Returns the map and the offset one past the `IEND`
frame. -/
def parseLoop (validate : Bool) (buf : List Nat) (offset : Nat) (m : ChunkMap) :
    Except Err (ChunkMap × Nat) :=
  match h : chunkPtrParse buf offset with
  | .error e => .error e
  | .ok v =>
    let cv : ChunkVecM := ⟨v.tag, v.data⟩
    if validate ∧ chunkCrc cv ≠ v.crc then .error (.BadCRC v.crc (chunkCrc cv))
    else
      let m' := mapPush m v.tag cv
      if v.tag = tagIEND then .ok (m', offset + 12 + v.length)
      else parseLoop validate buf (offset + 12 + v.length) m'
termination_by buf.length - offset
decreasing_by
  have := chunkPtrParse_ok_bound h
  omega

/-- `Image::parse(ptr, size, validate)` (`src/png.cpp` 894–924):
signature check, chunk loop from offset 8, any bytes after the `IEND`
frame become the trailing data.  The source clears `chunk_map` and
`trailing_data` of `*this` and leaves `image_data` untouched (the reset
is commented out at line 900); the model returns the resulting image. -/
def Image.parse (img : Image) (buf : List Nat) (validate : Bool) : Except Err Image :=
  if buf.length < 8 then .error (.InsufficientSize buf.length 8)
  else if buf.take 8 ≠ pngSignature then .error .BadPNGSignature
  else
    match parseLoop validate buf 8 [] with
    | .error e => .error e
    | .ok (m, endOff) =>
      .ok { chunk_map := m,
            trailing_data :=
              if endOff < buf.length then some (buf.drop endOff) else none,
            image_data := img.image_data }

/-- An image with no chunks, no trailing data, nothing loaded
(`Image()`). -/
def emptyImage : Image := ⟨[], none, none⟩

/-! ## Text chunks (`Text` / `ZText`, `src/png.cpp` 414–567 and
1454–1534; payload helpers in `src/payload.cpp` 5–73) -/

/-- `Text::null_terminator()` (`src/png.cpp` 414–430): offset of the
first NUL byte, none when the data is empty or has no NUL. -/
def textNullTerminator (data : List Nat) : Option Nat :=
  if data.length = 0 then none else data.findIdx? (· == 0)

/-- `ZText::null_terminator()` (`src/png.cpp` 479–495): like the `tEXt`
one, but a NUL at offset 0 also counts as absent. -/
def ztextNullTerminator (data : List Nat) : Option Nat :=
  if data.length = 0 then none
  else
    match data.findIdx? (· == 0) with
    | none => none
    | some 0 => none
    | some z => some z

/-- `Text::keyword()`: the bytes before the NUL; `NoKeyword` without
one. -/
def textKeyword (c : ChunkVecM) : Except Err (List Nat) :=
  match textNullTerminator c.data with
  | none => .error .NoKeyword
  | some z => .ok (c.data.take z)

/-- `ZText::keyword()`. -/
def ztextKeyword (c : ChunkVecM) : Except Err (List Nat) :=
  match ztextNullTerminator c.data with
  | none => .error .NoKeyword
  | some z => .ok (c.data.take z)

/-- `Text::text_offset()`: one past the NUL, or 0 without one. -/
def textTextOffset (c : ChunkVecM) : Nat :=
  match textNullTerminator c.data with
  | some z => z + 1
  | none => 0

/-- `Text::text()` (`src/png.cpp` 467–469): the bytes from
`text_offset` to the end, read through `std::vector::at`, which throws
`std::out_of_range` when the chunk is empty or holds nothing past the
keyword. -/
def textText (c : ChunkVecM) : Except Err (List Nat) :=
  if c.data.length = 0 ∨ textTextOffset c ≥ c.data.length then .error .StdOutOfRange
  else .ok (c.data.drop (textTextOffset c))

/-- Keyword filtering of `Image::get_text` / `get_ztext`: keep the
chunks whose keyword matches, erroring as soon as a chunk has no
keyword. -/
def getTextGo (keywordOf : ChunkVecM → Except Err (List Nat)) (kw : List Nat) :
    List ChunkVecM → Except Err (List ChunkVecM)
  | [] => .ok []
  | c :: rest => do
    let k ← keywordOf c
    let r ← getTextGo keywordOf kw rest
    .ok (if k = kw then c :: r else r)

/-- `Image::get_text(keyword)` (`src/png.cpp` 1481–1493):
`chunk_map.at("tEXt")` — `std::map::at` throws `std::out_of_range`
when no `tEXt` chunk exists at all — then the keyword filter. -/
def Image.get_text (img : Image) (kw : List Nat) : Except Err (List ChunkVecM) :=
  match mapFind img.chunk_map tagTEXT with
  | none => .error .StdOutOfRange
  | some cs => getTextGo textKeyword kw cs

/-- `Image::get_ztext(keyword)` (`src/png.cpp` 1522–1534). -/
def Image.get_ztext (img : Image) (kw : List Nat) : Except Err (List ChunkVecM) :=
  match mapFind img.chunk_map tagZTXT with
  | none => .error .StdOutOfRange
  | some cs => getTextGo ztextKeyword kw cs

/-- `Image::has_text()` / `has_ztext()`. -/
def Image.has_text (img : Image) : Bool := (mapFind img.chunk_map tagTEXT).isSome

def Image.has_ztext (img : Image) : Bool := (mapFind img.chunk_map tagZTXT).isSome

/-- A byte of the base64 alphabet (the `std::isalnum(c) || c == '+' ||
c == '/'` test of `base64_decode`, equal to membership in
`facade::BASE64_ALPHA`). -/
def isB64Char (c : Nat) : Bool :=
  (65 ≤ c && c ≤ 90) || (97 ≤ c && c ≤ 122) || (48 ≤ c && c ≤ 57) || c == 43 || c == 47

/-- `facade::is_base64_string` (`src/utility.cpp` 105–118): every byte
before the first `'='` is in the alphabet and everything from the first
`'='` on is `'='`. -/
def isBase64String (s : List Nat) : Bool :=
  (s.takeWhile (fun c => c != 61)).all isB64Char &&
    (s.dropWhile (fun c => c != 61)).all (· == 61)

/-- `BASE64_ALPHA.find(c)` truncated to `uint8_t`: the alphabet index,
or `static_cast<uint8_t>(std::string::npos) = 255` for a byte outside
the alphabet (such as the NUL padding the decoder appends). -/
def b64IndexOf (c : Nat) : Nat :=
  if 65 ≤ c ∧ c ≤ 90 then c - 65
  else if 97 ≤ c ∧ c ≤ 122 then c - 97 + 26
  else if 48 ≤ c ∧ c ≤ 57 then c - 48 + 52
  else if c = 43 then 62
  else if c = 47 then 63
  else 255

/-- One 4-character group of `facade::base64_decode` turned into three
bytes (`uint8_t` arithmetic, hence the `% 256`). -/
def b64DecodeGroup (a b c d : Nat) : List Nat :=
  let ia := b64IndexOf a
  let ib := b64IndexOf b
  let ic := b64IndexOf c
  let id := b64IndexOf d
  [((ia <<< 2) + ((ib &&& 0x30) >>> 4)) % 256,
   (((ib &&& 0xF) <<< 4) + ((ic &&& 0x3C) >>> 2)) % 256,
   (((ic &&& 0x3) <<< 6) + id) % 256]

/-- The group loop of `facade::base64_decode`: full groups of four give
three bytes; a trailing group of `i ∈ {1, 2, 3}` characters is padded
with NUL and contributes its first `i - 1` bytes. -/
def b64Groups : List Nat → List Nat
  | a :: b :: c :: d :: rest => b64DecodeGroup a b c d ++ b64Groups rest
  | [] => []
  | tail => (b64DecodeGroup (tail.getD 0 0) (tail.getD 1 0) (tail.getD 2 0)
      (tail.getD 3 0)).take (tail.length - 1)

/-- `facade::base64_decode` (`src/utility.cpp` 169–214): scan up to the
first `'='`, rejecting the first byte outside the alphabet, then decode
the groups. -/
def base64Decode (s : List Nat) : Except Err (List Nat) :=
  let pre := s.takeWhile (fun c => c != 61)
  match pre.find? (fun c => ! isB64Char c) with
  | some c => .error (.InvalidBase64Character c)
  | none => .ok (b64Groups pre)

/-- `PNGPayload::get_text_payloads(keyword)` (`src/payload.cpp` 17–28):
the matching `tEXt` chunks, rejecting any whose text is not a base64
string. -/
def getTextPayloadsGo : List ChunkVecM → Except Err (List ChunkVecM)
  | [] => .ok []
  | c :: rest => do
    let t ← textText c
    if ¬ isBase64String t then .error .InvalidBase64String
    else do
      let r ← getTextPayloadsGo rest
      .ok (c :: r)

def Image.get_text_payloads (img : Image) (kw : List Nat) :
    Except Err (List ChunkVecM) := do
  getTextPayloadsGo (← img.get_text kw)

/-- `PNGPayload::extract_text_payloads(keyword)` (`src/payload.cpp`
30–38): base64-decode the text of every payload chunk. -/
def extractTextPayloadsGo : List ChunkVecM → Except Err (List (List Nat))
  | [] => .ok []
  | c :: rest => do
    let t ← textText c
    let d ← base64Decode t
    let r ← extractTextPayloadsGo rest
    .ok (d :: r)

def Image.extract_text_payloads (img : Image) (kw : List Nat) :
    Except Err (List (List Nat)) := do
  extractTextPayloadsGo (← img.get_text_payloads kw)

/-- Claim C10: on an image whose chunk table has no `tEXt` entry at
all, `get_text` (and with it `get_text_payloads` and
`extract_text_payloads`) does not return an empty list — it fails with
the out-of-range error of `std::map::at` — so callers must check
`has_text()` first; likewise `get_ztext` without a `zTXt` entry. -/
theorem get_text_no_entry (img : Image) (kw : List Nat)
    (ht : mapFind img.chunk_map tagTEXT = none)
    (hz : mapFind img.chunk_map tagZTXT = none) :
    img.has_text = false ∧
    img.get_text kw = .error .StdOutOfRange ∧
    img.get_text_payloads kw = .error .StdOutOfRange ∧
    img.extract_text_payloads kw = .error .StdOutOfRange ∧
    img.has_ztext = false ∧
    img.get_ztext kw = .error .StdOutOfRange := by
  have h1 : img.get_text kw = .error .StdOutOfRange := by
    unfold Image.get_text
    rw [ht]
  refine ⟨?_, h1, ?_, ?_, ?_, ?_⟩
  · simp [Image.has_text, ht]
  · unfold Image.get_text_payloads
    rw [h1]
    rfl
  · unfold Image.extract_text_payloads Image.get_text_payloads
    rw [h1]
    rfl
  · simp [Image.has_ztext, hz]
  · unfold Image.get_ztext
    rw [hz]

theorem get_text_no_entry_witness :
    (emptyImage.has_text = false ∧
      emptyImage.get_text [70, 65] = .error .StdOutOfRange ∧
      emptyImage.get_text_payloads [70, 65] = .error .StdOutOfRange ∧
      emptyImage.extract_text_payloads [70, 65] = .error .StdOutOfRange ∧
      emptyImage.has_ztext = false ∧
      emptyImage.get_ztext [70, 65] = .error .StdOutOfRange) :=
  get_text_no_entry emptyImage [70, 65] (by decide) (by decide)

/-! ## The stego carrier (`PNGPayload`, `src/payload.cpp` 75–270)

Nibble position `t` (bit offset `4 t`) addresses colour channel
`t mod 3` (red, green, blue) of pixel `t / 3` in row-major order; for
the two supported kinds (8-bit truecolour with or without alpha) one
span is one pixel, so pixel `(y, x)` is span `x` of row `y` and its
channels are the span bytes 0, 1 and 2 (alpha, when present, is byte 3
and untouched). -/

/-- One channel fetch of `PNGPayload::read_stego_data` (`src/payload.cpp`
86–136): row lookup (`Image::scanline`, whose bound check is the
source's `index > size`), pixel lookup (`get_pixel`, bound
`index > pixel_width`), then the `std::get_if` colour dispatch, which
yields `PixelMismatch` unless the variant is 8-bit truecolour or
8-bit alpha-truecolour; the low nibble of the channel is returned. -/
def stegoChannelGet (d : ImageData) (W : Nat) (bits : Nat) : Except Err Nat :=
  let pixelIndex := bits / 12
  let colorIndex := bits % 12 / 4
  let y := pixelIndex / W
  let x := pixelIndex % W
  if y > d.rows.length then .error (.OutOfBounds y d.rows.length)
  else
    let row := d.rows.getD y ⟨0, []⟩
    if x > row.pixel_data.length * pixelEnumSamples d.kind then
      .error (.OutOfBounds x (row.pixel_data.length * pixelEnumSamples d.kind))
    else
      match d.kind with
      | .TRUE_COLOR_PIXEL_8BIT | .ALPHA_TRUE_COLOR_PIXEL_8BIT =>
        .ok ((row.pixel_data.getD x []).getD colorIndex 0 &&& 0xF)
      | _ => .error .PixelMismatch

/-- The nibble loop of `read_stego_data`: nibble `k` lands in the low
(`bit_index = 0`) or high (`bit_index = 4`) half of output byte
`byte_index = 4k / 8`. -/
def readStegoGo (d : ImageData) (W bitOffset : Nat) :
    Nat → Nat → List Nat → Except Err (List Nat)
  | 0, _, acc => .ok acc
  | c + 1, k, acc => do
    let lsb ← stegoChannelGet d W (bitOffset + 4 * k)
    let byteIndex := 4 * k / 8
    let bitIndex := 4 * k % 8
    readStegoGo d W bitOffset c (k + 1)
      (if bitIndex = 0 then acc ++ [lsb]
       else acc.set byteIndex (acc.getD byteIndex 0 ||| (lsb <<< bitIndex)))

/-- `PNGPayload::read_stego_data(bit_offset, size)` (`src/payload.cpp`
75–140).  `max_size = width * height * 3 * 4` is `unsigned int`
arithmetic on the `uint32_t` factors `header.width()` / `height()`, so
it wraps, hence the `% 2 ^ 32`; the `std::size_t` left-hand side
`bit_offset + size * 8` is compared against it after promotion. -/
def Image.read_stego_data (img : Image) (bitOffset size : Nat) :
    Except Err (List Nat) :=
  match img.image_data with
  | none => .error .NoImageData
  | some d =>
    if bitOffset % 4 ≠ 0 then .error (.InvalidBitOffset bitOffset)
    else do
      let W ← img.width
      let H ← img.height
      let maxSize := W * H * 3 * 4 % 2 ^ 32
      let checked := bitOffset + size * 8
      if checked > maxSize then .error (.OutOfBounds checked maxSize)
      else readStegoGo d W bitOffset (2 * size) 0 []

/-- The colour `switch` of `write_stego_data` (`src/payload.cpp`
164–193).  Its cases have no `break`: the case for channel `c` falls
through to every later case, so the same nibble is written into the low
nibble of channels `c` through 2 (blue), each keeping its high
nibble. -/
def stegoWriteChannels (px : List Nat) (c nib : Nat) : List Nat :=
  (List.range 3).foldl
    (fun p j => if c ≤ j then p.set j ((p.getD j 0 &&& 0xF0) ||| nib) else p) px

/-- One iteration of the `write_stego_data` loop: fetch the pixel,
write the nibble through the fall-through switch, store the pixel back
(`set_pixel`). -/
def writeStegoStep (d : ImageData) (W : Nat) (bits nib : Nat) : Except Err ImageData :=
  let pixelIndex := bits / 12
  let colorIndex := bits % 12 / 4
  let y := pixelIndex / W
  let x := pixelIndex % W
  if y > d.rows.length then .error (.OutOfBounds y d.rows.length)
  else
    let row := d.rows.getD y ⟨0, []⟩
    if x > row.pixel_data.length * pixelEnumSamples d.kind then
      .error (.OutOfBounds x (row.pixel_data.length * pixelEnumSamples d.kind))
    else
      match d.kind with
      | .TRUE_COLOR_PIXEL_8BIT | .ALPHA_TRUE_COLOR_PIXEL_8BIT =>
        .ok ⟨d.kind, d.rows.set y
          ⟨row.filter_type, row.pixel_data.set x
            (stegoWriteChannels (row.pixel_data.getD x []) colorIndex nib)⟩⟩
      | _ => .error .PixelMismatch

/-- The nibble loop of `write_stego_data`: nibble `k` of the input is
`(data[4k / 8] >> (4k mod 8)) & 0xF`. -/
def writeStegoGo (W : Nat) (dat : List Nat) (bitOffset : Nat) :
    ImageData → Nat → Nat → Except Err ImageData
  | d, 0, _ => .ok d
  | d, c + 1, k => do
    let byteIndex := 4 * k / 8
    let bitIndex := 4 * k % 8
    let nib := (dat.getD byteIndex 0 >>> bitIndex) &&& 0xF
    let d' ← writeStegoStep d W (bitOffset + 4 * k) nib
    writeStegoGo W dat bitOffset d' c (k + 1)

/-- `PNGPayload::write_stego_data(ptr, size, bit_offset)`
(`src/payload.cpp` 142–197). -/
def Image.write_stego_data (img : Image) (dat : List Nat) (bitOffset : Nat) :
    Except Err Image :=
  match img.image_data with
  | none => .error .NoImageData
  | some d =>
    if bitOffset % 4 ≠ 0 then .error (.InvalidBitOffset bitOffset)
    else do
      let W ← img.width
      let H ← img.height
      let maxSize := W * H * 3 * 4 % 2 ^ 32
      let checked := bitOffset + dat.length * 8
      if checked > maxSize then .error (.OutOfBounds checked maxSize)
      else do
        let d' ← writeStegoGo W dat bitOffset d (2 * dat.length) 0
        .ok { img with image_data := some d' }

/-- `PNGPayload::has_stego_payload()` (`src/payload.cpp` 203–222):
`"FCD"` at bit offset 0, a little-endian `uint32_t` body length at bit
offset 24, the frame must fit the capacity, `"DCF"` at bit offset
`56 + 8 * length`. -/
def Image.has_stego_payload (img : Image) : Except Err Bool :=
  match img.image_data with
  | none => .error .NoImageData
  | some _ => do
    let W ← img.width
    let H ← img.height
    let hdr ← img.read_stego_data 0 3
    if hdr ≠ [70, 67, 68] then .ok false
    else do
      let szBytes ← img.read_stego_data (3 * 8) 4
      let szVal := le32dec szBytes
      if (7 * 8 + szVal * 8 + 3 * 8) % 2 ^ 32 > W * H * 3 * 4 % 2 ^ 32 then .ok false
      else do
        let ftr ← img.read_stego_data (7 * 8 + szVal * 8) 3
        if ftr ≠ [68, 67, 70] then .ok false else .ok true

/-- `PNGPayload::extract_stego_payload()` (`src/payload.cpp` 262–270)
with the inflate primitive passed in as `infl`. -/
def Image.extract_stego_payload (infl : List Nat → Except Err (List Nat))
    (img : Image) : Except Err (List Nat) :=
  match img.image_data with
  | none => .error .NoImageData
  | some _ => do
    let has ← img.has_stego_payload
    if ¬ has then .error .NoStegoData
    else do
      let szBytes ← img.read_stego_data (3 * 8) 4
      let body ← img.read_stego_data (7 * 8) (le32dec szBytes)
      infl body

/-- `PNGPayload::create_stego_payload(ptr, size)` (`src/payload.cpp`
224–256): clone, reject unsupported pixel kinds, deflate the input at
level 9, frame it (`"FCD"`, little-endian `uint32_t` body length — the
`static_cast<std::uint32_t>` is the `% 2 ^ 32` — body, `"DCF"`), check
the capacity `(width * height * 3 * 4) / 8`, load, write at bit offset
0, refilter, recompress. -/
def Image.create_stego_payload (defl : Int → List Nat → List Nat)
    (infl : List Nat → Except Err (List Nat)) (img : Image) (dat : List Nat) :
    Except Err Image := do
  let hc ← img.headerChunk
  let pt ← headerPixelType hc
  if pt ≠ .TRUE_COLOR_PIXEL_8BIT ∧ pt ≠ .ALPHA_TRUE_COLOR_PIXEL_8BIT then
    .error .UnsupportedPixelType
  else
    let compressed := defl 9 dat
    let payload := [70, 67, 68] ++ le32enc (compressed.length % 2 ^ 32) ++
      compressed ++ [68, 67, 70]
    let W ← headerWidth hc
    let H ← headerHeight hc
    let maxStorage := W * H * 3 * 4 % 2 ^ 32 / 8
    if payload.length > maxStorage then
      .error (.ImageTooSmall maxStorage payload.length)
    else do
      let loaded ← img.load infl
      let written ← loaded.write_stego_data payload 0
      let filtered ← written.filter
      filtered.compress defl (some 8192) (-1)

/-- A loaded 1×1 8-bit truecolour image whose only pixel is black
(`(0, 0, 0)`), for exercising `write_stego_data`. -/
def c2Before : Image :=
  ⟨[(tagIHDR, [⟨tagIHDR, [0, 0, 0, 1, 0, 0, 0, 1, 8, 2, 0, 0, 0]⟩])], none,
    some ⟨.TRUE_COLOR_PIXEL_8BIT, [⟨0, [[0, 0, 0]]⟩]⟩⟩

/-- Claim C2 (code evaluated at the failing input): writing the single
byte `0x21` at bit offset 0 into a loaded 1×1 truecolour image with
pixel `(0, 0, 0)` must — per the claim — put nibble 1 into red, nibble
2 into green, and leave blue unchanged at 0.  The fall-through `switch`
of `write_stego_data` instead writes red *and* green *and* blue when
the addressed channel is red, and green *and* blue when it is green:
the pixel becomes `(1, 2, 2)`, not `(1, 2, 0)`. -/
theorem write_stego_fallthrough :
    c2Before.write_stego_data [0x21] 0 =
      .ok ⟨c2Before.chunk_map, none,
        some ⟨.TRUE_COLOR_PIXEL_8BIT, [⟨0, [[1, 2, 2]]⟩]⟩⟩ ∧
    c2Before.write_stego_data [0x21] 0 ≠
      .ok ⟨c2Before.chunk_map, none,
        some ⟨.TRUE_COLOR_PIXEL_8BIT, [⟨0, [[1, 2, 0]]⟩]⟩⟩ := by
  decide

/-! ## Serialise-then-parse round trip -/

theorem foldl_preserve {α : Type} (f : Nat → α → Nat) (P : Nat → Prop)
    (hf : ∀ c x, P c → P (f c x)) : ∀ (l : List α) (c : Nat), P c → P (l.foldl f c)
  | [], _, hc => hc
  | x :: rest, c, hc => foldl_preserve f P hf rest (f c x) (hf c x hc)

theorem crc32TableEntry_lt (n : Nat) (h : n < 2 ^ 32) : crc32TableEntry n < 2 ^ 32 := by
  unfold crc32TableEntry
  apply foldl_preserve _ (· < 2 ^ 32) _ _ _ h
  intro c x hc
  dsimp only
  split
  · exact Nat.xor_lt_two_pow (by omega) (by norm_num)
  · omega

theorem crc32_lt (data : List Nat) (init : Nat) (h : init < 2 ^ 32) :
    crc32 data init < 2 ^ 32 := by
  unfold crc32
  have hstart : init ^^^ 0xFFFFFFFF < 2 ^ 32 := Nat.xor_lt_two_pow h (by norm_num)
  have hfold : ∀ (l : List Nat) (c : Nat), c < 2 ^ 32 →
      l.foldl (fun crc b => crc32TableEntry ((crc ^^^ b) % 256) ^^^ (crc / 2 ^ 8)) c <
        2 ^ 32 := by
    intro l
    induction l with
    | nil => intro c hc; exact hc
    | cons b rest ih =>
      intro c hc
      apply ih
      exact Nat.xor_lt_two_pow (crc32TableEntry_lt _ (by omega)) (by omega)
  exact Nat.xor_lt_two_pow (hfold data _ hstart) (by norm_num)

theorem chunkCrc_lt (c : ChunkVecM) : chunkCrc c < 2 ^ 32 :=
  crc32_lt _ _ (crc32_lt _ _ (by norm_num))

theorem emitChunk_length (c : ChunkVecM) (htag : c.tag.length = 4) :
    (emitChunk c).length = 12 + c.data.length := by
  simp [emitChunk, be32enc, htag]
  omega

theorem drop_append_of_length {α : Type} (pre l : List α) (n : Nat) (h : n = pre.length) :
    (pre ++ l).drop n = l := by
  subst h
  simp

theorem take_append_of_length {α : Type} (a b : List α) (n : Nat) (h : n = a.length) :
    (a ++ b).take n = a := by
  subst h
  simp

theorem be32enc_length (n : Nat) : (be32enc n).length = 4 := rfl

/-- Parsing an emitted chunk out of any surrounding buffer recovers its
length, tag, data and recomputed CRC. -/
theorem chunkPtrParse_emit (pre suf : List Nat) (c : ChunkVecM)
    (htag : c.tag.length = 4) (hlen : c.data.length < 2 ^ 32) :
    chunkPtrParse (pre ++ emitChunk c ++ suf) pre.length =
      .ok ⟨c.data.length, c.tag, c.data, chunkCrc c⟩ := by
  have hmod : c.data.length % 2 ^ 32 = c.data.length := Nat.mod_eq_of_lt hlen
  have hbuf : pre ++ emitChunk c ++ suf =
      pre ++ be32enc (c.data.length % 2 ^ 32) ++ c.tag ++ c.data ++
        be32enc (chunkCrc c) ++ suf := by
    simp [emitChunk]
  have hlen4 : (pre ++ be32enc (c.data.length % 2 ^ 32)).length = pre.length + 4 := by
    simp [be32enc_length]
  have htag4 : (pre ++ be32enc (c.data.length % 2 ^ 32) ++ c.tag).length =
      pre.length + 8 := by
    simp [be32enc_length, htag]
  have hdata : (pre ++ be32enc (c.data.length % 2 ^ 32) ++ c.tag ++ c.data).length =
      pre.length + 8 + c.data.length := by
    simp [be32enc_length, htag]
    omega
  have hslice0 : ((pre ++ emitChunk c ++ suf).drop pre.length).take 4 =
      be32enc (c.data.length % 2 ^ 32) := by
    rw [hbuf]
    have : pre ++ be32enc (c.data.length % 2 ^ 32) ++ c.tag ++ c.data ++
        be32enc (chunkCrc c) ++ suf =
        pre ++ (be32enc (c.data.length % 2 ^ 32) ++
          (c.tag ++ (c.data ++ (be32enc (chunkCrc c) ++ suf)))) := by
      simp
    rw [this, drop_append_of_length pre _ pre.length rfl,
      take_append_of_length _ _ 4 (be32enc_length _).symm]
  have hslice1 : ((pre ++ emitChunk c ++ suf).drop (pre.length + 4)).take 4 = c.tag := by
    rw [hbuf]
    have : pre ++ be32enc (c.data.length % 2 ^ 32) ++ c.tag ++ c.data ++
        be32enc (chunkCrc c) ++ suf =
        (pre ++ be32enc (c.data.length % 2 ^ 32)) ++
          (c.tag ++ (c.data ++ (be32enc (chunkCrc c) ++ suf))) := by
      simp
    rw [this, drop_append_of_length _ _ (pre.length + 4) hlen4.symm,
      take_append_of_length _ _ 4 htag.symm]
  have hslice2 : ((pre ++ emitChunk c ++ suf).drop (pre.length + 8)).take
      c.data.length = c.data := by
    rw [hbuf]
    have : pre ++ be32enc (c.data.length % 2 ^ 32) ++ c.tag ++ c.data ++
        be32enc (chunkCrc c) ++ suf =
        (pre ++ be32enc (c.data.length % 2 ^ 32) ++ c.tag) ++
          (c.data ++ (be32enc (chunkCrc c) ++ suf)) := by
      simp
    rw [this, drop_append_of_length _ _ (pre.length + 8) htag4.symm,
      take_append_of_length _ _ c.data.length rfl]
  have hslice3 : ((pre ++ emitChunk c ++ suf).drop
      (pre.length + 8 + c.data.length)).take 4 = be32enc (chunkCrc c) := by
    rw [hbuf]
    have : pre ++ be32enc (c.data.length % 2 ^ 32) ++ c.tag ++ c.data ++
        be32enc (chunkCrc c) ++ suf =
        (pre ++ be32enc (c.data.length % 2 ^ 32) ++ c.tag ++ c.data) ++
          (be32enc (chunkCrc c) ++ suf) := by
      simp
    rw [this, drop_append_of_length _ _ (pre.length + 8 + c.data.length) hdata.symm,
      take_append_of_length _ _ 4 (be32enc_length _).symm]
  have hlenbuf : (pre ++ emitChunk c ++ suf).length =
      pre.length + 12 + c.data.length + suf.length := by
    simp [emitChunk_length c htag]
    omega
  have hL : be32dec (((pre ++ emitChunk c ++ suf).drop pre.length).take 4) =
      c.data.length := by
    rw [hslice0, be32dec_be32enc _ (by omega)]
    exact hmod
  unfold chunkPtrParse
  rw [if_neg (by omega), if_neg (by omega)]
  dsimp only
  rw [if_neg (by omega), hL, if_neg (by omega), if_neg (by omega)]
  rw [hslice1, hslice2, hslice3, be32dec_be32enc _ (chunkCrc_lt c)]

/-- Well-formedness of one chunk for serialisation: a 4-byte tag and
data shorter than `2 ^ 32` (what the `uint32_t` length field can
carry). -/
def WFChunk (c : ChunkVecM) : Prop := c.tag.length = 4 ∧ c.data.length < 2 ^ 32

/-- Running the parse loop over the emission of chunks `cs` followed by
an `IEND`-tagged chunk `cE` pushes every chunk under its tag and stops
right after the `IEND` frame. -/
theorem parseLoop_emits (validate : Bool) :
    ∀ (cs : List ChunkVecM) (pre : List Nat) (cE : ChunkVecM) (t : List Nat)
      (m : ChunkMap),
      (∀ c ∈ cs, WFChunk c ∧ c.tag ≠ tagIEND) →
      WFChunk cE → cE.tag = tagIEND →
      parseLoop validate (pre ++ (((cs ++ [cE]).map emitChunk).flatten) ++ t)
          pre.length m =
        .ok ((cs ++ [cE]).foldl (fun m' c => mapPush m' c.tag c) m,
          pre.length + (((cs ++ [cE]).map emitChunk).flatten).length)
  | [], pre, cE, t, m, _, hwfE, htagE => by
    have hemit := chunkPtrParse_emit pre t cE hwfE.1 hwfE.2
    have hb : pre ++ (((([] : List ChunkVecM) ++ [cE]).map emitChunk).flatten) ++ t =
        pre ++ emitChunk cE ++ t := by
      simp
    rw [hb]
    unfold parseLoop
    split
    · rename_i e h
      rw [hemit] at h
      exact Except.noConfusion h
    · rename_i v h
      rw [hemit] at h
      injection h with h
      subst h
      dsimp only
      rw [if_neg (by simp), if_pos htagE]
      simp [emitChunk_length cE hwfE.1]
      omega
  | c :: cs, pre, cE, t, m, hwf, hwfE, htagE => by
    have hc := hwf c (by simp)
    have hemit := chunkPtrParse_emit pre
      ((((cs ++ [cE]).map emitChunk).flatten) ++ t) c hc.1.1 hc.1.2
    have hb : pre ++ ((((c :: cs) ++ [cE]).map emitChunk).flatten) ++ t =
        pre ++ emitChunk c ++ ((((cs ++ [cE]).map emitChunk).flatten) ++ t) := by
      simp
    rw [hb]
    unfold parseLoop
    split
    · rename_i e h
      rw [hemit] at h
      exact Except.noConfusion h
    · rename_i v h
      rw [hemit] at h
      injection h with h
      subst h
      dsimp only
      rw [if_neg (by simp), if_neg (by exact hc.2)]
      have hassoc : pre ++ emitChunk c ++ ((((cs ++ [cE]).map emitChunk).flatten) ++ t) =
          (pre ++ emitChunk c) ++ (((cs ++ [cE]).map emitChunk).flatten) ++ t := by
        simp
      have hoff : pre.length + 12 + c.data.length = (pre ++ emitChunk c).length := by
        simp [emitChunk_length c hc.1.1]
        omega
      rw [hassoc, hoff]
      rw [parseLoop_emits validate cs (pre ++ emitChunk c) cE t (mapPush m c.tag c)
        (fun c' hc' => hwf c' (by simp [hc'])) hwfE htagE]
      simp only [List.cons_append, List.foldl_cons, List.map_cons, List.flatten_cons,
        List.length_append, Except.ok.injEq, Prod.mk.injEq, true_and]
      rw [emitChunk_length c hc.1.1]
      simp [emitChunk_length c hc.1.1]
      omega

/-- Well-formedness of an image's chunk table, as every table produced
by `Image::parse` satisfies: keys are distinct 4-byte tags, each bound
to a non-empty list of chunks carrying that tag with data shorter than
`2 ^ 32`, and at most one `IEND` chunk. -/
def WFImage (img : Image) : Prop :=
  (∀ e ∈ img.chunk_map, e.2 ≠ [] ∧ e.1.length = 4 ∧
    ∀ c ∈ e.2, c.tag = e.1 ∧ c.data.length < 2 ^ 32) ∧
  (img.chunk_map.map (·.1)).Nodup ∧
  (∀ e ∈ img.chunk_map, e.1 = tagIEND → e.2.length ≤ 1)

/-- The chunks `to_file` emits before the final `IEND` frame, in
emission order. -/
def emitSeqPre (img : Image) : List ChunkVecM :=
  ((chunkPriority ++ extraLabels img).map
    (fun k => (mapFind img.chunk_map k).getD [])).flatten

/-- The chunk whose frame closes the `to_file` output: the image's
`IEND` chunk, or the synthesised empty one. -/
def iendChunkOf (img : Image) : ChunkVecM :=
  match mapFind img.chunk_map tagIEND with
  | some (c :: _) => c
  | _ => ⟨tagIEND, []⟩

theorem mapFind_mem {m : ChunkMap} {k : List Nat} {l : List ChunkVecM}
    (h : mapFind m k = some l) : (k, l) ∈ m := by
  unfold mapFind at h
  cases hf : m.find? (fun e => e.1 == k) with
  | none => rw [hf] at h; cases h
  | some e =>
    rw [hf] at h
    injection h with h
    have hm := List.mem_of_find?_eq_some hf
    have hp := List.find?_some hf
    have hk : e.1 = k := by simpa using hp
    have : e = (k, l) := by
      obtain ⟨e1, e2⟩ := e
      simp only at hk h
      rw [hk, h]
    rw [this] at hm
    exact hm

theorem labels_body_eq (m : ChunkMap) :
    ∀ ls : List (List Nat),
      ((ls.map (fun k =>
        match mapFind m k with
        | none => []
        | some cs => (cs.map emitChunk).flatten)).flatten) =
      (((ls.map (fun k => (mapFind m k).getD [])).flatten).map emitChunk).flatten
  | [] => rfl
  | k :: ls => by
    simp only [List.map_cons, List.flatten_cons, List.map_append, List.flatten_append]
    rw [labels_body_eq m ls]
    cases h : mapFind m k <;> simp [h]

theorem to_file_decomp (img : Image) (hwf : WFImage img) :
    img.to_file = pngSignature ++
      (((emitSeqPre img ++ [iendChunkOf img]).map emitChunk).flatten) ++
      img.trailing_data.getD [] := by
  unfold Image.to_file
  dsimp only
  rw [show chunkPriority ++ extraLabels img ++ [tagIEND] =
    (chunkPriority ++ extraLabels img) ++ [tagIEND] by simp]
  rw [List.map_append, List.flatten_append, labels_body_eq img.chunk_map]
  have hpre : ((((chunkPriority ++ extraLabels img).map
      (fun k => (mapFind img.chunk_map k).getD [])).flatten).map emitChunk).flatten =
      ((emitSeqPre img).map emitChunk).flatten := rfl
  rw [hpre]
  simp only [List.map_cons, List.map_nil, List.flatten_cons, List.flatten_nil,
    List.map_append, List.flatten_append, List.append_nil]
  cases h : mapFind img.chunk_map tagIEND with
  | none =>
    simp only [iendChunkOf, h, Option.isNone_none, if_pos]
    simp
  | some cs =>
    have hmem := mapFind_mem h
    have hne := (hwf.1 _ hmem).1
    have hle := hwf.2.2 _ hmem rfl
    match cs, hne, hle with
    | [c], _, _ =>
      simp only [iendChunkOf, h, Option.isNone_some]
      simp

/-- `Image::parse` inverts `Image::to_file`: on a well-formed image the
serialised bytes parse back, the resulting chunk table is the emitted
chunks pushed under their tags, non-empty trailing data is recovered,
and empty trailing data is lost (nothing follows the `IEND` frame). -/
theorem image_parse_to_file (img fresh : Image) (validate : Bool) (hwf : WFImage img)
    (hpre : ∀ c ∈ emitSeqPre img, WFChunk c ∧ c.tag ≠ tagIEND)
    (hE : WFChunk (iendChunkOf img) ∧ (iendChunkOf img).tag = tagIEND) :
    fresh.parse img.to_file validate =
      .ok ⟨(emitSeqPre img ++ [iendChunkOf img]).foldl
            (fun m' c => mapPush m' c.tag c) [],
           if img.trailing_data.getD [] = [] then none
           else some (img.trailing_data.getD []),
           fresh.image_data⟩ := by
  have hdecomp := to_file_decomp img hwf
  have hsig : pngSignature.length = 8 := rfl
  have hiendlen : (emitChunk (iendChunkOf img)).length = 12 + (iendChunkOf img).data.length :=
    emitChunk_length _ hE.1.1
  have hflatlen : (((emitSeqPre img ++ [iendChunkOf img]).map emitChunk).flatten).length =
      ((emitSeqPre img).map emitChunk).flatten.length + (emitChunk (iendChunkOf img)).length := by
    simp
  have hbuflen : (pngSignature ++
      (((emitSeqPre img ++ [iendChunkOf img]).map emitChunk).flatten) ++
      img.trailing_data.getD []).length =
      8 + (((emitSeqPre img ++ [iendChunkOf img]).map emitChunk).flatten).length +
        (img.trailing_data.getD []).length := by
    simp [pngSignature]
    omega
  unfold Image.parse
  rw [hdecomp]
  rw [if_neg (by omega)]
  have htake : (pngSignature ++
      (((emitSeqPre img ++ [iendChunkOf img]).map emitChunk).flatten) ++
      img.trailing_data.getD []).take 8 = pngSignature := by
    rw [show pngSignature ++
      (((emitSeqPre img ++ [iendChunkOf img]).map emitChunk).flatten) ++
      img.trailing_data.getD [] = pngSignature ++
      ((((emitSeqPre img ++ [iendChunkOf img]).map emitChunk).flatten) ++
      img.trailing_data.getD []) by simp]
    exact take_append_of_length _ _ 8 rfl
  rw [if_neg (by rw [htake]; exact fun hh => hh rfl)]
  have hloop := parseLoop_emits validate (emitSeqPre img) pngSignature
    (iendChunkOf img) (img.trailing_data.getD []) [] hpre hE.1 hE.2
  rw [show (8 : Nat) = pngSignature.length from rfl, hloop]
  dsimp only
  have hdrop : (pngSignature ++
      (((emitSeqPre img ++ [iendChunkOf img]).map emitChunk).flatten) ++
      img.trailing_data.getD []).drop
      (pngSignature.length +
        (((emitSeqPre img ++ [iendChunkOf img]).map emitChunk).flatten).length) =
      img.trailing_data.getD [] := by
    rw [show pngSignature ++
      (((emitSeqPre img ++ [iendChunkOf img]).map emitChunk).flatten) ++
      img.trailing_data.getD [] = (pngSignature ++
      (((emitSeqPre img ++ [iendChunkOf img]).map emitChunk).flatten)) ++
      img.trailing_data.getD [] by simp]
    exact drop_append_of_length _ _ _ (by simp)
  by_cases htr : img.trailing_data.getD [] = []
  · rw [if_pos htr, if_neg (by rw [htr] at hbuflen ⊢; simp at hbuflen ⊢; try omega)]
  · have hpos : 0 < (img.trailing_data.getD []).length :=
      List.length_pos.mpr htr
    rw [if_neg htr, if_pos (by omega), hdrop]

theorem emitSeqPre_wf (img : Image) (hwf : WFImage img) :
    ∀ c ∈ emitSeqPre img, WFChunk c ∧ c.tag ≠ tagIEND := by
  intro c hc
  unfold emitSeqPre at hc
  obtain ⟨l, hl, hcl⟩ := List.mem_flatten.mp hc
  obtain ⟨k, hk, hfk⟩ := List.mem_map.mp hl
  subst hfk
  cases hfind : mapFind img.chunk_map k with
  | none => rw [hfind] at hcl; cases hcl
  | some cs =>
    rw [hfind] at hcl
    simp only [Option.getD_some] at hcl
    have hmem := mapFind_mem hfind
    have hfields := (hwf.1 _ hmem).2.2 c hcl
    have hklen := (hwf.1 _ hmem).2.1
    have hkne : k ≠ tagIEND := by
      rcases List.mem_append.mp hk with hk1 | hk2
      · revert hk1
        have : ∀ k' ∈ chunkPriority, k' ≠ tagIEND := by decide
        exact fun hk1 => this k hk1
      · have := List.of_mem_filter hk2
        simp only [decide_eq_true_eq] at this
        exact this.1
    exact ⟨⟨hfields.1 ▸ hklen, hfields.2⟩, hfields.1 ▸ hkne⟩

theorem iendChunkOf_wf (img : Image) (hwf : WFImage img) :
    WFChunk (iendChunkOf img) ∧ (iendChunkOf img).tag = tagIEND := by
  unfold iendChunkOf
  cases hfind : mapFind img.chunk_map tagIEND with
  | none => exact ⟨⟨by decide, by norm_num⟩, rfl⟩
  | some cs =>
    cases cs with
    | nil => exact ⟨⟨by decide, by norm_num⟩, rfl⟩
    | cons c rest =>
      have hmem := mapFind_mem hfind
      have hfields := (hwf.1 _ hmem).2.2 c (by simp)
      have hklen := (hwf.1 _ hmem).2.1
      exact ⟨⟨hfields.1 ▸ hklen, hfields.2⟩, hfields.1⟩

/-- Claim C9 (amended): for every well-formed parsed image and every
*non-empty* byte vector `t`, setting `t` as trailing data, serialising
and re-parsing yields an image whose trailing data is present and
equals `t`.  (For `t = []` nothing follows the `IEND` frame, so
re-parsing reports no trailing data at all — see the counterexample.) -/
theorem set_trailing_roundtrip (img fresh : Image) (t : List Nat) (validate : Bool)
    (hwf : WFImage img) (hne : t ≠ []) :
    ∃ img', fresh.parse ((img.set_trailing_data t).to_file) validate = .ok img' ∧
      img'.trailing_data = some t ∧ img'.has_trailing_data = true := by
  have hwf' : WFImage (img.set_trailing_data t) := hwf
  have hparse := image_parse_to_file (img.set_trailing_data t) fresh validate hwf'
    (emitSeqPre_wf _ hwf') (iendChunkOf_wf _ hwf')
  refine ⟨_, hparse, ?_, ?_⟩
  · simp [Image.set_trailing_data, hne]
  · simp [Image.has_trailing_data, Image.set_trailing_data, hne]

/-- A minimal well-formed parsed image: an all-zero IHDR and an empty
IEND. -/
def c9Image : Image :=
  ⟨[(tagIHDR, [⟨tagIHDR, List.replicate 13 0⟩]), (tagIEND, [⟨tagIEND, []⟩])],
    none, none⟩

theorem set_trailing_roundtrip_witness :
    ∃ img', Image.parse emptyImage ((c9Image.set_trailing_data [1, 2, 3]).to_file)
        true = .ok img' ∧
      img'.trailing_data = some [1, 2, 3] ∧ img'.has_trailing_data = true :=
  set_trailing_roundtrip c9Image emptyImage [1, 2, 3] true
    (by refine ⟨?_, ?_, ?_⟩ <;> decide) (by decide)

/-- Claim C9 (counterexample): with `t = []` the claim fails — after
`set_trailing_data([])`, serialising appends nothing after the `IEND`
frame, and re-parsing leaves `trailing_data` absent (`std::nullopt`)
rather than present-and-empty. -/
theorem set_trailing_empty_lost :
    (Image.parse emptyImage ((c9Image.set_trailing_data []).to_file) true).map
        Image.trailing_data = .ok none ∧
    (Image.parse emptyImage ((c9Image.set_trailing_data []).to_file) true).map
        Image.trailing_data ≠ .ok (some []) := by
  have hwf : WFImage (c9Image.set_trailing_data []) := by
    refine ⟨?_, ?_, ?_⟩ <;> decide
  have hparse := image_parse_to_file (c9Image.set_trailing_data []) emptyImage true hwf
    (emitSeqPre_wf _ hwf) (iendChunkOf_wf _ hwf)
  rw [hparse]
  constructor
  · rfl
  · intro hcontra
    simp only [Except.map] at hcontra
    injection hcontra with h
    exact Option.noConfusion h

/-! ## Chunk-map bookkeeping for the stego round trip -/

theorem mapFind_mapPush (m : ChunkMap) (k k' : List Nat) (c : ChunkVecM) :
    mapFind (mapPush m k c) k' =
      if k = k' then some ((mapFind m k').getD [] ++ [c]) else mapFind m k' := by
  induction m with
  | nil =>
    by_cases h : k = k'
    · subst h
      simp [mapPush, mapFind]
    · simp [mapPush, mapFind, h, Ne.symm h]
  | cons e rest ih =>
    obtain ⟨k0, cs⟩ := e
    by_cases h0 : k0 = k
    · subst h0
      by_cases h : k0 = k'
      · subst h
        simp [mapPush, mapFind]
      · simp [mapPush, mapFind, h]
    · by_cases h : k0 = k'
      · subst h
        rw [if_neg (fun he => h0 he.symm)]
        simp [mapPush, h0, mapFind]
      · simp only [mapPush, if_neg h0]
        rw [show ∀ rest', mapFind ((k0, cs) :: rest') k' = mapFind rest' k' by
          intro rest'
          simp [mapFind, List.find?_cons, h]]
        rw [show mapFind ((k0, cs) :: rest) k' = mapFind rest k' by
          simp [mapFind, List.find?_cons, h]]
        exact ih

theorem mapFind_foldl_push :
    ∀ (seq : List ChunkVecM) (m : ChunkMap) (k : List Nat),
      mapFind (seq.foldl (fun m' c => mapPush m' c.tag c) m) k =
        if mapFind m k = none ∧ seq.filter (fun c => c.tag == k) = []
        then none
        else some ((mapFind m k).getD [] ++ seq.filter (fun c => c.tag == k))
  | [], m, k => by
    cases h : mapFind m k <;> simp [h]
  | c :: rest, m, k => by
    simp only [List.foldl_cons]
    rw [mapFind_foldl_push rest (mapPush m c.tag c) k, mapFind_mapPush]
    by_cases hk : c.tag = k
    · rw [if_pos hk]
      have hfil : (c :: rest).filter (fun c' => c'.tag == k) =
          c :: rest.filter (fun c' => c'.tag == k) := by
        simp [List.filter_cons, hk]
      rw [hfil, if_neg (by simp), if_neg (by simp)]
      simp
    · rw [if_neg hk]
      have hfil : (c :: rest).filter (fun c' => c'.tag == k) =
          rest.filter (fun c' => c'.tag == k) := by
        simp [List.filter_cons, hk]
      rw [hfil]

theorem mapFind_mapSet (m : ChunkMap) (k k' : List Nat) (cs : List ChunkVecM) :
    mapFind (mapSet m k cs) k' = if k = k' then some cs else mapFind m k' := by
  induction m with
  | nil =>
    by_cases h : k = k'
    · subst h
      simp [mapSet, mapFind]
    · simp [mapSet, mapFind, h, Ne.symm h]
  | cons e rest ih =>
    obtain ⟨k0, cs0⟩ := e
    by_cases h0 : k0 = k
    · subst h0
      by_cases h : k0 = k'
      · subst h
        simp [mapSet, mapFind]
      · simp [mapSet, mapFind, h]
    · by_cases h : k0 = k'
      · subst h
        rw [if_neg (fun he => h0 he.symm)]
        simp [mapSet, h0, mapFind]
      · simp only [mapSet, if_neg h0]
        rw [show ∀ rest', mapFind ((k0, cs0) :: rest') k' = mapFind rest' k' by
          intro rest'
          simp [mapFind, List.find?_cons, h]]
        rw [show mapFind ((k0, cs0) :: rest) k' = mapFind rest k' by
          simp [mapFind, List.find?_cons, h]]
        exact ih

theorem mapSet_mem (k : List Nat) (cs : List ChunkVecM) (m : ChunkMap) :
    ∀ e ∈ mapSet m k cs, e = (k, cs) ∨ e ∈ m := by
  induction m with
  | nil =>
    intro e he
    simp only [mapSet, List.mem_singleton] at he
    exact Or.inl he
  | cons e0 rest ih =>
    obtain ⟨k0, cs0⟩ := e0
    intro e he
    by_cases h0 : k0 = k
    · subst h0
      simp only [mapSet, if_true, eq_self_iff_true, List.mem_cons] at he
      exact he.imp (fun h => h) (fun h => List.mem_cons_of_mem _ h)
    · simp only [mapSet, if_neg h0, List.mem_cons] at he
      cases he with
      | inl h => exact Or.inr (by rw [h]; exact List.mem_cons_self _ _)
      | inr h =>
        cases ih e h with
        | inl h2 => exact Or.inl h2
        | inr h2 => exact Or.inr (List.mem_cons_of_mem _ h2)

theorem mapSet_keys (k : List Nat) (cs : List ChunkVecM) (m : ChunkMap) :
    (mapFind m k).isSome → (mapSet m k cs).map (·.1) = m.map (·.1) := by
  induction m with
  | nil =>
    intro h
    simp [mapFind] at h
  | cons e0 rest ih =>
    obtain ⟨k0, cs0⟩ := e0
    intro h
    by_cases h0 : k0 = k
    · subst h0
      simp [mapSet]
    · simp only [mapSet, if_neg h0, List.map_cons, List.cons.injEq, true_and]
      apply ih
      rwa [show mapFind ((k0, cs0) :: rest) k = mapFind rest k from by
        simp [mapFind, List.find?_cons, h0]] at h

theorem splitChunks_flatten_aux (n : Nat) (hn : n ≠ 0) :
    ∀ (fuel : Nat) (l : List Nat), l.length ≤ fuel →
      (splitChunks n l).flatten = l := by
  intro fuel
  induction fuel with
  | zero =>
    intro l hl
    have h0 : l = [] := List.eq_nil_of_length_eq_zero (Nat.le_zero.mp hl)
    rw [h0, splitChunks]
    simp
  | succ f ih =>
    intro l hl
    rw [splitChunks]
    by_cases h : l = []
    · rw [if_pos (Or.inl h)]
      simp [h]
    · rw [if_neg (by push_neg; exact ⟨h, hn⟩), List.flatten_cons]
      have hlen : (l.drop n).length ≤ f := by
        have h1 := List.length_pos.mpr h
        have h2 := Nat.pos_of_ne_zero hn
        simp only [List.length_drop]
        omega
      rw [ih (l.drop n) hlen]
      exact List.take_append_drop n l

theorem splitChunks_flatten (n : Nat) (hn : n ≠ 0) (l : List Nat) :
    (splitChunks n l).flatten = l :=
  splitChunks_flatten_aux n hn l.length l (Nat.le_refl _)

theorem splitChunks_mem_aux (n : Nat) :
    ∀ (fuel : Nat) (l : List Nat), l.length ≤ fuel →
      ∀ p ∈ splitChunks n l, p.length ≤ n := by
  intro fuel
  induction fuel with
  | zero =>
    intro l hl p hp
    have h0 : l = [] := List.eq_nil_of_length_eq_zero (Nat.le_zero.mp hl)
    rw [h0, splitChunks] at hp
    simp at hp
  | succ f ih =>
    intro l hl p hp
    rw [splitChunks] at hp
    by_cases h : l = [] ∨ n = 0
    · rw [if_pos h] at hp
      cases hp
    · rw [if_neg h] at hp
      push_neg at h
      rcases List.mem_cons.mp hp with hp | hp
      · rw [hp]
        exact List.length_take_le n l
      · have hlen : (l.drop n).length ≤ f := by
          have h1 := List.length_pos.mpr h.1
          have h2 := Nat.pos_of_ne_zero h.2
          simp only [List.length_drop]
          omega
        exact ih (l.drop n) hlen p hp

theorem splitChunks_mem (n : Nat) (l : List Nat) :
    ∀ p ∈ splitChunks n l, p.length ≤ n :=
  splitChunks_mem_aux n l.length l (Nat.le_refl _)

theorem splitChunks_ne_nil (n : Nat) (l : List Nat) (hl : l ≠ []) (hn : n ≠ 0) :
    splitChunks n l ≠ [] := by
  rw [splitChunks, if_neg (by push_neg; exact ⟨hl, hn⟩)]
  simp

theorem flatten_ite_notmem {α : Type} (A : List α) (k : List Nat) :
    ∀ P : List (List Nat), k ∉ P →
      ((P.map (fun k' => if k' = k then A else [])).flatten) = []
  | [], _ => rfl
  | k0 :: P, hP => by
    have hk0 : k0 ≠ k := fun he => hP (by simp [he])
    simp only [List.map_cons, List.flatten_cons, if_neg hk0, List.nil_append]
    exact flatten_ite_notmem A k P (fun hm => hP (by simp [hm]))

theorem flatten_ite_once {α : Type} (A : List α) (k : List Nat)
    (P1 P2 : List (List Nat)) (h1 : k ∉ P1) (h2 : k ∉ P2) :
    (((P1 ++ k :: P2).map (fun k' => if k' = k then A else [])).flatten) = A := by
  rw [List.map_append, List.flatten_append, flatten_ite_notmem A k P1 h1]
  simp [flatten_ite_notmem A k P2 h2]

theorem filter_emitSeqPre (img : Image) (hwf : WFImage img) (k : List Nat)
    (P1 P2 : List (List Nat)) (hP : chunkPriority = P1 ++ k :: P2)
    (h1 : k ∉ P1) (h2 : k ∉ P2) :
    (emitSeqPre img).filter (fun c => c.tag == k) =
      (mapFind img.chunk_map k).getD [] := by
  have hkP : k ∈ chunkPriority := by rw [hP]; simp
  have hkE : k ∉ extraLabels img := by
    intro hmem
    have hof := List.of_mem_filter hmem
    simp only [decide_eq_true_eq] at hof
    exact hof.2 (by simpa using hkP)
  have hgroup : ∀ k' ∈ chunkPriority ++ extraLabels img,
      ((mapFind img.chunk_map k').getD []).filter (fun c => c.tag == k) =
        if k' = k then (mapFind img.chunk_map k).getD [] else [] := by
    intro k' _
    cases hfind : mapFind img.chunk_map k' with
    | none =>
      by_cases hk' : k' = k
      · subst hk'
        simp [hfind]
      · simp [hk']
    | some cs =>
      have hmem := mapFind_mem hfind
      have htags := (hwf.1 _ hmem).2.2
      by_cases hk' : k' = k
      · subst hk'
        rw [if_pos rfl, hfind]
        simp only [Option.getD_some]
        apply List.filter_eq_self.mpr
        intro c hc
        simp [(htags c hc).1]
      · rw [if_neg hk']
        simp only [Option.getD_some]
        apply List.filter_eq_nil_iff.mpr
        intro c hc
        simp [(htags c hc).1, hk']
  unfold emitSeqPre
  rw [List.filter_flatten, List.map_map]
  rw [List.map_congr_left (fun k' hk' => by
    simp only [Function.comp]
    exact hgroup k' hk')]
  have hlabels : chunkPriority ++ extraLabels img = P1 ++ k :: (P2 ++ extraLabels img) := by
    rw [hP]
    simp
  rw [hlabels]
  exact flatten_ite_once _ k P1 (P2 ++ extraLabels img) h1
    (fun hm => (List.mem_append.mp hm).elim h2 hkE)

/-- The chunk list the re-parsed map binds to a non-`IEND` priority tag:
exactly the list the serialised image bound to it (or no entry when it
bound none, the empty list being unreachable on well-formed images). -/
theorem reparse_mapFind (img : Image) (hwf : WFImage img) (k : List Nat)
    (P1 P2 : List (List Nat)) (hP : chunkPriority = P1 ++ k :: P2)
    (h1 : k ∉ P1) (h2 : k ∉ P2) (hkIEND : k ≠ tagIEND) :
    mapFind ((emitSeqPre img ++ [iendChunkOf img]).foldl
        (fun m' c => mapPush m' c.tag c) []) k =
      if (mapFind img.chunk_map k).getD [] = [] then none
      else some ((mapFind img.chunk_map k).getD []) := by
  rw [mapFind_foldl_push]
  have hiend : (iendChunkOf img).tag = tagIEND := (iendChunkOf_wf img hwf).2
  have hfil : (emitSeqPre img ++ [iendChunkOf img]).filter (fun c => c.tag == k) =
      (mapFind img.chunk_map k).getD [] := by
    rw [List.filter_append, filter_emitSeqPre img hwf k P1 P2 hP h1 h2]
    have : ((iendChunkOf img).tag == k) = false := by
      simp [hiend, Ne.symm hkIEND]
    simp [List.filter_cons, this]
  rw [hfil]
  have hnone : mapFind ([] : ChunkMap) k = none := rfl
  by_cases he : (mapFind img.chunk_map k).getD [] = []
  · rw [if_pos ⟨hnone, he⟩, if_pos he]
  · rw [if_neg (fun hc => he hc.2), if_neg he]
    simp [hnone]

/-! ## Scanline serialisation round trip (`to_raw` then `from_raw`) -/

theorem getD_drop_cons {α : Type} (l : List α) (i : Nat) (x d : α) (xs : List α)
    (h : l.drop i = x :: xs) : l.getD i d = x := by
  rw [List.getD_eq_getElem?_getD]
  have h0 := List.getElem?_drop l i 0
  rw [h] at h0
  simp only [List.getElem?_cons_zero, Nat.add_zero] at h0
  rw [← h0]
  rfl

theorem flatten_length_const {α : Type} (n : Nat) :
    ∀ l : List (List α), (∀ s ∈ l, s.length = n) → l.flatten.length = l.length * n
  | [], _ => by simp
  | s :: rest, h => by
    simp only [List.flatten_cons, List.length_append, List.length_cons]
    rw [h s (by simp),
      flatten_length_const n rest (fun s' hs' => h s' (by simp [hs']))]
    ring

theorem chunksOf_flatten (n : Nat) :
    ∀ spans : List (List Nat), (∀ s ∈ spans, s.length = n) →
      chunksOf spans.length n spans.flatten = spans
  | [], _ => rfl
  | s :: rest, h => by
    have hs : s.length = n := h s (by simp)
    simp only [List.length_cons, List.flatten_cons, chunksOf]
    rw [take_append_of_length _ _ n hs.symm, drop_append_of_length _ _ n hs.symm,
      chunksOf_flatten n rest (fun s' hs' => h s' (by simp [hs']))]

/-- Byte width bookkeeping for whole-byte pixel kinds
(`Bits = 8 * sizeof(Span)`): the scanline byte width of `read_line` is
`sizeof(Span) * width` with no padding remainder. -/
theorem byteWidth_whole (pt : PixelEnum) (W : Nat)
    (hbits : pixelEnumBits pt = 8 * spanBytesOf pt) :
    pixelEnumBits pt * W / 8 = spanBytesOf pt * W ∧
      pixelEnumBits pt * W % 8 = 0 := by
  rw [hbits, Nat.mul_assoc]
  exact ⟨Nat.mul_div_cancel_left _ (by norm_num), Nat.mul_mod_right 8 _⟩

theorem readLine_to_raw (pt : PixelEnum) (W : Nat)
    (hsamp : pixelEnumSamples pt = 1) (hbits : pixelEnumBits pt = 8 * spanBytesOf pt)
    (r : Scanline) (raw : List Nat) (i : Nat) (tl : List Nat)
    (hdrop : raw.drop i = Scanline.to_raw r ++ tl)
    (hlen : raw.length = i + (Scanline.to_raw r ++ tl).length)
    (hspans : r.pixel_data.length = W)
    (hsl : ∀ s ∈ r.pixel_data, s.length = spanBytesOf pt) :
    readLine pt raw i W = .ok r := by
  obtain ⟨ft, spans⟩ := r
  simp only [Scanline.to_raw, List.cons_append] at hdrop hlen
  simp only at hspans hsl
  have hflat : spans.flatten.length = W * spanBytesOf pt := by
    rw [flatten_length_const (spanBytesOf pt) spans hsl, hspans]
  have hbw := byteWidth_whole pt W hbits
  have hcomm : spanBytesOf pt * W = W * spanBytesOf pt := Nat.mul_comm _ _
  have hlen2 : raw.length = i + 1 + spans.flatten.length + tl.length := by
    simp only [List.length_cons, List.length_append] at hlen
    omega
  have hft : raw.getD i 0 = ft := getD_drop_cons raw i ft 0 _ hdrop
  have hdrop1 : raw.drop (i + 1) = spans.flatten ++ tl := by
    rw [← List.tail_drop, hdrop]
    rfl
  unfold readLine
  rw [if_neg (by omega)]
  dsimp only
  rw [hbw.1, if_neg (by simp [hbw.2]; omega)]
  rw [hsamp, Nat.div_one, if_neg (by simp [Nat.mod_one]), Nat.add_zero]
  rw [hft, hdrop1, take_append_of_length _ _ _ (by rw [hflat])]
  rw [show W = spans.length from hspans.symm,
    chunksOf_flatten (spanBytesOf pt) spans hsl]

theorem fromRawGo_to_raw (pt : PixelEnum) (W : Nat)
    (hsamp : pixelEnumSamples pt = 1)
    (hbits : pixelEnumBits pt = 8 * spanBytesOf pt) :
    ∀ (rows : List Scanline) (raw : List Nat) (i : Nat),
      raw.length = i + ((rows.map Scanline.to_raw).flatten).length →
      raw.drop i = (rows.map Scanline.to_raw).flatten →
      (∀ r ∈ rows, r.pixel_data.length = W ∧
        ∀ s ∈ r.pixel_data, s.length = spanBytesOf pt) →
      fromRawGo pt raw W i = .ok rows
  | [], raw, i, hlen, _, _ => by
    rw [fromRawGo]
    simp only [List.map_nil, List.flatten_nil, List.length_nil] at hlen
    rw [dif_neg (by omega)]
  | r :: rest, raw, i, hlen, hdrop, hstruct => by
    have hr := hstruct r (by simp)
    have hbw := byteWidth_whole pt W hbits
    have hcomm : spanBytesOf pt * W = W * spanBytesOf pt := Nat.mul_comm _ _
    have hflat : r.pixel_data.flatten.length = W * spanBytesOf pt := by
      rw [flatten_length_const (spanBytesOf pt) _ hr.2, hr.1]
    have htorawlen : (Scanline.to_raw r).length = 1 + W * spanBytesOf pt := by
      simp only [Scanline.to_raw, List.length_cons]
      omega
    have hdrop' : raw.drop i =
        Scanline.to_raw r ++ (rest.map Scanline.to_raw).flatten := by
      rw [hdrop]
      simp
    have hlen' : raw.length =
        i + (Scanline.to_raw r ++ (rest.map Scanline.to_raw).flatten).length := by
      rw [hlen]
      simp
    have hrl := readLine_to_raw pt W hsamp hbits r raw i _ hdrop' hlen' hr.1 hr.2
    have hi : i < raw.length := by
      rw [hlen']
      simp only [List.length_append]
      rw [htorawlen]
      omega
    have hrec : fromRawGo pt raw W (i + spanBytesOf pt * W + 1) = .ok rest := by
      apply fromRawGo_to_raw pt W hsamp hbits rest raw
      · rw [hlen']
        simp only [List.length_append]
        rw [htorawlen]
        omega
      · have hd2 : raw.drop (i + spanBytesOf pt * W + 1) =
            (raw.drop i).drop (1 + W * spanBytesOf pt) := by
          rw [List.drop_drop]
          congr 1
          omega
        rw [hd2, hdrop', drop_append_of_length _ _ _ htorawlen.symm]
      · exact fun r' hr' => hstruct r' (by simp [hr'])
    have harg : pixelEnumBits pt * W / 8 +
        (if pixelEnumBits pt * W % 8 ≠ 0 then 1 else 0) = spanBytesOf pt * W := by
      rw [hbw.1, if_neg (by simp [hbw.2])]
      omega
    rw [fromRawGo, dif_pos hi]
    split
    · rename_i e h
      rw [hrl] at h
      exact Except.noConfusion h
    · rename_i line h
      rw [hrl] at h
      injection h with h
      subst h
      split
      · rename_i e h2
        rw [show i + (pixelEnumBits pt * W / 8 +
            (if pixelEnumBits pt * W % 8 ≠ 0 then 1 else 0)) + 1 =
            i + spanBytesOf pt * W + 1 by rw [harg], hrec] at h2
        exact Except.noConfusion h2
      · rename_i rest' h2
        rw [show i + (pixelEnumBits pt * W / 8 +
            (if pixelEnumBits pt * W % 8 ≠ 0 then 1 else 0)) + 1 =
            i + spanBytesOf pt * W + 1 by rw [harg], hrec] at h2
        injection h2 with h2
        subst h2
        rfl

/-- `ScanlineBase::from_raw` inverts the concatenation of
`Scanline::to_raw` over a row vector of the right shape (whole-byte
pixel kinds with one sample per span). -/
theorem fromRaw_to_raw (pt : PixelEnum) (W H : Nat)
    (hsamp : pixelEnumSamples pt = 1)
    (hbits : pixelEnumBits pt = 8 * spanBytesOf pt)
    (rows : List Scanline) (hlen : rows.length = H)
    (hstruct : ∀ r ∈ rows, r.pixel_data.length = W ∧
      ∀ s ∈ r.pixel_data, s.length = spanBytesOf pt) :
    fromRaw pt W H ((rows.map Scanline.to_raw).flatten) = .ok rows := by
  have hflat : ((rows.map Scanline.to_raw).flatten).length =
      H * (1 + W * spanBytesOf pt) := by
    rw [flatten_length_const (1 + W * spanBytesOf pt) (rows.map Scanline.to_raw)
      (by
        intro x hx
        obtain ⟨r, hr, hxr⟩ := List.mem_map.mp hx
        have hrr := hstruct r hr
        have hfr : r.pixel_data.flatten.length = W * spanBytesOf pt := by
          rw [flatten_length_const (spanBytesOf pt) _ hrr.2, hrr.1]
        rw [← hxr]
        simp only [Scanline.to_raw, List.length_cons]
        omega)]
    simp [hlen]
  have hbuf : bufferSize pt W H = H * (1 + W * spanBytesOf pt) := by
    unfold bufferSize
    rw [hbits]
    dsimp only
    rw [show W * (8 * spanBytesOf pt) = 8 * (W * spanBytesOf pt) by ring]
    rw [if_neg (by simp [Nat.mul_mod_right])]
    rw [show (8 * (W * spanBytesOf pt) + 0) * H + H * 8 =
      8 * (W * spanBytesOf pt * H + H) by ring]
    rw [Nat.mul_div_cancel_left _ (by norm_num)]
    ring
  unfold fromRaw
  rw [if_neg (by simp [hflat, hbuf])]
  exact fromRawGo_to_raw pt W hsamp hbits rows _ 0 (by omega) (by simp) hstruct

/-! ## Well-formedness through `filter` and `reconstruct` -/

theorem filtByte_lt (ft c l u ul : Nat) : filtByte ft c l u ul < 256 := by
  unfold filtByte
  have h1 : ((c : Int) - (predictor ft l u ul : Int)).emod 256 < 256 :=
    Int.emod_lt_of_pos _ (by norm_num)
  have h0 : 0 ≤ ((c : Int) - (predictor ft l u ul : Int)).emod 256 :=
    Int.emod_nonneg _ (by norm_num)
  omega

theorem reconByte_lt (ft c l u ul : Nat) : reconByte ft c l u ul < 256 :=
  Nat.mod_lt _ (by norm_num)

theorem spanMapIdx_mem (f : Nat → Nat → Nat) (hf : ∀ j c, f j c < 256) :
    ∀ (s : List Nat) (j : Nat), ∀ b ∈ spanMapIdx f s j, b < 256
  | [], _, b, hb => absurd hb (by simp [spanMapIdx])
  | c :: cs, j, b, hb => by
    simp only [spanMapIdx, List.mem_cons] at hb
    cases hb with
    | inl h => rw [h]; exact hf j c
    | inr h => exact spanMapIdx_mem f hf cs (j + 1) b h

theorem filtGo_lengths (ft : Nat) :
    ∀ (spans prow : List (List Nat)) (left upLeft : Option (List Nat)),
      (filtGo ft spans prow left upLeft).map List.length = spans.map List.length
  | [], _, _, _ => rfl
  | s :: rest, prow, left, upLeft => by
    simp only [filtGo, List.map_cons]
    rw [filtGo_lengths ft rest prow.tail (some s) prow.head?]
    rw [show (filtSpan ft s left prow.head? upLeft).length = s.length from
      spanMapIdx_length _ s 0]

theorem reconGo_lengths (ft : Nat) :
    ∀ (spans prow : List (List Nat)) (left upLeft : Option (List Nat)),
      (reconGo ft spans prow left upLeft).map List.length = spans.map List.length
  | [], _, _, _ => rfl
  | s :: rest, prow, left, upLeft => by
    simp only [reconGo, List.map_cons]
    rw [reconGo_lengths ft rest prow.tail _ prow.head?]
    rw [show (reconSpan ft s left prow.head? upLeft).length = s.length from
      spanMapIdx_length _ s 0]

theorem filtGo_bytes (ft : Nat) :
    ∀ (spans prow : List (List Nat)) (left upLeft : Option (List Nat)),
      ∀ s' ∈ filtGo ft spans prow left upLeft, ∀ b ∈ s', b < 256
  | [], _, _, _, s', hs' => absurd hs' (by simp [filtGo])
  | s :: rest, prow, left, upLeft, s', hs' => by
    simp only [filtGo, List.mem_cons] at hs'
    cases hs' with
    | inl h =>
      rw [h]
      exact spanMapIdx_mem _ (fun j c => filtByte_lt ft c _ _ _) s 0
    | inr h => exact filtGo_bytes ft rest prow.tail (some s) prow.head? s' h

theorem reconGo_bytes (ft : Nat) :
    ∀ (spans prow : List (List Nat)) (left upLeft : Option (List Nat)),
      ∀ s' ∈ reconGo ft spans prow left upLeft, ∀ b ∈ s', b < 256
  | [], _, _, _, s', hs' => absurd hs' (by simp [reconGo])
  | s :: rest, prow, left, upLeft, s', hs' => by
    simp only [reconGo, List.mem_cons] at hs'
    cases hs' with
    | inl h =>
      rw [h]
      exact spanMapIdx_mem _ (fun j c => reconByte_lt ft c _ _ _) s 0
    | inr h => exact reconGo_bytes ft rest prow.tail _ prow.head? s' h

theorem forall_from_map {α β : Type} (g : α → β) (P : β → Prop) :
    ∀ (l l' : List α), l'.map g = l.map g → (∀ x ∈ l, P (g x)) →
      ∀ x' ∈ l', P (g x') := by
  intro l l' hm h x' hx'
  have hmem : g x' ∈ l'.map g := List.mem_map_of_mem _ hx'
  rw [hm] at hmem
  obtain ⟨x, hx, he⟩ := List.mem_map.mp hmem
  rw [← he]
  exact h x hx

theorem length_from_map {α β : Type} (g : α → β) (l l' : List α)
    (hm : l'.map g = l.map g) : l'.length = l.length := by
  rw [← List.length_map l' g, hm, List.length_map]

/-- `ScanlineBase::reconstruct` on a well-formed scanline with a valid
tag: succeeds, clears the tag, preserves the span shape, keeps bytes
below 256. -/
theorem reconstruct_wf (r : Scanline) (prev : Option Scanline)
    (hft : r.filter_type ≤ 4) (hne : r.pixel_data.length ≠ 0)
    (hmm : prevMismatch prev r.pixel_data.length = false)
    (hb : ∀ s ∈ r.pixel_data, ∀ b ∈ s, b < 256) :
    ∃ r', r.reconstruct prev = .ok r' ∧ r'.filter_type = 0 ∧
      r'.pixel_data.map List.length = r.pixel_data.map List.length ∧
      ∀ s ∈ r'.pixel_data, ∀ b ∈ s, b < 256 := by
  by_cases h0 : r.filter_type = 0
  · exact ⟨r, by simp [Scanline.reconstruct, h0], h0, rfl, hb⟩
  · refine ⟨⟨0, reconGo r.filter_type r.pixel_data (prevData prev) none none⟩,
      ?_, rfl, reconGo_lengths _ _ _ none none,
      reconGo_bytes _ _ _ none none⟩
    unfold Scanline.reconstruct
    rw [if_neg h0, if_neg (by simp [hmm]), if_neg hne, if_neg (by omega)]

/-- The row loop of `Image::reconstruct` on well-formed rows (as
`decompress` yields them): succeeds row by row, producing unfiltered
rows of the same shape with bytes below 256. -/
theorem imageReconstructGo_wf :
    ∀ (rows : List Scanline) (prev : Option Scanline) (N B : Nat),
      N ≠ 0 →
      (∀ r ∈ rows, r.filter_type ≤ 4 ∧ r.pixel_data.length = N ∧
        (∀ s ∈ r.pixel_data, s.length = B) ∧
        (∀ s ∈ r.pixel_data, ∀ b ∈ s, b < 256)) →
      (match prev with | some q => q.pixel_data.length = N | none => True) →
      ∃ rows', imageReconstructGo rows prev = .ok rows' ∧
        rows'.length = rows.length ∧
        ∀ r ∈ rows', r.filter_type = 0 ∧ r.pixel_data.length = N ∧
          (∀ s ∈ r.pixel_data, s.length = B) ∧
          (∀ s ∈ r.pixel_data, ∀ b ∈ s, b < 256)
  | [], _, _, _, _, _, _ => ⟨[], rfl, rfl, by simp⟩
  | r :: rest, prev, N, B, hN, hstruct, hprev => by
    have hr := hstruct r (by simp)
    have hmm : prevMismatch prev r.pixel_data.length = false := by
      cases prev with
      | none => rfl
      | some q => simp [prevMismatch, hprev, hr.2.1]
    obtain ⟨r', hrec, hr'0, hr'lens, hr'bytes⟩ :=
      reconstruct_wf r prev hr.1 (by rw [hr.2.1]; exact hN) hmm hr.2.2.2
    have hr'N : r'.pixel_data.length = N := by
      rw [length_from_map List.length _ _ hr'lens, hr.2.1]
    obtain ⟨rest', hgo, hlen, hprops⟩ :=
      imageReconstructGo_wf rest (some r') N B hN
        (fun q hq => hstruct q (by simp [hq])) (by simp [hr'N])
    refine ⟨r' :: rest', ?_, by simp [hlen], ?_⟩
    · simp only [imageReconstructGo]
      rw [hrec]
      dsimp only
      rw [hgo]
    · intro q hq
      rcases List.mem_cons.mp hq with h | h
      · rw [h]
        exact ⟨hr'0, hr'N,
          forall_from_map List.length (· = B) _ _ hr'lens hr.2.2.1,
          hr'bytes⟩
      · exact hprops q h

theorem foldl_pick_mem {α : Type} (pick : (Nat × α) → α → (Nat × α))
    (hpick : ∀ b c, pick b c = b ∨ (pick b c).2 = c) :
    ∀ (l : List α) (best : Nat × α),
      (l.foldl pick best).2 = best.2 ∨ (l.foldl pick best).2 ∈ l
  | [], _ => Or.inl rfl
  | c :: rest, best => by
    simp only [List.foldl_cons]
    rcases hpick best c with h2 | h2
    · rw [h2]
      rcases foldl_pick_mem pick hpick rest best with h | h
      · exact Or.inl h
      · exact Or.inr (List.mem_cons_of_mem _ h)
    · rcases foldl_pick_mem pick hpick rest (pick best c) with h | h
      · rw [h2] at h
        exact Or.inr (by rw [h]; exact List.mem_cons_self _ _)
      · exact Or.inr (List.mem_cons_of_mem _ h)

/-- `ScanlineBase::filter(previous)` (best-of-five selection) on an
unfiltered well-formed scanline: it succeeds, the winner is one of the
five candidate encodings, and whichever wins, reconstructing it against
the same previous scanline restores the input. -/
theorem filterAuto_spec (sl : Scanline) (prev : Option Scanline)
    (hft : sl.filter_type = 0) (hne : sl.pixel_data.length ≠ 0)
    (hmm : prevMismatch prev sl.pixel_data.length = false)
    (hb : ∀ s ∈ sl.pixel_data, ∀ b ∈ s, b < 256) :
    ∃ f, sl.filterAuto prev = .ok f ∧ f.reconstruct prev = .ok sl ∧
      f.pixel_data.map List.length = sl.pixel_data.map List.length ∧
      (∀ s ∈ f.pixel_data, ∀ b ∈ s, b < 256) ∧ f.filter_type ≤ 4 := by
  obtain ⟨ft0, spans⟩ := sl
  simp only at hft hne hmm hb
  subst hft
  have hgood : ∀ f : Scanline,
      (f = (⟨0, spans⟩ : Scanline) ∨
        f ∈ [(⟨1, filtGo 1 spans (prevData prev) none none⟩ : Scanline),
          ⟨2, filtGo 2 spans (prevData prev) none none⟩,
          ⟨3, filtGo 3 spans (prevData prev) none none⟩,
          ⟨4, filtGo 4 spans (prevData prev) none none⟩]) →
      f.reconstruct prev = .ok ⟨0, spans⟩ ∧
      f.pixel_data.map List.length = spans.map List.length ∧
      (∀ s ∈ f.pixel_data, ∀ b ∈ s, b < 256) ∧ f.filter_type ≤ 4 := by
    intro f hf
    have hcase : f = (⟨0, spans⟩ : Scanline) ∨ ∃ t, 1 ≤ t ∧ t ≤ 4 ∧
        f = (⟨t, filtGo t spans (prevData prev) none none⟩ : Scanline) := by
      rcases hf with h | h
      · exact Or.inl h
      · simp only [List.mem_cons, List.not_mem_nil, or_false] at h
        rcases h with h | h | h | h
        · exact Or.inr ⟨1, by norm_num, by norm_num, h⟩
        · exact Or.inr ⟨2, by norm_num, by norm_num, h⟩
        · exact Or.inr ⟨3, by norm_num, by norm_num, h⟩
        · exact Or.inr ⟨4, by norm_num, by norm_num, h⟩
    rcases hcase with rfl | ⟨t, ht1, ht4, rfl⟩
    · exact ⟨by simp [Scanline.reconstruct], rfl, hb, by norm_num⟩
    · have hlen := filtGo_length t spans (prevData prev) none none
      refine ⟨?_, filtGo_lengths t spans _ none none,
        filtGo_bytes t spans _ none none, ht4⟩
      simp only [Scanline.reconstruct]
      rw [if_neg (by omega)]
      simp only [hlen]
      rw [if_neg (by simp [hmm]), if_neg hne, if_neg (by omega)]
      rw [reconGo_filtGo t spans (prevData prev) none none hb]
  have hf0 : Scanline.filter ⟨0, spans⟩ 0 prev = .ok ⟨0, spans⟩ := by
    simp [Scanline.filter, hmm, hne]
  have hfilt : ∀ t, 1 ≤ t → t ≤ 4 →
      Scanline.filter ⟨0, spans⟩ t prev =
        .ok ⟨t, filtGo t spans (prevData prev) none none⟩ := by
    intro t h1 h4
    simp [Scanline.filter, hmm, hne, show ¬ t = 0 by omega, show ¬ 5 ≤ t by omega]
  have hmem := foldl_pick_mem
    (fun best cand =>
      let a := signedAbsSum cand.pixel_data
      if a < best.1 then (a, cand) else best)
    (by
      intro b c
      dsimp only
      by_cases hc : signedAbsSum c.pixel_data < b.1
      · exact Or.inr (by rw [if_pos hc])
      · exact Or.inl (by rw [if_neg hc]))
    [(⟨1, filtGo 1 spans (prevData prev) none none⟩ : Scanline),
      ⟨2, filtGo 2 spans (prevData prev) none none⟩,
      ⟨3, filtGo 3 spans (prevData prev) none none⟩,
      ⟨4, filtGo 4 spans (prevData prev) none none⟩]
    (signedAbsSum (⟨0, spans⟩ : Scanline).pixel_data, ⟨0, spans⟩)
  obtain ⟨hrec, hlens, hbytes, htag⟩ := hgood _ hmem
  refine ⟨_, ?_, hrec, hlens, hbytes, htag⟩
  unfold Scanline.filterAuto
  rw [hf0]
  show Except.bind _ _ = _
  simp only [Except.bind]
  rw [hfilt 1 (by norm_num) (by norm_num)]
  show Except.bind _ _ = _
  simp only [Except.bind]
  rw [hfilt 2 (by norm_num) (by norm_num)]
  show Except.bind _ _ = _
  simp only [Except.bind]
  rw [hfilt 3 (by norm_num) (by norm_num)]
  show Except.bind _ _ = _
  simp only [Except.bind]
  rw [hfilt 4 (by norm_num) (by norm_num)]
  show Except.bind _ _ = _
  simp only [Except.bind]

/-- The row loop of `Image::filter` on unfiltered well-formed rows: it
succeeds, and running the row loop of `Image::reconstruct` on the result
(each row against the *previous reconstructed* row, which equals the
previous original row) restores the input rows. -/
theorem imageFilterGo_inverse :
    ∀ (rows : List Scanline) (prev : Option Scanline) (N : Nat),
      N ≠ 0 →
      (∀ r ∈ rows, r.filter_type = 0 ∧ r.pixel_data.length = N ∧
        ∀ s ∈ r.pixel_data, ∀ b ∈ s, b < 256) →
      (match prev with | some q => q.pixel_data.length = N | none => True) →
      ∃ frows, imageFilterGo rows prev = .ok frows ∧
        imageReconstructGo frows prev = .ok rows ∧
        frows.map (fun f => f.pixel_data.map List.length) =
          rows.map (fun r => r.pixel_data.map List.length) ∧
        ∀ f ∈ frows, f.filter_type ≤ 4 ∧ ∀ s ∈ f.pixel_data, ∀ b ∈ s, b < 256
  | [], _, _, _, _, _ => ⟨[], rfl, rfl, rfl, by simp⟩
  | r :: rest, prev, N, hN, hstruct, hprev => by
    have hr := hstruct r (by simp)
    have hmm : prevMismatch prev r.pixel_data.length = false := by
      cases prev with
      | none => rfl
      | some q => simp [prevMismatch, hprev, hr.2.1]
    obtain ⟨f, hfa, hfrec, hflens, hfbytes, hftag⟩ :=
      filterAuto_spec r prev hr.1 (by rw [hr.2.1]; exact hN) hmm hr.2.2
    obtain ⟨frest, hgo, hrec, hlens, hprops⟩ :=
      imageFilterGo_inverse rest (some r) N hN
        (fun q hq => hstruct q (by simp [hq])) (by simp [hr.2.1])
    refine ⟨f :: frest, ?_, ?_, ?_, ?_⟩
    · simp only [imageFilterGo]
      rw [hfa]
      dsimp only
      rw [hgo]
    · simp only [imageReconstructGo]
      rw [hfrec]
      dsimp only
      rw [hrec]
    · simp only [List.map_cons]
      rw [hflens, hlens]
    · intro q hq
      rcases List.mem_cons.mp hq with h | h
      · rw [h]
        exact ⟨hftag, hfbytes⟩
      · exact hprops q h

/-! ## Stego write/read characterisation -/

/-- Colour channel `t mod 3` of pixel `t / 3` in a loaded row vector
(row-major; one span per pixel for the 8-bit truecolour kinds). -/
def chanAt (rows : List Scanline) (W t : Nat) : Nat :=
  ((rows.getD (t / 3 / W) ⟨0, []⟩).pixel_data.getD (t / 3 % W) []).getD (t % 3) 0

/-- Nibble `t` of a byte list: the low nibble of byte `t / 2` for even
`t`, the high nibble for odd `t` (the `byte_index` / `bit_index`
arithmetic of the stego loops at bit offset 0). -/
def nibAt (dat : List Nat) (t : Nat) : Nat :=
  (dat.getD (t / 2) 0 >>> (4 * (t % 2))) &&& 0xF

/-- Shape of the loaded data of a supported stego carrier: one of the
two 8-bit truecolour kinds, `H` rows of `W` one-pixel spans of
`spanBytesOf` bytes, all bytes below 256. -/
def StegoDims (d : ImageData) (W H : Nat) : Prop :=
  (d.kind = .TRUE_COLOR_PIXEL_8BIT ∨ d.kind = .ALPHA_TRUE_COLOR_PIXEL_8BIT) ∧
  d.rows.length = H ∧
  ∀ r ∈ d.rows, r.pixel_data.length = W ∧
    ∀ s ∈ r.pixel_data, s.length = spanBytesOf d.kind ∧ ∀ b ∈ s, b < 256

theorem getD_set_self {α : Type} (l : List α) (i : Nat) (v d : α) (h : i < l.length) :
    (l.set i v).getD i d = v := by
  rw [List.getD_eq_getElem?_getD, List.getElem?_set_self (by simpa using h)]
  rfl

theorem getD_set_ne {α : Type} (l : List α) (i j : Nat) (v d : α) (h : i ≠ j) :
    (l.set i v).getD j d = l.getD j d := by
  rw [List.getD_eq_getElem?_getD, List.getElem?_set_ne h, ← List.getD_eq_getElem?_getD]

theorem getD_append_left {α : Type} (a b : List α) (i : Nat) (d : α)
    (h : i < a.length) : (a ++ b).getD i d = a.getD i d := by
  rw [List.getD_eq_getElem?_getD, List.getElem?_append, if_pos h,
    ← List.getD_eq_getElem?_getD]

theorem getD_append_right {α : Type} (a b : List α) (i : Nat) (d : α) :
    (a ++ b).getD (a.length + i) d = b.getD i d := by
  rw [List.getD_eq_getElem?_getD, List.getElem?_append, if_neg (by omega)]
  rw [show a.length + i - a.length = i by omega, ← List.getD_eq_getElem?_getD]

theorem getD_take (l : List Nat) (n i : Nat) (d : Nat) (h : i < n) :
    (l.take n).getD i d = l.getD i d := by
  rw [List.getD_eq_getElem?_getD, List.getElem?_take, if_pos h,
    ← List.getD_eq_getElem?_getD]

theorem getD_mem_of_lt {α : Type} (l : List α) (n : Nat) (d : α) (h : n < l.length) :
    l.getD n d ∈ l := by
  rw [List.getD_eq_getElem?_getD, List.getElem?_eq_getElem h]
  exact List.getElem_mem h

theorem mem_bound_of_getD (l : List Nat) (B : Nat)
    (h : ∀ j, j < l.length → l.getD j 0 < B) : ∀ b ∈ l, b < B := by
  intro b hb
  obtain ⟨j, hj, he⟩ := List.getElem_of_mem hb
  have hv := h j hj
  rw [List.getD_eq_getElem?_getD, List.getElem?_eq_getElem hj] at hv
  rw [← he]
  exact hv

theorem range_map_getD :
    ∀ l : List Nat, (List.range l.length).map (fun i => l.getD i 0) = l
  | [] => rfl
  | x :: xs => by
    rw [List.length_cons, List.range_succ_eq_map, List.map_cons, List.map_map]
    rw [show ((fun i => (x :: xs).getD i 0) ∘ Nat.succ) = fun i => xs.getD i 0 from
      funext fun i => by simp [List.getD_cons_succ]]
    rw [range_map_getD xs]
    rfl

/-- The low nibble of `(a & 0xF0) | v` is `v`: what the write loop
leaves in a channel survives the read loop's `& 0xF`. -/
theorem low_nibble_or (a v : Nat) (hv : v < 16) :
    ((a &&& 0xF0) ||| v) &&& 0xF = v := by
  apply Nat.eq_of_testBit_eq
  intro i
  simp only [Nat.testBit_and, Nat.testBit_or]
  by_cases hi : i < 4
  · have h240 : (240 : Nat).testBit i = false := by
      interval_cases i <;> decide
    have h15 : (15 : Nat).testBit i = true := by
      interval_cases i <;> decide
    simp [Nat.testBit_and, h240, h15]
  · have hge : (2 : Nat) ^ 4 ≤ 2 ^ i := Nat.pow_le_pow_right (by norm_num) (by omega)
    have h15 : (15 : Nat).testBit i = false :=
      Nat.testBit_lt_two_pow (by omega)
    have hv' : v.testBit i = false :=
      Nat.testBit_lt_two_pow (by omega)
    simp [Nat.testBit_and, h15, hv']

theorem or_high_lt (a v : Nat) (ha : a < 256) (hv : v < 16) :
    ((a &&& 0xF0) ||| v) < 256 := by
  have h1 : a &&& 0xF0 ≤ a := Nat.and_le_left
  exact Nat.or_lt_two_pow (n := 8) (by omega) (by omega)

theorem foldl_setchan_length (c nib : Nat) :
    ∀ (js : List Nat) (px : List Nat),
      (js.foldl (fun p j' =>
        if c ≤ j' then p.set j' ((p.getD j' 0 &&& 0xF0) ||| nib) else p) px).length =
      px.length
  | [], _ => rfl
  | j0 :: js', px => by
    simp only [List.foldl_cons]
    rw [foldl_setchan_length c nib js']
    by_cases h : c ≤ j0
    · rw [if_pos h, List.length_set]
    · rw [if_neg h]

theorem foldl_setchan_getD (c nib : Nat) :
    ∀ (js : List Nat), js.Nodup → ∀ (px : List Nat) (j : Nat),
      ((js.foldl (fun p j' =>
        if c ≤ j' then p.set j' ((p.getD j' 0 &&& 0xF0) ||| nib) else p) px).getD j 0) =
      if j ∈ js ∧ c ≤ j ∧ j < px.length
      then (px.getD j 0 &&& 0xF0) ||| nib else px.getD j 0
  | [], _, px, j => by simp
  | j0 :: js', hnd, px, j => by
    simp only [List.foldl_cons]
    have hnd' : js'.Nodup := (List.nodup_cons.mp hnd).2
    have hj0 : j0 ∉ js' := (List.nodup_cons.mp hnd).1
    rw [foldl_setchan_getD c nib js' hnd' _ j]
    by_cases hcj0 : c ≤ j0
    · rw [if_pos hcj0]
      by_cases hjj : j = j0
      · subst hjj
        rw [if_neg (fun hc => hj0 hc.1)]
        by_cases hlt : j < px.length
        · rw [getD_set_self _ _ _ _ hlt,
            if_pos ⟨List.mem_cons_self _ _, hcj0, hlt⟩]
        · rw [if_neg (fun hc => hlt hc.2.2)]
          rw [List.set_eq_of_length_le (by omega)]
      · rw [getD_set_ne _ _ _ _ _ (fun he => hjj he.symm), List.length_set]
        by_cases hin : j ∈ js' ∧ c ≤ j ∧ j < px.length
        · rw [if_pos hin, if_pos ⟨List.mem_cons_of_mem _ hin.1, hin.2⟩]
        · rw [if_neg hin, if_neg (fun hc =>
            hin ⟨(List.mem_cons.mp hc.1).resolve_left hjj, hc.2⟩)]
    · rw [if_neg hcj0]
      by_cases hin : j ∈ js' ∧ c ≤ j ∧ j < px.length
      · rw [if_pos hin, if_pos ⟨List.mem_cons_of_mem _ hin.1, hin.2⟩]
      · rw [if_neg hin, if_neg (fun hc => by
          have hne : j ≠ j0 := fun he => hcj0 (he ▸ hc.2.1)
          exact hin ⟨(List.mem_cons.mp hc.1).resolve_left hne, hc.2⟩)]

theorem stegoWriteChannels_length (px : List Nat) (c nib : Nat) :
    (stegoWriteChannels px c nib).length = px.length := by
  unfold stegoWriteChannels
  exact foldl_setchan_length c nib (List.range 3) px

theorem stegoWriteChannels_getD (px : List Nat) (c nib j : Nat) :
    (stegoWriteChannels px c nib).getD j 0 =
      if j < 3 ∧ c ≤ j ∧ j < px.length
      then (px.getD j 0 &&& 0xF0) ||| nib else px.getD j 0 := by
  unfold stegoWriteChannels
  rw [foldl_setchan_getD c nib (List.range 3) (by decide) px j]
  simp only [List.mem_range]

theorem stego_samples_one (k : PixelEnum)
    (hk : k = .TRUE_COLOR_PIXEL_8BIT ∨ k = .ALPHA_TRUE_COLOR_PIXEL_8BIT) :
    pixelEnumSamples k = 1 ∧ 3 ≤ spanBytesOf k ∧
      pixelEnumBits k = 8 * spanBytesOf k := by
  rcases hk with rfl | rfl <;> exact ⟨rfl, by decide, rfl⟩

theorem getD_map {α β : Type} (f : α → β) (l : List α) (i : Nat) (d : α) :
    (l.map f).getD i (f d) = f (l.getD i d) := by
  rw [List.getD_eq_getElem?_getD, List.getElem?_map, List.getD_eq_getElem?_getD]
  cases l[i]? <;> rfl

theorem set_getD_self {α : Type} (l : List α) (i : Nat) (d : α) (h : i < l.length) :
    l.set i (l.getD i d) = l := by
  apply List.ext_getElem?
  intro j
  by_cases hij : i = j
  · subst hij
    rw [List.getElem?_set_self (by simpa using h), List.getD_eq_getElem?_getD,
      List.getElem?_eq_getElem h]
    rfl
  · rw [List.getElem?_set_ne hij]

/-- One channel fetch on a well-shaped carrier at bit position `4 t`
yields the low nibble of channel `t mod 3` of pixel `t / 3`. -/
theorem stegoChannelGet_at (d : ImageData) (W H : Nat) (hd : StegoDims d W H)
    (hW : W ≠ 0) (t : Nat) (ht : t < W * H * 3) :
    stegoChannelGet d W (4 * t) = .ok (chanAt d.rows W t &&& 0xF) := by
  obtain ⟨hkind, hH, hrows⟩ := hd
  have hsamp := (stego_samples_one d.kind hkind).1
  have hp3 : 4 * t / 12 = t / 3 := by omega
  have hc3 : 4 * t % 12 / 4 = t % 3 := by omega
  have hWC : W * H = H * W := Nat.mul_comm _ _
  have hpix : t / 3 < W * H := by omega
  have hy : t / 3 / W < H := by
    rw [Nat.div_lt_iff_lt_mul (Nat.pos_of_ne_zero hW)]
    omega
  have hx : t / 3 % W < W := Nat.mod_lt _ (Nat.pos_of_ne_zero hW)
  have hrowmem : d.rows.getD (t / 3 / W) ⟨0, []⟩ ∈ d.rows :=
    getD_mem_of_lt _ _ _ (by omega)
  have hrowW := (hrows _ hrowmem).1
  unfold stegoChannelGet
  dsimp only
  rw [hp3, hc3]
  rw [if_neg (by omega), if_neg (by rw [hsamp]; omega)]
  rcases hkind with hk | hk <;> rw [hk] <;> rfl

/-- One `write_stego_data` iteration on a well-shaped carrier: the pixel
at nibble position `k` gets `(old & 0xF0) | nib` in every channel from
`k mod 3` upward (the fall-through), lower channels and all other
pixels are untouched, and the shape is preserved. -/
theorem writeStegoStep_at (d : ImageData) (W H : Nat) (hd : StegoDims d W H)
    (hW : W ≠ 0) (k nib : Nat) (hk : k < W * H * 3) (hnib : nib < 16) :
    ∃ d', writeStegoStep d W (4 * k) nib = .ok d' ∧
      StegoDims d' W H ∧ d'.kind = d.kind ∧
      d'.rows.map (·.filter_type) = d.rows.map (·.filter_type) ∧
      (∀ t, t / 3 ≠ k / 3 → chanAt d'.rows W t = chanAt d.rows W t) ∧
      (∀ t, t / 3 = k / 3 → t % 3 < k % 3 →
        chanAt d'.rows W t = chanAt d.rows W t) ∧
      (∀ t, t / 3 = k / 3 → k % 3 ≤ t % 3 →
        chanAt d'.rows W t = (chanAt d.rows W t &&& 0xF0) ||| nib) := by
  obtain ⟨hkind, hH, hrows⟩ := hd
  have hsamp := (stego_samples_one d.kind hkind).1
  have hbpp3 := (stego_samples_one d.kind hkind).2.1
  have hp3 : 4 * k / 12 = k / 3 := by omega
  have hc3 : 4 * k % 12 / 4 = k % 3 := by omega
  have hWC : W * H = H * W := Nat.mul_comm _ _
  have hpix : k / 3 < W * H := by omega
  have hy : k / 3 / W < H := by
    rw [Nat.div_lt_iff_lt_mul (Nat.pos_of_ne_zero hW)]
    omega
  have hx : k / 3 % W < W := Nat.mod_lt _ (Nat.pos_of_ne_zero hW)
  have hrowmem : d.rows.getD (k / 3 / W) ⟨0, []⟩ ∈ d.rows :=
    getD_mem_of_lt _ _ _ (by omega)
  have hrowSpec := hrows _ hrowmem
  have hrowW := hrowSpec.1
  have hpxmem : (d.rows.getD (k / 3 / W) ⟨0, []⟩).pixel_data.getD (k / 3 % W) [] ∈
      (d.rows.getD (k / 3 / W) ⟨0, []⟩).pixel_data :=
    getD_mem_of_lt _ _ _ (by omega)
  have hpxSpec := hrowSpec.2 _ hpxmem
  have hpxlen := hpxSpec.1
  have hpxb := hpxSpec.2
  refine ⟨⟨d.kind, d.rows.set (k / 3 / W)
    ⟨(d.rows.getD (k / 3 / W) ⟨0, []⟩).filter_type,
      (d.rows.getD (k / 3 / W) ⟨0, []⟩).pixel_data.set (k / 3 % W)
        (stegoWriteChannels
          ((d.rows.getD (k / 3 / W) ⟨0, []⟩).pixel_data.getD (k / 3 % W) [])
          (k % 3) nib)⟩⟩, ?_, ?_, rfl, ?_, ?_, ?_, ?_⟩
  · unfold writeStegoStep
    dsimp only
    rw [hp3, hc3]
    rw [if_neg (by omega), if_neg (by rw [hsamp]; omega)]
    rcases hkind with hk' | hk' <;> rw [hk'] <;> rfl
  · refine ⟨hkind, by simp [hH], ?_⟩
    intro r hr
    rcases List.mem_or_eq_of_mem_set hr with hmem | hrnew
    · exact hrows r hmem
    · subst hrnew
      refine ⟨by dsimp only; rw [List.length_set]; exact hrowW, ?_⟩
      intro s hs
      rcases List.mem_or_eq_of_mem_set hs with hsm | hsnew
      · exact hrowSpec.2 s hsm
      · subst hsnew
        refine ⟨by rw [stegoWriteChannels_length, hpxlen], ?_⟩
        apply mem_bound_of_getD
        intro j hj
        rw [stegoWriteChannels_length] at hj
        rw [stegoWriteChannels_getD]
        by_cases hcond : j < 3 ∧ k % 3 ≤ j ∧
            j < ((d.rows.getD (k / 3 / W) ⟨0, []⟩).pixel_data.getD (k / 3 % W)
              []).length
        · rw [if_pos hcond]
          exact or_high_lt _ _ (hpxb _ (getD_mem_of_lt _ _ _ (by omega))) hnib
        · rw [if_neg hcond]
          exact hpxb _ (getD_mem_of_lt _ _ _ (by omega))
  · rw [List.map_set]
    dsimp only
    rw [show (d.rows.getD (k / 3 / W) ⟨0, []⟩).filter_type =
      (d.rows.map (fun r => r.filter_type)).getD (k / 3 / W)
        ((⟨0, []⟩ : Scanline).filter_type) from
      (getD_map (fun r => r.filter_type) d.rows (k / 3 / W) ⟨0, []⟩).symm]
    exact set_getD_self _ _ _ (by simpa using (by omega : k / 3 / W < d.rows.length))
  · intro t hne
    unfold chanAt
    by_cases hyy : t / 3 / W = k / 3 / W
    · have hxx : t / 3 % W ≠ k / 3 % W := by
        intro hxe
        apply hne
        have e1 := (Nat.div_add_mod (t / 3) W).symm
        rw [hyy, hxe] at e1
        rw [Nat.div_add_mod (k / 3) W] at e1
        exact e1
      rw [hyy, getD_set_self _ _ _ _ (by omega)]
      dsimp only
      rw [getD_set_ne _ _ _ _ _ (fun he => hxx he.symm)]
    · rw [getD_set_ne _ _ _ _ _ (fun he => hyy he.symm)]
  · intro t hpe hlt
    unfold chanAt
    rw [hpe, getD_set_self _ _ _ _ (by omega)]
    dsimp only
    rw [getD_set_self _ _ _ _ (by omega)]
    rw [stegoWriteChannels_getD]
    rw [if_neg (fun hc => absurd hc.2.1 (by omega))]
  · intro t hpe hge
    unfold chanAt
    rw [hpe, getD_set_self _ _ _ _ (by omega)]
    dsimp only
    rw [getD_set_self _ _ _ _ (by omega)]
    rw [stegoWriteChannels_getD]
    rw [if_pos ⟨by omega, hge, by omega⟩]

/-- The `write_stego_data` nibble loop: starting from nibble position
`k` with the first `k` nibbles already planted, it plants the low
nibbles of all `2 |dat|` nibbles of `dat` (the fall-through damage to
higher channels of the last written pixel is overwritten by the next
nibble or lies beyond position `2 |dat|`). -/
theorem writeStegoGo_spec (W H : Nat) (hW : W ≠ 0) (dat : List Nat) :
    ∀ (cnt k : Nat) (d : ImageData),
      StegoDims d W H →
      k + cnt = 2 * dat.length →
      2 * dat.length ≤ W * H * 3 →
      (∀ t, t < k → chanAt d.rows W t &&& 0xF = nibAt dat t) →
      ∃ d', writeStegoGo W dat 0 d cnt k = .ok d' ∧
        StegoDims d' W H ∧ d'.kind = d.kind ∧
        d'.rows.map (·.filter_type) = d.rows.map (·.filter_type) ∧
        ∀ t, t < 2 * dat.length → chanAt d'.rows W t &&& 0xF = nibAt dat t
  | 0, k, d, hd, hcnt, _, hinv =>
    ⟨d, rfl, hd, rfl, rfl, fun t ht => hinv t (by omega)⟩
  | c + 1, k, d, hd, hcnt, hcap, hinv => by
    have hk3 : k < W * H * 3 := by omega
    have hnibv : (dat.getD (4 * k / 8) 0 >>> (4 * k % 8)) &&& 0xF < 16 := by
      have hle := Nat.and_le_right
        (n := dat.getD (4 * k / 8) 0 >>> (4 * k % 8)) (m := 0xF)
      omega
    obtain ⟨d', hstep, hd', hkind', hfts, hA, hB, hC⟩ :=
      writeStegoStep_at d W H hd hW k _ hk3 hnibv
    have hinv' : ∀ t, t < k + 1 → chanAt d'.rows W t &&& 0xF = nibAt dat t := by
      intro t ht
      by_cases hte : t = k
      · subst hte
        rw [hC t rfl (Nat.le_refl _), low_nibble_or _ _ hnibv]
        unfold nibAt
        rw [show 4 * t / 8 = t / 2 by omega, show 4 * t % 8 = 4 * (t % 2) by omega]
      · have htk : t < k := by omega
        by_cases hp : t / 3 = k / 3
        · rw [hB t hp (by omega)]
          exact hinv t htk
        · rw [hA t hp]
          exact hinv t htk
    obtain ⟨d'', hgo, hd'', hkind'', hfts', hres⟩ :=
      writeStegoGo_spec W H hW dat c (k + 1) d' hd' (by omega) hcap hinv'
    refine ⟨d'', ?_, hd'', by rw [hkind'', hkind'], by rw [hfts', hfts], hres⟩
    simp only [writeStegoGo, Nat.zero_add]
    rw [hstep]
    show Except.bind _ _ = _
    simp only [Except.bind]
    exact hgo

set_option maxRecDepth 4000 in
/-- Recomposing a byte from its low and high nibbles (the even / odd
steps of the `read_stego_data` loop). -/
theorem nib_recompose : ∀ x < 256,
    ((x >>> (4 * 0)) &&& 0xF) ||| (((x >>> (4 * 1)) &&& 0xF) <<< 4) = x := by
  decide

/-- The `read_stego_data` nibble loop: with every channel fetch at bit
position `b + 4 k` returning `g k`, reading `2 m` nibbles starting at
nibble index `2 j` appends the `m` bytes recomposed from consecutive
nibble pairs. -/
theorem readStegoGo_pairs (d : ImageData) (W b : Nat) (g : Nat → Nat) :
    ∀ (m j : Nat) (acc : List Nat), acc.length = j →
      (∀ k, k < 2 * (j + m) → stegoChannelGet d W (b + 4 * k) = .ok (g k)) →
      readStegoGo d W b (2 * m) (2 * j) acc =
        .ok (acc ++ (List.range m).map (fun i =>
          g (2 * (j + i)) ||| (g (2 * (j + i) + 1) <<< 4)))
  | 0, j, acc, _, _ => by
    rw [show 2 * 0 = 0 from rfl]
    simp [readStegoGo]
  | m + 1, j, acc, hacc, hg => by
    rw [show 2 * (m + 1) = 2 * m + 1 + 1 by ring]
    simp only [readStegoGo]
    rw [hg (2 * j) (by omega)]
    show Except.bind _ _ = _
    simp only [Except.bind]
    rw [show 4 * (2 * j) % 8 = 0 by omega, if_pos rfl]
    rw [hg (2 * j + 1) (by omega)]
    show Except.bind _ _ = _
    simp only [Except.bind]
    rw [show 4 * (2 * j + 1) % 8 = 4 by omega, if_neg (by omega),
      show 4 * (2 * j + 1) / 8 = j by omega]
    have hgetD : (acc ++ [g (2 * j)]).getD j 0 = g (2 * j) := by
      rw [← hacc]
      have := getD_append_right acc [g (2 * j)] 0 0
      simpa using this
    have hset : (acc ++ [g (2 * j)]).set j
        ((acc ++ [g (2 * j)]).getD j 0 ||| g (2 * j + 1) <<< 4) =
        acc ++ [g (2 * j) ||| g (2 * j + 1) <<< 4] := by
      rw [hgetD, ← hacc, List.set_append, if_neg (by omega)]
      simp
    rw [hset]
    have hrec := readStegoGo_pairs d W b g m (j + 1)
      (acc ++ [g (2 * j) ||| g (2 * j + 1) <<< 4]) (by simp [hacc])
      (fun k hk => hg k (by omega))
    rw [show 2 * j + 1 + 1 = 2 * (j + 1) by ring, hrec]
    rw [List.range_succ_eq_map, List.map_cons, List.map_map, List.append_assoc,
      List.singleton_append]
    have hmap : (List.range m).map (fun i =>
        g (2 * (j + 1 + i)) ||| (g (2 * (j + 1 + i) + 1) <<< 4)) =
        (List.range m).map ((fun i =>
          g (2 * (j + i)) ||| (g (2 * (j + i) + 1) <<< 4)) ∘ Nat.succ) :=
      List.map_congr_left (fun i _ => by
        simp only [Function.comp]
        rw [show j + Nat.succ i = j + 1 + i by omega])
    rw [hmap]
    rfl

/-- The bytes recomposed from consecutive nibble pairs of a byte list
starting at byte `aB` are the slice of `n` bytes from `aB`. -/
theorem read_pairs_slice (pay : List Nat) (hb : ∀ x ∈ pay, x < 256) (aB n : Nat)
    (h : aB + n ≤ pay.length) :
    (List.range n).map (fun i => nibAt pay (2 * (aB + i)) |||
      (nibAt pay (2 * (aB + i) + 1) <<< 4)) = (pay.drop aB).take n := by
  have hlen : ((pay.drop aB).take n).length = n := by
    simp [List.length_take, List.length_drop]
    omega
  have hrmg := range_map_getD ((pay.drop aB).take n)
  rw [hlen] at hrmg
  rw [← hrmg]
  apply List.map_congr_left
  intro i hi
  have hin : i < n := List.mem_range.mp hi
  have hslice : ((pay.drop aB).take n).getD i 0 = pay.getD (aB + i) 0 := by
    rw [getD_take _ _ _ _ hin, List.getD_eq_getElem?_getD, List.getElem?_drop,
      ← List.getD_eq_getElem?_getD]
  rw [hslice]
  unfold nibAt
  rw [show 2 * (aB + i) / 2 = aB + i by omega, show 2 * (aB + i) % 2 = 0 by omega,
    show (2 * (aB + i) + 1) / 2 = aB + i by omega,
    show (2 * (aB + i) + 1) % 2 = 1 by omega]
  exact nib_recompose _ (hb _ (getD_mem_of_lt _ _ _ (by omega)))

/-- `read_stego_data(8 aB, n)` on a loaded carrier whose channel low
nibbles hold the nibbles of `pay` returns bytes `aB .. aB + n` of
`pay`. -/
theorem read_stego_slice (img : Image) (d : ImageData) (W H : Nat)
    (himg : img.image_data = some d) (hd : StegoDims d W H) (hW : W ≠ 0)
    (hWi : img.width = .ok W) (hHi : img.height = .ok H)
    (pay : List Nat) (hpb : ∀ x ∈ pay, x < 256)
    (hwr : ∀ t, t < 2 * pay.length → chanAt d.rows W t &&& 0xF = nibAt pay t)
    (hcap : 8 * pay.length ≤ W * H * 3 * 4 % 2 ^ 32)
    (aB n : Nat) (hrange : aB + n ≤ pay.length) :
    img.read_stego_data (8 * aB) n = .ok ((pay.drop aB).take n) := by
  have hm1 : W * H * 3 * 4 % 2 ^ 32 ≤ W * H * 3 * 4 := Nat.mod_le _ _
  have hcap3 : 2 * pay.length ≤ W * H * 3 := by omega
  unfold Image.read_stego_data
  rw [himg]
  dsimp only
  rw [if_neg (by omega)]
  rw [hWi]
  show Except.bind _ _ = _
  simp only [Except.bind]
  rw [hHi]
  show Except.bind _ _ = _
  simp only [Except.bind]
  rw [if_neg (by omega)]
  have hg : ∀ k, k < 2 * (0 + n) →
      stegoChannelGet d W (8 * aB + 4 * k) = .ok (nibAt pay (2 * aB + k)) := by
    intro k hk
    rw [show 8 * aB + 4 * k = 4 * (2 * aB + k) by ring]
    rw [stegoChannelGet_at d W H hd hW _ (by omega)]
    rw [hwr _ (by omega)]
  have hpairs := readStegoGo_pairs d W (8 * aB) (fun k => nibAt pay (2 * aB + k))
    n 0 [] rfl hg
  rw [show (2 : Nat) * 0 = 0 from rfl] at hpairs
  rw [hpairs, List.nil_append]
  have hmap : (List.range n).map (fun i => nibAt pay (2 * aB + 2 * (0 + i)) |||
      (nibAt pay (2 * aB + (2 * (0 + i) + 1)) <<< 4)) =
      (List.range n).map (fun i => nibAt pay (2 * (aB + i)) |||
      (nibAt pay (2 * (aB + i) + 1) <<< 4)) :=
    List.map_congr_left (fun i _ => by
      rw [show 2 * aB + 2 * (0 + i) = 2 * (aB + i) by ring,
        show 2 * aB + (2 * (0 + i) + 1) = 2 * (aB + i) + 1 by ring])
  rw [hmap, read_pairs_slice pay hpb aB n hrange]

/-- `Image::load` (decompress + reconstruct) on an image whose `IDAT`
stream inflates to the serialisation of well-formed rows of a
whole-byte truecolour kind: it succeeds and yields the reconstructed
rows. -/
theorem load_spec (infl : List Nat → Except Err (List Nat)) (img : Image)
    (hc : ChunkVecM) (hs : List ChunkVecM) (pt : PixelEnum) (W H : Nat)
    (idats : List ChunkVecM) (rows : List Scanline)
    (hih : mapFind img.chunk_map tagIHDR = some (hc :: hs))
    (hpt : headerPixelType hc = .ok pt)
    (hpt2 : pt = .TRUE_COLOR_PIXEL_8BIT ∨ pt = .ALPHA_TRUE_COLOR_PIXEL_8BIT)
    (hWd : headerWidth hc = .ok W) (hHd : headerHeight hc = .ok H)
    (hidat : mapFind img.chunk_map tagIDAT = some idats)
    (hstream : infl ((idats.map (·.data)).flatten) =
      .ok ((rows.map Scanline.to_raw).flatten))
    (hrowsH : rows.length = H)
    (hrowsS : ∀ r ∈ rows, r.filter_type ≤ 4 ∧ r.pixel_data.length = W ∧
      ∀ s ∈ r.pixel_data, s.length = spanBytesOf pt ∧ ∀ b ∈ s, b < 256)
    (hW : W ≠ 0) :
    ∃ rrows, img.load infl = .ok { img with image_data := some ⟨pt, rrows⟩ } ∧
      imageReconstructGo rows none = .ok rrows ∧
      rrows.length = H ∧
      ∀ r ∈ rrows, r.filter_type = 0 ∧ r.pixel_data.length = W ∧
        (∀ s ∈ r.pixel_data, s.length = spanBytesOf pt) ∧
        (∀ s ∈ r.pixel_data, ∀ b ∈ s, b < 256) := by
  have hhc : img.headerChunk = .ok hc := by
    unfold Image.headerChunk
    rw [hih]
  have hsb := stego_samples_one pt hpt2
  have hfr : fromRaw pt W H ((rows.map Scanline.to_raw).flatten) = .ok rows :=
    fromRaw_to_raw pt W H hsb.1 hsb.2.2 rows hrowsH
      (fun r hr => ⟨(hrowsS r hr).2.1, fun s hss => ((hrowsS r hr).2.2 s hss).1⟩)
  have hdec : img.decompress infl = .ok { img with image_data := some ⟨pt, rows⟩ } := by
    unfold Image.decompress
    rw [hidat]
    dsimp only
    rw [hstream]
    show Except.bind _ _ = _
    simp only [Except.bind]
    rw [hhc]
    show Except.bind _ _ = _
    simp only [Except.bind]
    rw [hpt]
    show Except.bind _ _ = _
    simp only [Except.bind]
    rw [hWd]
    show Except.bind _ _ = _
    simp only [Except.bind]
    rw [hHd]
    show Except.bind _ _ = _
    simp only [Except.bind]
    rw [hfr]
    show Except.bind _ _ = _
    simp only [Except.bind]
  obtain ⟨rrows, hgo, hlen, hprops⟩ :=
    imageReconstructGo_wf rows none W (spanBytesOf pt) hW
      (fun r hr => ⟨(hrowsS r hr).1, (hrowsS r hr).2.1,
        fun s hss => ((hrowsS r hr).2.2 s hss).1,
        fun s hss => ((hrowsS r hr).2.2 s hss).2⟩) trivial
  refine ⟨rrows, ?_, hgo, by omega, hprops⟩
  unfold Image.load
  rw [hdec]
  show Except.bind _ _ = _
  simp only [Except.bind]
  unfold Image.reconstruct
  dsimp only
  rw [show Image.headerChunk { img with image_data := some ⟨pt, rows⟩ } = .ok hc from by
    unfold Image.headerChunk
    dsimp only
    rw [hih]]
  show Except.bind _ _ = _
  simp only [Except.bind]
  rw [hpt]
  show Except.bind _ _ = _
  simp only [Except.bind]
  rw [if_neg (by simp)]
  rw [hgo]

/-- Replacing the `IDAT` binding with non-empty well-formed chunks
preserves chunk-table well-formedness. -/
theorem compressMap_wf (img : Image) (hwf : WFImage img) (newIdats : List ChunkVecM)
    (hfind : (mapFind img.chunk_map tagIDAT).isSome)
    (hne : newIdats ≠ [])
    (hchunks : ∀ c ∈ newIdats, c.tag = tagIDAT ∧ c.data.length < 2 ^ 32) :
    WFImage { img with chunk_map := mapSet img.chunk_map tagIDAT newIdats } := by
  obtain ⟨h1, h2, h3⟩ := hwf
  refine ⟨?_, ?_, ?_⟩
  · intro e he
    dsimp only at he
    rcases mapSet_mem _ _ _ e he with rfl | hmem
    · exact ⟨hne, rfl, fun c hcm => ⟨(hchunks c hcm).1, (hchunks c hcm).2⟩⟩
    · exact h1 e hmem
  · dsimp only
    rw [mapSet_keys _ _ _ hfind]
    exact h2
  · intro e he hk
    dsimp only at he
    rcases mapSet_mem _ _ _ e he with rfl | hmem
    · exfalso
      simp only [tagIDAT, tagIEND] at hk
      exact absurd hk (by decide)
    · exact h3 e hmem hk

theorem reparse_find_IHDR (img : Image) (hwf : WFImage img) (l : List ChunkVecM)
    (hfind : mapFind img.chunk_map tagIHDR = some l) (hl : l ≠ []) :
    mapFind ((emitSeqPre img ++ [iendChunkOf img]).foldl
      (fun m' c => mapPush m' c.tag c) []) tagIHDR = some l := by
  rw [reparse_mapFind img hwf tagIHDR [] chunkPriority.tail rfl (by simp)
    (by decide) (by decide)]
  rw [hfind]
  simp [hl]

theorem reparse_find_IDAT (img : Image) (hwf : WFImage img) (l : List ChunkVecM)
    (hfind : mapFind img.chunk_map tagIDAT = some l) (hl : l ≠ []) :
    mapFind ((emitSeqPre img ++ [iendChunkOf img]).foldl
      (fun m' c => mapPush m' c.tag c) []) tagIDAT = some l := by
  rw [reparse_mapFind img hwf tagIDAT
    [tagIHDR, [103, 65, 77, 65], [80, 76, 84, 69]] (chunkPriority.drop 4) rfl
    (by decide) (by decide) (by decide)]
  rw [hfind]
  simp [hl]

/-- The framed stego blob: `"FCD"`, little-endian length, body,
`"DCF"` (`create_stego_payload`, `src/payload.cpp` 232–242). -/
def stegoFrame (compressed : List Nat) : List Nat :=
  [70, 67, 68] ++ le32enc (compressed.length % 2 ^ 32) ++ compressed ++ [68, 67, 70]

theorem width_of_find {img : Image} {hc : ChunkVecM} {hs : List ChunkVecM} {W : Nat}
    (hih : mapFind img.chunk_map tagIHDR = some (hc :: hs))
    (hWd : headerWidth hc = .ok W) : img.width = .ok W := by
  unfold Image.width
  rw [show img.headerChunk = .ok hc from by unfold Image.headerChunk; rw [hih]]
  show Except.bind _ _ = _
  simp only [Except.bind]
  exact hWd

theorem height_of_find {img : Image} {hc : ChunkVecM} {hs : List ChunkVecM} {H : Nat}
    (hih : mapFind img.chunk_map tagIHDR = some (hc :: hs))
    (hHd : headerHeight hc = .ok H) : img.height = .ok H := by
  unfold Image.height
  rw [show img.headerChunk = .ok hc from by unfold Image.headerChunk; rw [hih]]
  show Except.bind _ _ = _
  simp only [Except.bind]
  exact hHd

/-- `create_stego_payload` on a supported image with enough capacity:
it succeeds, the result replaces the `IDAT` chunks with the split-up
deflate of the refiltered rows `frows` and keeps those rows loaded;
reconstructing `frows` restores the written rows `wrows`, whose channel
low nibbles hold the nibbles of the framed blob. -/
theorem create_stego_spec
    (defl : Int → List Nat → List Nat) (infl : List Nat → Except Err (List Nat))
    (img : Image) (x : List Nat) (hc : ChunkVecM) (hs : List ChunkVecM)
    (pt : PixelEnum) (W H : Nat) (idats : List ChunkVecM) (rows : List Scanline)
    (hb9 : ∀ b ∈ defl 9 x, b < 256)
    (hDne : ∀ y, y ≠ [] → defl (-1) y ≠ [])
    (hih : mapFind img.chunk_map tagIHDR = some (hc :: hs))
    (hpt : headerPixelType hc = .ok pt)
    (hpt2 : pt = .TRUE_COLOR_PIXEL_8BIT ∨ pt = .ALPHA_TRUE_COLOR_PIXEL_8BIT)
    (hWd : headerWidth hc = .ok W) (hHd : headerHeight hc = .ok H)
    (hidat : mapFind img.chunk_map tagIDAT = some idats)
    (hstream : infl ((idats.map (·.data)).flatten) =
      .ok ((rows.map Scanline.to_raw).flatten))
    (hrowsH : rows.length = H)
    (hrowsS : ∀ r ∈ rows, r.filter_type ≤ 4 ∧ r.pixel_data.length = W ∧
      ∀ s ∈ r.pixel_data, s.length = spanBytesOf pt ∧ ∀ b ∈ s, b < 256)
    (hcap : 10 + (defl 9 x).length ≤ W * H * 3 * 4 % 2 ^ 32 / 8) :
    ∃ frows wrows,
      img.create_stego_payload defl infl x =
        .ok ⟨mapSet img.chunk_map tagIDAT
            ((splitChunks 8192 (defl (-1) ((frows.map Scanline.to_raw).flatten))).map
              (ChunkVecM.mk tagIDAT)),
          img.trailing_data, some ⟨pt, frows⟩⟩ ∧
      imageReconstructGo frows none = .ok wrows ∧
      StegoDims ⟨pt, wrows⟩ W H ∧
      (∀ t, t < 2 * (stegoFrame (defl 9 x)).length →
        chanAt wrows W t &&& 0xF = nibAt (stegoFrame (defl 9 x)) t) ∧
      frows.length = H ∧
      (∀ f ∈ frows, f.filter_type ≤ 4 ∧ f.pixel_data.length = W ∧
        ∀ s ∈ f.pixel_data, s.length = spanBytesOf pt ∧ ∀ b ∈ s, b < 256) := by
  have hm1 : W * H * 3 * 4 % 2 ^ 32 ≤ W * H * 3 * 4 := Nat.mod_le _ _
  have hWH : 7 ≤ W * H := by omega
  have hW : W ≠ 0 := by
    intro h0
    have hz : W * H = 0 := by rw [h0, Nat.zero_mul]
    omega
  have hH : H ≠ 0 := by
    intro h0
    have hz : W * H = 0 := by rw [h0, Nat.mul_zero]
    omega
  have hhc : img.headerChunk = .ok hc := by
    unfold Image.headerChunk
    rw [hih]
  have hpaylen : (stegoFrame (defl 9 x)).length = 10 + (defl 9 x).length := by
    simp [stegoFrame, le32enc]
    omega
  have hpayb : ∀ b ∈ stegoFrame (defl 9 x), b < 256 := by
    intro b hb
    unfold stegoFrame at hb
    rcases List.mem_append.mp hb with hb1 | hbd
    · rcases List.mem_append.mp hb1 with hb2 | hbc
      · rcases List.mem_append.mp hb2 with hbh | hbl
        · simp only [List.mem_cons, List.not_mem_nil, or_false] at hbh
          rcases hbh with rfl | rfl | rfl <;> norm_num
        · simp only [le32enc, List.mem_cons, List.not_mem_nil, or_false] at hbl
          rcases hbl with rfl | rfl | rfl | rfl <;>
            exact Nat.mod_lt _ (by norm_num)
      · exact hb9 b hbc
    · simp only [List.mem_cons, List.not_mem_nil, or_false] at hbd
      rcases hbd with rfl | rfl | rfl <;> norm_num
  obtain ⟨rrows, hload, hreconGo0, hrlen, hrprops⟩ :=
    load_spec infl img hc hs pt W H idats rows hih hpt hpt2 hWd hHd hidat hstream
      hrowsH hrowsS hW
  have hsd0 : StegoDims ⟨pt, rrows⟩ W H :=
    ⟨hpt2, hrlen, fun r hr => ⟨(hrprops r hr).2.1,
      fun s hss => ⟨(hrprops r hr).2.2.1 s hss, (hrprops r hr).2.2.2 s hss⟩⟩⟩
  have hcap2 : 2 * (stegoFrame (defl 9 x)).length ≤ W * H * 3 := by
    omega
  obtain ⟨dW, hwgo, hsdW, hkindW, hftsW, hwrote⟩ :=
    writeStegoGo_spec W H hW (stegoFrame (defl 9 x))
      (2 * (stegoFrame (defl 9 x)).length) 0 ⟨pt, rrows⟩ hsd0 (by omega) hcap2
      (fun t ht => absurd ht (by omega))
  have hkW : dW.kind = pt := hkindW
  have hwrite : Image.write_stego_data { img with image_data := some ⟨pt, rrows⟩ }
      (stegoFrame (defl 9 x)) 0 =
      .ok { img with image_data := some dW } := by
    unfold Image.write_stego_data
    dsimp only
    rw [if_neg (by norm_num)]
    rw [@width_of_find { img with image_data := some ⟨pt, rrows⟩ } hc hs W hih hWd]
    show Except.bind _ _ = _
    simp only [Except.bind]
    rw [@height_of_find { img with image_data := some ⟨pt, rrows⟩ } hc hs H hih hHd]
    show Except.bind _ _ = _
    simp only [Except.bind]
    rw [if_neg (by omega)]
    rw [hwgo]
    show Except.bind _ _ = _
    simp only [Except.bind]
  have hfts0 : ∀ r ∈ dW.rows, r.filter_type = 0 :=
    forall_from_map (fun r => r.filter_type) (· = 0) rrows dW.rows hftsW
      (fun r hr => (hrprops r hr).1)
  obtain ⟨frows, hfgo, hfrecon, hflens, hfprops⟩ :=
    imageFilterGo_inverse dW.rows none W hW
      (fun r hr => ⟨hfts0 r hr, (hsdW.2.2 r hr).1,
        fun s hss => ((hsdW.2.2 r hr).2 s hss).2⟩) trivial
  have hfilter : Image.filter { img with image_data := some dW } =
      .ok { img with image_data := some ⟨dW.kind, frows⟩ } := by
    unfold Image.filter
    dsimp only
    rw [show Image.headerChunk { img with image_data := some dW } = .ok hc from by
      unfold Image.headerChunk
      dsimp only
      rw [hih]]
    show Except.bind _ _ = _
    simp only [Except.bind]
    rw [hpt]
    show Except.bind _ _ = _
    simp only [Except.bind]
    rw [if_neg (by rw [hkW]; simp)]
    rw [hfgo]
  have hfrowsH : frows.length = H := by
    have hfl := length_from_map (fun f : Scanline => f.pixel_data.map List.length)
      dW.rows frows hflens
    rw [hfl]
    exact hsdW.2.1
  have hfrowsS : ∀ f ∈ frows, f.filter_type ≤ 4 ∧ f.pixel_data.length = W ∧
      ∀ s ∈ f.pixel_data, s.length = spanBytesOf pt ∧ ∀ b ∈ s, b < 256 := by
    intro f hf
    refine ⟨(hfprops f hf).1, ?_, ?_⟩
    · have hfm := forall_from_map (fun f : Scanline => f.pixel_data.map List.length)
        (fun m => m.length = W) dW.rows frows hflens
        (fun r hr => by simp [(hsdW.2.2 r hr).1]) f hf
      simpa using hfm
    · intro s hss
      constructor
      · have hfm := forall_from_map (fun f : Scanline => f.pixel_data.map List.length)
          (fun m => ∀ n ∈ m, n = spanBytesOf pt) dW.rows frows hflens
          (fun r hr => by
            intro n hn
            obtain ⟨s', hs', he⟩ := List.mem_map.mp hn
            have hsl := ((hsdW.2.2 r hr).2 s' hs').1
            rw [hkW] at hsl
            rw [← he]
            exact hsl) f hf
        exact hfm _ (List.mem_map_of_mem _ hss)
      · exact (hfprops f hf).2 s hss
  refine ⟨frows, dW.rows, ?_, hfrecon, ?_, hwrote, hfrowsH, hfrowsS⟩
  · have hpe : [70, 67, 68] ++ le32enc ((defl 9 x).length % 2 ^ 32) ++ defl 9 x ++
        [68, 67, 70] = stegoFrame (defl 9 x) := rfl
    have hcreate : img.create_stego_payload defl infl x =
        .ok ⟨mapSet img.chunk_map tagIDAT
            ((splitChunks 8192 (defl (-1) ((frows.map Scanline.to_raw).flatten))).map
              (ChunkVecM.mk tagIDAT)),
          img.trailing_data, some ⟨dW.kind, frows⟩⟩ := by
      unfold Image.create_stego_payload
      rw [hhc]
      show Except.bind _ _ = _
      simp only [Except.bind]
      rw [hpt]
      show Except.bind _ _ = _
      simp only [Except.bind]
      rw [if_neg (by rcases hpt2 with rfl | rfl <;> simp)]
      rw [hWd]
      show Except.bind _ _ = _
      simp only [Except.bind]
      rw [hHd]
      show Except.bind _ _ = _
      simp only [Except.bind]
      rw [if_neg (by
        simp only [List.length_append, List.length_cons, List.length_nil, le32enc]
        omega)]
      rw [hpe, hload]
      show Except.bind _ _ = _
      simp only [Except.bind]
      rw [hwrite]
      show Except.bind _ _ = _
      simp only [Except.bind]
      rw [hfilter]
      show Except.bind _ _ = _
      simp only [Except.bind]
      unfold Image.compress
      rfl
    rw [hkW] at hcreate
    exact hcreate
  · refine ⟨hpt2, hsdW.2.1, fun r hr => ⟨(hsdW.2.2 r hr).1, fun s hss => ?_⟩⟩
    have hsl := (hsdW.2.2 r hr).2 s hss
    rw [hkW] at hsl
    exact hsl

theorem stegoFrame_length (c : List Nat) : (stegoFrame c).length = 10 + c.length := by
  simp [stegoFrame, le32enc]
  omega

theorem stegoFrame_bytes (c : List Nat) (h : ∀ b ∈ c, b < 256) :
    ∀ b ∈ stegoFrame c, b < 256 := by
  intro b hb
  unfold stegoFrame at hb
  rcases List.mem_append.mp hb with hb1 | hbd
  · rcases List.mem_append.mp hb1 with hb2 | hbc
    · rcases List.mem_append.mp hb2 with hbh | hbl
      · simp only [List.mem_cons, List.not_mem_nil, or_false] at hbh
        rcases hbh with rfl | rfl | rfl <;> norm_num
      · simp only [le32enc, List.mem_cons, List.not_mem_nil, or_false] at hbl
        rcases hbl with rfl | rfl | rfl | rfl <;> exact Nat.mod_lt _ (by norm_num)
    · exact h b hbc
  · simp only [List.mem_cons, List.not_mem_nil, or_false] at hbd
    rcases hbd with rfl | rfl | rfl <;> norm_num

/-- `has_stego_payload` and `extract_stego_payload` on a loaded carrier
whose channel low nibbles hold the nibbles of a framed blob: the header
`"FCD"`, the length field, and the footer `"DCF"` are all found, and
the extracted body inflates back. -/
theorem stego_payload_reads (img : Image) (d : ImageData) (W H : Nat) (x : List Nat)
    (compressed : List Nat) (infl : List Nat → Except Err (List Nat))
    (himg : img.image_data = some d) (hd : StegoDims d W H)
    (hWi : img.width = .ok W) (hHi : img.height = .ok H)
    (hbc : ∀ b ∈ compressed, b < 256) (hlc : compressed.length < 2 ^ 32)
    (hwr : ∀ t, t < 2 * (stegoFrame compressed).length →
      chanAt d.rows W t &&& 0xF = nibAt (stegoFrame compressed) t)
    (hcap : 8 * (stegoFrame compressed).length ≤ W * H * 3 * 4 % 2 ^ 32)
    (hinf : infl compressed = .ok x) :
    img.has_stego_payload = .ok true ∧ img.extract_stego_payload infl = .ok x := by
  have hm1 : W * H * 3 * 4 % 2 ^ 32 ≤ W * H * 3 * 4 := Nat.mod_le _ _
  have hpaylen := stegoFrame_length compressed
  have hWH : 7 ≤ W * H := by omega
  have hW : W ≠ 0 := by
    intro h0
    have hz : W * H = 0 := by rw [h0, Nat.zero_mul]
    omega
  have hpayb := stegoFrame_bytes compressed hbc
  have hframe : stegoFrame compressed = 70 :: 67 :: 68 ::
      (le32enc (compressed.length % 2 ^ 32) ++ (compressed ++ [68, 67, 70])) := by
    simp [stegoFrame]
  have hsz : le32dec (le32enc (compressed.length % 2 ^ 32)) = compressed.length := by
    rw [le32dec_le32enc _ (Nat.mod_lt _ (by norm_num)), Nat.mod_eq_of_lt hlc]
  -- the three reads
  have hr0 := read_stego_slice img d W H himg hd hW hWi hHi (stegoFrame compressed)
    hpayb hwr hcap 0 3 (by omega)
  rw [show (8 : Nat) * 0 = 0 from rfl] at hr0
  have hs0 : ((stegoFrame compressed).drop 0).take 3 = [70, 67, 68] := by
    rw [hframe]
    rfl
  rw [hs0] at hr0
  have hr3 := read_stego_slice img d W H himg hd hW hWi hHi (stegoFrame compressed)
    hpayb hwr hcap 3 4 (by omega)
  rw [show (8 : Nat) * 3 = 3 * 8 by norm_num] at hr3
  have hs3 : ((stegoFrame compressed).drop 3).take 4 =
      le32enc (compressed.length % 2 ^ 32) := by
    rw [hframe]
    have hd3 : (70 :: 67 :: 68 ::
        (le32enc (compressed.length % 2 ^ 32) ++ (compressed ++ [68, 67, 70]))).drop 3 =
        le32enc (compressed.length % 2 ^ 32) ++ (compressed ++ [68, 67, 70]) := rfl
    rw [hd3, take_append_of_length _ _ 4 (by simp [le32enc])]
  rw [hs3] at hr3
  have hr7 := read_stego_slice img d W H himg hd hW hWi hHi (stegoFrame compressed)
    hpayb hwr hcap 7 compressed.length (by omega)
  rw [show (8 : Nat) * 7 = 7 * 8 by norm_num] at hr7
  have hd7 : (stegoFrame compressed).drop 7 = compressed ++ [68, 67, 70] := by
    rw [hframe]
    have hd3 : (70 :: 67 :: 68 ::
        (le32enc (compressed.length % 2 ^ 32) ++ (compressed ++ [68, 67, 70]))).drop 3 =
        le32enc (compressed.length % 2 ^ 32) ++ (compressed ++ [68, 67, 70]) := rfl
    rw [show (7 : Nat) = 3 + 4 by norm_num, ← List.drop_drop, hd3]
    exact drop_append_of_length _ _ 4 (by simp [le32enc])
  have hs7 : ((stegoFrame compressed).drop 7).take compressed.length = compressed := by
    rw [hd7]
    exact take_append_of_length _ _ _ rfl
  rw [hs7] at hr7
  have hrF := read_stego_slice img d W H himg hd hW hWi hHi (stegoFrame compressed)
    hpayb hwr hcap (7 + compressed.length) 3 (by omega)
  rw [show (8 : Nat) * (7 + compressed.length) = 7 * 8 + compressed.length * 8
    by ring] at hrF
  have hsF : ((stegoFrame compressed).drop (7 + compressed.length)).take 3 =
      [68, 67, 70] := by
    rw [← List.drop_drop, hd7, drop_append_of_length _ _ _ rfl]
    rfl
  rw [hsF] at hrF
  have hhas : img.has_stego_payload = .ok true := by
    unfold Image.has_stego_payload
    rw [himg]
    dsimp only
    rw [hWi]
    show Except.bind _ _ = _
    simp only [Except.bind]
    rw [hHi]
    show Except.bind _ _ = _
    simp only [Except.bind]
    rw [hr0]
    show Except.bind _ _ = _
    simp only [Except.bind]
    rw [if_neg (by simp)]
    rw [hr3]
    show Except.bind _ _ = _
    simp only [Except.bind]
    rw [hsz]
    have hlt32 : W * H * 3 * 4 % 2 ^ 32 < 2 ^ 32 := Nat.mod_lt _ (by norm_num)
    have hsmall : 7 * 8 + compressed.length * 8 + 3 * 8 < 2 ^ 32 := by omega
    rw [Nat.mod_eq_of_lt hsmall]
    rw [if_neg (by omega)]
    rw [hrF]
    show Except.bind _ _ = _
    simp only [Except.bind]
    rw [if_neg (by simp)]
  refine ⟨hhas, ?_⟩
  unfold Image.extract_stego_payload
  rw [himg]
  dsimp only
  rw [hhas]
  show Except.bind _ _ = _
  simp only [Except.bind]
  rw [if_neg (by simp)]
  rw [hr3]
  show Except.bind _ _ = _
  simp only [Except.bind]
  rw [hsz, hr7]
  show Except.bind _ _ = _
  simp only [Except.bind]
  exact hinf

/-- Claim C1 (amended): for every image whose pixel kind is 8-bit
truecolour or 8-bit alpha-truecolour — well-formed chunk table, an IHDR
giving width `W` and height `H`, an `IDAT` stream inflating to the
serialisation of valid filtered rows — and every byte string `x` whose
framed blob `"FCD" + le32(length) + deflate(x) + "DCF"` is at most
`(W * H * 3 * 4 mod 2 ^ 32) / 8` bytes — the capacity the source
computes: `Header::width()` / `height()` return `uint32_t`, so
`width * height * 3 * 4` is `unsigned int` arithmetic wrapping modulo
`2 ^ 32` — `create_stego_payload(img, x)` succeeds, and parsing and
loading its serialised result yields `has_stego_payload = true` and
`extract_stego_payload = x`.  The deflate/inflate pair is passed in as
a black-box codec in which inflate is a left inverse of deflate
(byte-valued output, a `uint32_t`-sized level-9 stream, and non-empty
output on non-empty input).  (For the unwrapped capacity of the
original wording, see the counterexample.) -/
theorem create_stego_roundtrip
    (defl : Int → List Nat → List Nat) (infl : List Nat → Except Err (List Nat))
    (img fresh : Image) (x : List Nat) (hc : ChunkVecM) (hs : List ChunkVecM)
    (pt : PixelEnum) (W H : Nat) (idats : List ChunkVecM) (rows : List Scanline)
    (validate : Bool)
    (hcodec9 : infl (defl 9 x) = .ok x)
    (hb9 : ∀ b ∈ defl 9 x, b < 256)
    (hlen9 : (defl 9 x).length < 2 ^ 32)
    (hcodecD : ∀ y, infl (defl (-1) y) = .ok y)
    (hDne : ∀ y, y ≠ [] → defl (-1) y ≠ [])
    (hwf : WFImage img)
    (hih : mapFind img.chunk_map tagIHDR = some (hc :: hs))
    (hpt : headerPixelType hc = .ok pt)
    (hpt2 : pt = .TRUE_COLOR_PIXEL_8BIT ∨ pt = .ALPHA_TRUE_COLOR_PIXEL_8BIT)
    (hWd : headerWidth hc = .ok W) (hHd : headerHeight hc = .ok H)
    (hidat : mapFind img.chunk_map tagIDAT = some idats)
    (hstream : infl ((idats.map (·.data)).flatten) =
      .ok ((rows.map Scanline.to_raw).flatten))
    (hrowsH : rows.length = H)
    (hrowsS : ∀ r ∈ rows, r.filter_type ≤ 4 ∧ r.pixel_data.length = W ∧
      ∀ s ∈ r.pixel_data, s.length = spanBytesOf pt ∧ ∀ b ∈ s, b < 256)
    (hcap : 10 + (defl 9 x).length ≤ W * H * 3 * 4 % 2 ^ 32 / 8) :
    ∃ imgC imgP imgL,
      img.create_stego_payload defl infl x = .ok imgC ∧
      fresh.parse imgC.to_file validate = .ok imgP ∧
      imgP.load infl = .ok imgL ∧
      imgL.has_stego_payload = .ok true ∧
      imgL.extract_stego_payload infl = .ok x := by
  obtain ⟨frows, wrows, hcreate, hfrecon, hsdw, hwrote, hfrowsH, hfrowsS⟩ :=
    create_stego_spec defl infl img x hc hs pt W H idats rows hb9 hDne hih hpt hpt2
      hWd hHd hidat hstream hrowsH hrowsS hcap
  have hm1 : W * H * 3 * 4 % 2 ^ 32 ≤ W * H * 3 * 4 := Nat.mod_le _ _
  have hWH : 7 ≤ W * H := by omega
  have hW : W ≠ 0 := by
    intro h0
    have hz : W * H = 0 := by rw [h0, Nat.zero_mul]
    omega
  have hH : H ≠ 0 := by
    intro h0
    have hz : W * H = 0 := by rw [h0, Nat.mul_zero]
    omega
  have hpaylen := stegoFrame_length (defl 9 x)
  have hstream_ne : (frows.map Scanline.to_raw).flatten ≠ [] := by
    cases hfr : frows with
    | nil =>
      rw [hfr] at hfrowsH
      simp at hfrowsH
      exact absurd hfrowsH.symm hH
    | cons f rest => simp [Scanline.to_raw]
  have hcne : defl (-1) ((frows.map Scanline.to_raw).flatten) ≠ [] := hDne _ hstream_ne
  obtain ⟨newIdats, hNI⟩ : ∃ l, (splitChunks 8192 (defl (-1)
      ((frows.map Scanline.to_raw).flatten))).map (ChunkVecM.mk tagIDAT) = l := ⟨_, rfl⟩
  rw [hNI] at hcreate
  have hNIne : newIdats ≠ [] := by
    rw [← hNI]
    simp only [ne_eq, List.map_eq_nil_iff]
    exact splitChunks_ne_nil _ _ hcne (by norm_num)
  have hNIprops : ∀ c ∈ newIdats, c.tag = tagIDAT ∧ c.data.length < 2 ^ 32 := by
    intro c hcm
    rw [← hNI] at hcm
    obtain ⟨piece, hpm, hpe⟩ := List.mem_map.mp hcm
    have hplen := splitChunks_mem 8192 _ piece hpm
    rw [← hpe]
    refine ⟨rfl, ?_⟩
    show piece.length < 2 ^ 32
    omega
  have hNIdata : (newIdats.map (·.data)).flatten =
      defl (-1) ((frows.map Scanline.to_raw).flatten) := by
    rw [← hNI, List.map_map]
    rw [show ((fun c : ChunkVecM => c.data) ∘ ChunkVecM.mk tagIDAT) = id from rfl]
    rw [List.map_id]
    exact splitChunks_flatten 8192 (by norm_num) _
  have hwfC : WFImage (⟨mapSet img.chunk_map tagIDAT newIdats, img.trailing_data,
      some ⟨pt, frows⟩⟩ : Image) :=
    compressMap_wf img hwf newIdats (by rw [hidat]; rfl) hNIne hNIprops
  have hparse := image_parse_to_file
    (⟨mapSet img.chunk_map tagIDAT newIdats, img.trailing_data,
      some ⟨pt, frows⟩⟩ : Image)
    fresh validate hwfC (emitSeqPre_wf _ hwfC) (iendChunkOf_wf _ hwfC)
  obtain ⟨M2, hM2⟩ : ∃ m, (emitSeqPre (⟨mapSet img.chunk_map tagIDAT newIdats,
      img.trailing_data, some ⟨pt, frows⟩⟩ : Image) ++
      [iendChunkOf (⟨mapSet img.chunk_map tagIDAT newIdats, img.trailing_data,
        some ⟨pt, frows⟩⟩ : Image)]).foldl
      (fun m' c => mapPush m' c.tag c) [] = m := ⟨_, rfl⟩
  rw [hM2] at hparse
  have hfindIH_C : mapFind (mapSet img.chunk_map tagIDAT newIdats) tagIHDR =
      some (hc :: hs) := by
    rw [mapFind_mapSet, if_neg (by decide)]
    exact hih
  have hfindID_C : mapFind (mapSet img.chunk_map tagIDAT newIdats) tagIDAT =
      some newIdats := by
    rw [mapFind_mapSet, if_pos rfl]
  have hfindIH_P : mapFind M2 tagIHDR = some (hc :: hs) := by
    rw [← hM2]
    exact reparse_find_IHDR _ hwfC _ hfindIH_C (by simp)
  have hfindID_P : mapFind M2 tagIDAT = some newIdats := by
    rw [← hM2]
    exact reparse_find_IDAT _ hwfC _ hfindID_C hNIne
  dsimp only at hparse
  obtain ⟨T2, hT2⟩ : ∃ t, (if img.trailing_data.getD [] = [] then none
      else some (img.trailing_data.getD []) : Option (List Nat)) = t := ⟨_, rfl⟩
  rw [hT2] at hparse
  refine ⟨_, _, (⟨M2, T2, some ⟨pt, wrows⟩⟩ : Image), hcreate, hparse, ?_, ?_, ?_⟩
  · obtain ⟨rr2, hload2, hgo2, hrr2len, hrr2p⟩ := load_spec infl
      (⟨M2, T2, fresh.image_data⟩ : Image)
      hc hs pt W H newIdats frows hfindIH_P hpt hpt2 hWd hHd hfindID_P
      (by rw [hNIdata]; exact hcodecD _) hfrowsH
      (fun f hf => hfrowsS f hf) hW
    have hrr2w : rr2 = wrows := by
      rw [hfrecon] at hgo2
      injection hgo2 with h
      exact h.symm
    rw [hrr2w] at hload2
    exact hload2
  · have hreads := stego_payload_reads (⟨M2, T2, some ⟨pt, wrows⟩⟩ : Image)
      ⟨pt, wrows⟩ W H x (defl 9 x) infl rfl hsdw
      (@width_of_find (⟨M2, T2, some ⟨pt, wrows⟩⟩ : Image) hc hs W hfindIH_P hWd)
      (@height_of_find (⟨M2, T2, some ⟨pt, wrows⟩⟩ : Image) hc hs H hfindIH_P hHd)
      hb9 hlen9 hwrote (by omega) hcodec9
    exact hreads.1
  · have hreads := stego_payload_reads (⟨M2, T2, some ⟨pt, wrows⟩⟩ : Image)
      ⟨pt, wrows⟩ W H x (defl 9 x) infl rfl hsdw
      (@width_of_find (⟨M2, T2, some ⟨pt, wrows⟩⟩ : Image) hc hs W hfindIH_P hWd)
      (@height_of_find (⟨M2, T2, some ⟨pt, wrows⟩⟩ : Image) hc hs H hfindIH_P hHd)
      hb9 hlen9 hwrote (by omega) hcodec9
    exact hreads.2

/-- A 3×3 8-bit truecolour image whose `IDAT` "stream" is the raw
serialisation of three all-black unfiltered rows (for exercising the
stego round trip with the identity codec). -/
def c1Image : Image :=
  ⟨[(tagIHDR, [⟨tagIHDR, [0, 0, 0, 3, 0, 0, 0, 3, 8, 2, 0, 0, 0]⟩]),
    (tagIDAT, [⟨tagIDAT, List.replicate 30 0⟩])], none, none⟩

theorem create_stego_roundtrip_witness :
    ∃ imgC imgP imgL,
      Image.create_stego_payload (fun _ y => y) (fun y => .ok y) c1Image [7] =
        .ok imgC ∧
      Image.parse emptyImage imgC.to_file true = .ok imgP ∧
      Image.load (fun y => .ok y) imgP = .ok imgL ∧
      imgL.has_stego_payload = .ok true ∧
      Image.extract_stego_payload (fun y => .ok y) imgL = .ok [7] :=
  create_stego_roundtrip (fun _ y => y) (fun y => .ok y) c1Image emptyImage [7]
    ⟨tagIHDR, [0, 0, 0, 3, 0, 0, 0, 3, 8, 2, 0, 0, 0]⟩ []
    .TRUE_COLOR_PIXEL_8BIT 3 3 [⟨tagIDAT, List.replicate 30 0⟩]
    (List.replicate 3 ⟨0, List.replicate 3 (List.replicate 3 0)⟩) true
    rfl (by decide) (by decide) (fun y => rfl) (fun y h => h)
    (by refine ⟨?_, ?_, ?_⟩ <;> decide)
    (by decide) (by decide) (Or.inl rfl) (by decide) (by decide) (by decide)
    (by decide) (by decide) (by decide) (by decide)

/-- An 8-bit truecolour image of width 357913942 and height 1
(`0x15555556 * 1 * 12 = 2 ^ 32 + 8`), whose header alone decides the
capacity check of `create_stego_payload` — the `ImageTooSmall` throw
precedes `load()`, so no pixel data is consulted. -/
def c1BigImage : Image :=
  ⟨[(tagIHDR, [⟨tagIHDR, [21, 85, 85, 86, 0, 0, 0, 1, 8, 2, 0, 0, 0]⟩])],
    none, none⟩

/-- Claim C1 (counterexample to the original, unwrapped reading of the
capacity): on an 8-bit truecolour image with `width = 357913942` and
`height = 1`, the mathematical capacity `width * height * 3 * 4 / 8 =
536870913` bytes admits the 10-byte framed blob of the empty payload,
yet `create_stego_payload` computes `width * height * 3 * 4` in
`unsigned int` arithmetic (`Header::width()` / `height()` return
`uint32_t`), so `357913942 * 12 = 2 ^ 32 + 8` wraps to `8`,
`max_storage = 1`, and the call throws `ImageTooSmall(1, 10)` instead
of succeeding (`src/payload.cpp` 244–245). -/
theorem create_stego_capacity_wrap :
    c1BigImage.width = .ok 357913942 ∧ c1BigImage.height = .ok 1 ∧
    (stegoFrame ((fun (_ : Int) (y : List Nat) => y) 9 [])).length ≤
      357913942 * 1 * 3 * 4 / 8 ∧
    Image.create_stego_payload (fun _ y => y) (fun y => .ok y) c1BigImage [] =
      .error (.ImageTooSmall 1 10) :=
  ⟨rfl, rfl, by norm_num [stegoFrame, le32enc], rfl⟩

end Facade
